import Mathlib

/-!
# SimpleLang compiler (`main.cpp`): scanner, parser and code generator

A shallow embedding of the three stages of `main.cpp` and the properties of
them that the specification states.

Conventions of the embedding.

* The input file is the list of the characters `fgetc` has not returned yet;
  `ungetc` puts a character back at the head.  Every list element stands for one
  byte of the file; `isspace`, `isalpha`, `isdigit` are those of the "C" locale.
* `char` buffers (`Token.text`, `ASTNode.varName`, the rows of `varTable`) are
  the C strings they hold, as `List Char`.
* `exit(1)` after a diagnostic is the result `Abort.exit msg`; behaviour the
  C standard leaves undefined (a write past `varTable`, a null dereference)
  is the result `Abort.undefined`; a loop of the embedding that was given too
  little fuel ends in `Abort.fuel`.
* `malloc` is not modelled by a value: every node records the ordinal of the
  `createNode` call that made it, and the code generator is given the map
  from that ordinal to the address `malloc` returned.
-/

namespace SimpleLang

/-! ## Constants and data model -/

/-- `#define MAX_TOKEN_LEN 100`. -/
def MAX_TOKEN_LEN : Nat := 100

/-- `#define MAX_VARS 26`. -/
def MAX_VARS : Nat := 26

/-- `enum TokenType`. -/
inductive TokenType where
  | TOKEN_INT | TOKEN_IDENTIFIER | TOKEN_NUMBER | TOKEN_ASSIGN
  | TOKEN_PLUS | TOKEN_MINUS | TOKEN_IF | TOKEN_EQUAL | TOKEN_LPAREN | TOKEN_RPAREN
  | TOKEN_LBRACE | TOKEN_RBRACE | TOKEN_SEMICOLON | TOKEN_EOF | TOKEN_UNKNOWN
  deriving DecidableEq, Repr

/-- `struct Token`. -/
structure Token where
  type : TokenType
  text : List Char
  value : Int
  deriving DecidableEq, Repr

/-- `enum NodeType`. -/
inductive NodeType where
  | NODE_PROGRAM | NODE_VAR_DECL | NODE_ASSIGN | NODE_BINARY_OP
  | NODE_NUMBER | NODE_IDENTIFIER | NODE_IF
  deriving DecidableEq, Repr

/-- The scalar members of `struct ASTNode`, and `id`, the ordinal of the
`createNode` call that allocated the node (its identity). -/
structure NodeData where
  id : Nat
  type : NodeType
  varName : List Char
  value : Int
  op : Char
  deriving DecidableEq, Repr

/-- A value of type `ASTNode*`: the null pointer, or a node with its scalar
members and its five links `left`, `right`, `condition`, `ifBody`, `next`. -/
inductive ASTNode where
  | null : ASTNode
  | node (d : NodeData) (left right condition ifBody next : ASTNode) : ASTNode
  deriving DecidableEq, Repr

/-- How a run of the compiler can end without a result. -/
inductive Abort where
  | exit (msg : String)
  | undefined (why : String)
  | fuel
  deriving DecidableEq, Repr

/-- The global variables: the unread part of `inputFile`, `currentToken`,
the rows `0 .. varCount-1` of `varTable`, and the number of nodes allocated. -/
structure State where
  input : List Char
  currentToken : Token
  varTable : List (List Char)
  nalloc : Nat
  deriving DecidableEq, Repr

/-- The global `varCount`: the number of rows of `varTable` in use. -/
def State.varCount (st : State) : Nat := st.varTable.length

/-! ## Scanner -/

/-- `isspace` in the "C" locale. -/
def isspace (c : Char) : Bool :=
  c = ' ' || c = '\t' || c = '\n' || c = Char.ofNat 11 || c = Char.ofNat 12 || c = '\r'

/-- `isdigit`: the codes 48 (`0`) to 57 (`9`). -/
def isdigit (c : Char) : Bool := 48 ≤ c.toNat && c.toNat ≤ 57

/-- `isalpha` in the "C" locale: the codes 97 (`a`) to 122 (`z`) and 65 (`A`)
to 90 (`Z`). -/
def isalpha (c : Char) : Bool :=
  (97 ≤ c.toNat && c.toNat ≤ 122) || (65 ≤ c.toNat && c.toNat ≤ 90)

/-- `isalnum`. -/
def isalnum (c : Char) : Bool := isalpha c || isdigit c

mutual
/-- The outer loop of lines 63-74: returns the character the loop left in
`c` (`none` for `EOF`) and the unread input. -/
def skipBlank : List Char → Option Char × List Char
  | [] => (none, [])
  | c :: cs =>
    if isspace c then skipBlank cs
    else if c = '/' then
      match cs with
      | [] => (some c, [])
      | next :: cs' => if next = '/' then skipLine cs' else (some c, next :: cs')
    else (some c, cs)
/-- The inner loop of line 68, followed by the `continue` of line 69. -/
def skipLine : List Char → Option Char × List Char
  | [] => (none, [])
  | c :: cs => if c = '\n' then skipBlank cs else skipLine cs
end

/-- The loops of lines 86-88 and 105-107: `len` characters are stored already;
returns the characters stored by the loop and the unread input (the character
that ended the loop is pushed back by `ungetc`). -/
def readRun (p : Char → Bool) : Nat → List Char → List Char × List Char
  | _, [] => ([], [])
  | len, c :: cs =>
    if p c && decide (len < MAX_TOKEN_LEN - 1) then
      ((readRun p (len + 1) cs).1.cons c, (readRun p (len + 1) cs).2)
    else ([], c :: cs)

/-- The value of a string of decimal digits. -/
def digitsValue (ds : List Char) : Nat :=
  ds.foldl (fun acc c => acc * 10 + (c.toNat - 48)) 0

/-- Conversion of an integer to `int` (two's complement, 32 bits). -/
def toInt32 (v : Int) : Int := (v + 2 ^ 31) % 2 ^ 32 - 2 ^ 31

/-- `atoi` on a string of decimal digits.  A value that `int` cannot hold is
undefined in C; the value here is the one glibc computes on LP64
(`strtol` saturates at `LONG_MAX`, the result is converted to `int`). -/
def atoi (ds : List Char) : Int :=
  toInt32 (min (digitsValue ds : Int) (2 ^ 63 - 1))

/-- The keyword test of lines 92-97. -/
def wordType (text : List Char) : TokenType :=
  if text = ['i', 'n', 't'] then TokenType.TOKEN_INT
  else if text = ['i', 'f'] then TokenType.TOKEN_IF
  else TokenType.TOKEN_IDENTIFIER

/-- The C string held by a buffer whose first byte is `c` and second is NUL. -/
def charText (c : Char) : List Char := if c = Char.ofNat 0 then [] else [c]

/-- The `switch` of lines 119-139 for a character other than `=`. -/
def symbolType (c : Char) : TokenType :=
  if c = '+' then TokenType.TOKEN_PLUS
  else if c = '-' then TokenType.TOKEN_MINUS
  else if c = '(' then TokenType.TOKEN_LPAREN
  else if c = ')' then TokenType.TOKEN_RPAREN
  else if c = '{' then TokenType.TOKEN_LBRACE
  else if c = '}' then TokenType.TOKEN_RBRACE
  else if c = ';' then TokenType.TOKEN_SEMICOLON
  else TokenType.TOKEN_UNKNOWN

/-- `getNextToken` as a function of the previous token (whose `value` member
survives unless a number is read) and the unread input. -/
def scan (old : Token) (input : List Char) : Token × List Char :=
  match skipBlank input with
  | (none, rest) => ({ type := TokenType.TOKEN_EOF, text := [], value := old.value }, rest)
  | (some c, rest) =>
    if isalpha c then
      let r := readRun isalnum 1 rest
      ({ type := wordType (c :: r.1), text := c :: r.1, value := old.value }, r.2)
    else if isdigit c then
      let r := readRun isdigit 1 rest
      ({ type := TokenType.TOKEN_NUMBER, text := c :: r.1, value := atoi (c :: r.1) }, r.2)
    else if c = '=' then
      match rest with
      | [] => ({ type := TokenType.TOKEN_ASSIGN, text := ['='], value := old.value }, [])
      | c2 :: rest' =>
        if c2 = '=' then
          ({ type := TokenType.TOKEN_EQUAL, text := ['=', '='], value := old.value }, rest')
        else ({ type := TokenType.TOKEN_ASSIGN, text := ['='], value := old.value }, c2 :: rest')
    else ({ type := symbolType c, text := charText c, value := old.value }, rest)

/-- `getNextToken`. -/
def getNextToken (st : State) : State :=
  { st with currentToken := (scan st.currentToken st.input).1,
            input := (scan st.currentToken st.input).2 }

/-! ## Parser -/

/-- The effect of one `createNode` call on the globals: one more node. -/
def State.alloc (st : State) : State := { st with nalloc := st.nalloc + 1 }

/-- The effect of `strcpy(varTable[varCount++], name)` while `varCount < MAX_VARS`. -/
def State.register (st : State) (name : List Char) : State :=
  { st with varTable := st.varTable ++ [name] }

/-- Result of a parsing or generating function. -/
abbrev Res (α : Type) := Except Abort α

instance instDecEqRes {ε α : Type} [DecidableEq ε] [DecidableEq α] : DecidableEq (Except ε α)
  | .ok a, .ok b => if h : a = b then isTrue (by rw [h]) else isFalse (by intro e; cases e; exact h rfl)
  | .error a, .error b =>
    if h : a = b then isTrue (by rw [h]) else isFalse (by intro e; cases e; exact h rfl)
  | .ok _, .error _ => isFalse (by intro e; cases e)
  | .error _, .ok _ => isFalse (by intro e; cases e)

/-- The members `createNode` gives the node made by allocation number `id`. -/
def createData (id : Nat) (type : NodeType) : NodeData :=
  { id := id, type := type, varName := [], value := 0, op := Char.ofNat 0 }

/-- `createNode(NODE_NUMBER)` with `value` assigned (lines 252-253). -/
def numberNode (id : Nat) (value : Int) : ASTNode :=
  .node { createData id NodeType.NODE_NUMBER with value := value } .null .null .null .null .null

/-- `createNode(NODE_IDENTIFIER)` with `varName` copied (lines 256-257). -/
def identifierNode (id : Nat) (name : List Char) : ASTNode :=
  .node { createData id NodeType.NODE_IDENTIFIER with varName := name }
    .null .null .null .null .null

/-- `createNode(NODE_BINARY_OP)` with `op`, `left` and `right` assigned
(lines 237-241 and 286-289). -/
def binaryNode (id : Nat) (op : Char) (left right : ASTNode) : ASTNode :=
  .node { createData id NodeType.NODE_BINARY_OP with op := op } left right .null .null .null

/-- `createNode(NODE_VAR_DECL)` with `varName` copied (lines 195-196). -/
def varDeclNode (id : Nat) (name : List Char) : ASTNode :=
  .node { createData id NodeType.NODE_VAR_DECL with varName := name }
    .null .null .null .null .null

/-- `createNode(NODE_ASSIGN)` with `varName` and `right` assigned
(lines 211-212 and 222). -/
def assignNode (id : Nat) (name : List Char) (right : ASTNode) : ASTNode :=
  .node { createData id NodeType.NODE_ASSIGN with varName := name }
    .null right .null .null .null

/-- `createNode(NODE_IF)` with `condition` and `ifBody` assigned
(lines 276, 290 and 304). -/
def ifNode (id : Nat) (condition ifBody : ASTNode) : ASTNode :=
  .node (createData id NodeType.NODE_IF) .null .null condition ifBody .null

/-- `createNode(NODE_PROGRAM)` with `next` assigned (lines 154 and 163). -/
def programNode (id : Nat) (chain : ASTNode) : ASTNode :=
  .node (createData id NodeType.NODE_PROGRAM) .null .null .null .null chain

/-- `parseTerm`. -/
def parseTerm (st : State) : Res (ASTNode × State) :=
  if st.currentToken.type = TokenType.TOKEN_NUMBER then
    .ok (numberNode st.nalloc st.currentToken.value,
         getNextToken st.alloc)
  else if st.currentToken.type = TokenType.TOKEN_IDENTIFIER then
    .ok (identifierNode st.nalloc st.currentToken.text,
         getNextToken st.alloc)
  else .error (.exit "Error: Expected number or identifier\n")

/-- The `while` loop of `parseExpression` (lines 236-243), entered with `left`
parsed; `fuel` bounds the number of iterations. -/
def parseExprLoop : Nat → ASTNode → State → Res (ASTNode × State)
  | fuel, left, st =>
    if st.currentToken.type = TokenType.TOKEN_PLUS ∨
        st.currentToken.type = TokenType.TOKEN_MINUS then
      match fuel with
      | 0 => .error .fuel
      | fuel + 1 =>
        match parseTerm (getNextToken st.alloc) with
        | .error e => .error e
        | .ok (right, st2) =>
          parseExprLoop fuel
            (binaryNode st.nalloc
              (if st.currentToken.type = TokenType.TOKEN_PLUS then '+' else '-') left right)
            st2
    else .ok (left, st)

/-- `parseExpression`.  Every iteration of its loop reads at least one
character, so the loop is given one more iteration than characters are unread. -/
def parseExpression (st : State) : Res (ASTNode × State) :=
  match parseTerm st with
  | .error e => .error e
  | .ok (left, st1) => parseExprLoop (st1.input.length + 1) left st1

/-- `parseVarDecl`.  The row `varTable[varCount]` exists only while
`varCount < MAX_VARS`. -/
def parseVarDecl (st : State) : Res (ASTNode × State) :=
  let st1 := getNextToken st
  if st1.currentToken.type ≠ TokenType.TOKEN_IDENTIFIER then
    .error (.exit "Error: Expected identifier\n")
  else if MAX_VARS ≤ st1.varCount then
    .error (.undefined "strcpy to varTable[varCount] with varCount >= MAX_VARS")
  else
    let st2 := getNextToken (st1.alloc.register st1.currentToken.text)
    if st2.currentToken.type ≠ TokenType.TOKEN_SEMICOLON then
      .error (.exit "Error: Expected semicolon\n")
    else .ok (varDeclNode st1.nalloc st1.currentToken.text, getNextToken st2)

/-- `parseAssignment`. -/
def parseAssignment (st : State) : Res (ASTNode × State) :=
  let st1 := getNextToken st.alloc
  if st1.currentToken.type ≠ TokenType.TOKEN_ASSIGN then
    .error (.exit "Error: Expected '='\n")
  else
    match parseExpression (getNextToken st1) with
    | .error e => .error e
    | .ok (right, st2) =>
      if st2.currentToken.type ≠ TokenType.TOKEN_SEMICOLON then
        .error (.exit "Error: Expected semicolon\n")
      else .ok (assignNode st.nalloc st.currentToken.text right, getNextToken st2)

/-- `parseIf`; `parseStatement` is the function called at line 304. -/
def parseIf (parseStatement : State → Res (ASTNode × State)) (st : State) :
    Res (ASTNode × State) :=
  let st1 := getNextToken st
  if st1.currentToken.type ≠ TokenType.TOKEN_LPAREN then
    .error (.exit "Error: Expected '('\n")
  else
    match parseExpression (getNextToken st1.alloc) with
    | .error e => .error e
    | .ok (leftCond, st2) =>
      if st2.currentToken.type ≠ TokenType.TOKEN_EQUAL then
        .error (.exit "Error: Only '==' supported in conditions\n")
      else
        match parseExpression (getNextToken st2) with
        | .error e => .error e
        | .ok (rightCond, st3) =>
          if st3.currentToken.type ≠ TokenType.TOKEN_RPAREN then
            .error (.exit "Error: Expected ')'\n")
          else
            let st4 := getNextToken st3.alloc
            if st4.currentToken.type ≠ TokenType.TOKEN_LBRACE then
              .error (.exit "Error: Expected '\x7b'\n")
            else
              match parseStatement (getNextToken st4) with
              | .error e => .error e
              | .ok (body, st5) =>
                if st5.currentToken.type ≠ TokenType.TOKEN_RBRACE then
                  .error (.exit "Error: Expected '\x7d'\n")
                else
                  .ok (ifNode st1.nalloc (binaryNode st3.nalloc '=' leftCond rightCond) body,
                       getNextToken st5)

/-- `parseStatement`; `fuel` bounds the nesting of `if` statements. -/
def parseStatement : Nat → State → Res (ASTNode × State)
  | fuel, st =>
    if st.currentToken.type = TokenType.TOKEN_INT then parseVarDecl st
    else if st.currentToken.type = TokenType.TOKEN_IDENTIFIER then parseAssignment st
    else if st.currentToken.type = TokenType.TOKEN_IF then
      match fuel with
      | 0 => .error .fuel
      | fuel + 1 => parseIf (parseStatement fuel) st
    else .ok (.null, getNextToken st)

/-- The assignment `current->next = stmt` (or `root->next = stmt`), seen from
the statement that comes first: `stmt` gets `rest` as its successor; a null
`stmt` is not linked. -/
def link (stmt rest : ASTNode) : ASTNode :=
  match stmt with
  | .null => rest
  | .node d l r c b _ => .node d l r c b rest

/-- The `while` loop of `parseProgram` (lines 159-170): returns the chain of
the statements parsed from here on. -/
def parseProgramLoop : Nat → State → Res (ASTNode × State)
  | fuel, st =>
    if st.currentToken.type = TokenType.TOKEN_EOF then .ok (.null, st)
    else
      match fuel with
      | 0 => .error .fuel
      | fuel + 1 =>
        match parseStatement (fuel + 1) st with
        | .error e => .error e
        | .ok (stmt, st1) =>
          match parseProgramLoop fuel st1 with
          | .error e => .error e
          | .ok (rest, st2) => .ok (link stmt rest, st2)

/-- `parseProgram`.  Every iteration of its loop, and every nested `if`, reads
at least one character, which bounds both by the length of the input. -/
def parseProgram (st : State) : Res (ASTNode × State) :=
  let st1 := getNextToken st.alloc
  match parseProgramLoop (st1.input.length + 1) st1 with
  | .error e => .error e
  | .ok (chain, st2) => .ok (programNode st.nalloc chain, st2)

/-! ## Code generator -/

/-- `getVarOffset`, on rows `i, i+1, ...` of the table. -/
def getVarOffsetFrom (varName : List Char) : Nat → List (List Char) → Int
  | _, [] => -1
  | i, row :: rows => if row = varName then (i : Int) else getVarOffsetFrom varName (i + 1) rows

/-- `getVarOffset`. -/
def getVarOffset (varTable : List (List Char)) (varName : List Char) : Int :=
  getVarOffsetFrom varName 0 varTable

/-- One `fprintf` of the code generator. -/
inductive Line where
  | header1 | header2 | hlt
  | declare (name : List Char)
  | assignment (name : List Char)
  | ldi (value : Int)
  | ld (offset : Int) (name : List Char)
  | pushOperand | movR1 | popOperand | add | sub
  | st (offset : Int) (name : List Char)
  | ifStatement | pushSide | popSide | cmp
  | jne (addr : Nat)
  | label (addr : Nat)
  deriving DecidableEq, Repr

/-- `generateExpression`. -/
def generateExpression (varTable : List (List Char)) : ASTNode → Res (List Line)
  | .null => .error (.undefined "generateExpression: node is null")
  | .node d left right _ _ _ =>
    if d.type = NodeType.NODE_NUMBER then .ok [Line.ldi d.value]
    else if d.type = NodeType.NODE_IDENTIFIER then
      .ok [Line.ld (getVarOffset varTable d.varName) d.varName]
    else if d.type = NodeType.NODE_BINARY_OP then
      match generateExpression varTable left with
      | .error e => .error e
      | .ok l =>
        match generateExpression varTable right with
        | .error e => .error e
        | .ok r =>
          .ok (l ++ [Line.pushOperand] ++ r ++ [Line.movR1, Line.popOperand] ++
            (if d.op = '+' then [Line.add] else if d.op = '-' then [Line.sub] else []))
    else .ok []

/-- `generateCode`; `addr` gives the address of the node made by each
allocation, which `%p` prints in the labels. -/
def generateCode (addr : Nat → Nat) (varTable : List (List Char)) : ASTNode → Res (List Line)
  | .null => .ok []
  | .node d _ right condition ifBody next =>
    match d.type with
    | NodeType.NODE_PROGRAM =>
      match generateCode addr varTable next with
      | .error e => .error e
      | .ok rest => .ok ([Line.header1, Line.header2] ++ rest ++ [Line.hlt])
    | NodeType.NODE_VAR_DECL =>
      match generateCode addr varTable next with
      | .error e => .error e
      | .ok rest => .ok ([Line.declare d.varName] ++ rest)
    | NodeType.NODE_ASSIGN =>
      match generateExpression varTable right with
      | .error e => .error e
      | .ok e =>
        match generateCode addr varTable next with
        | .error e => .error e
        | .ok rest =>
          .ok ([Line.assignment d.varName] ++ e ++
            [Line.st (getVarOffset varTable d.varName) d.varName] ++ rest)
    | NodeType.NODE_IF =>
      match condition with
      | .null => .error (.undefined "generateCode: node->condition is null")
      | .node _ condLeft condRight _ _ _ =>
        match generateExpression varTable condLeft with
        | .error e => .error e
        | .ok l =>
          match generateExpression varTable condRight with
          | .error e => .error e
          | .ok r =>
            match generateCode addr varTable ifBody with
            | .error e => .error e
            | .ok body =>
              match generateCode addr varTable next with
              | .error e => .error e
              | .ok rest =>
                .ok ([Line.ifStatement] ++ l ++ [Line.pushSide] ++ r ++
                  [Line.movR1, Line.popSide, Line.cmp, Line.jne (addr d.id)] ++ body ++
                  [Line.label (addr d.id)] ++ rest)
    | _ => generateCode addr varTable next

/-- What `%d` prints. -/
def fmtInt (v : Int) : List Char :=
  if v < 0 then '-' :: Nat.toDigits 10 v.natAbs else Nat.toDigits 10 v.toNat

/-- What `%p` prints for a non-null pointer.  The format is left to the C
library; this is glibc's. -/
def fmtPtr (a : Nat) : List Char := '0' :: 'x' :: Nat.toDigits 16 a

/-- The text each `fprintf` of the code generator writes. -/
def Line.text : Line → List Char
  | .header1 => "; SimpleLang compiled code for 8-bit CPU\n".toList
  | .header2 => "; Variable memory starts at address 0\n\n".toList
  | .hlt => "\n    HLT              ; Halt execution\n".toList
  | .declare name => "; Declare variable: ".toList ++ name ++ "\n".toList
  | .assignment name => "\n; Assignment: ".toList ++ name ++ " = ...\n".toList
  | .ldi value =>
    "    LDI R0, ".toList ++ fmtInt value ++ "       ; Load immediate ".toList ++
      fmtInt value ++ "\n".toList
  | .ld offset name =>
    "    LD R0, [".toList ++ fmtInt offset ++ "]      ; Load variable ".toList ++
      name ++ "\n".toList
  | .pushOperand => "    PUSH R0          ; Save left operand\n".toList
  | .movR1 => "    MOV R1, R0       ; Move right to R1\n".toList
  | .popOperand => "    POP R0           ; Restore left operand\n".toList
  | .add => "    ADD R0, R1       ; Add R0 + R1\n".toList
  | .sub => "    SUB R0, R1       ; Subtract R0 - R1\n".toList
  | .st offset name =>
    "    ST R0, [".toList ++ fmtInt offset ++ "]      ; Store to variable ".toList ++
      name ++ "\n".toList
  | .ifStatement => "\n; If statement\n".toList
  | .pushSide => "    PUSH R0          ; Save left side\n".toList
  | .popSide => "    POP R0           ; Restore left side\n".toList
  | .cmp => "    CMP R0, R1       ; Compare\n".toList
  | .jne addr => "    JNE skip_".toList ++ fmtPtr addr ++ "      ; Jump if not equal\n".toList
  | .label addr => "skip_".toList ++ fmtPtr addr ++ ":\n".toList

/-- The contents of the output file after the lines `out` were written. -/
def render (out : List Line) : List Char := (out.map Line.text).flatten

/-- The state in which `main` calls `parseProgram`: `inputFile` just opened
on `src`, the other globals as initialised (`currentToken` zeroed). -/
def initialState (src : List Char) : State :=
  { input := src, currentToken := { type := TokenType.TOKEN_INT, text := [], value := 0 },
    varTable := [], nalloc := 0 }

/-- Lines 411-412 of `main`: `parseProgram`, then `generateCode` on its result
with the table as parsing left it. -/
def compile (addr : Nat → Nat) (src : List Char) : Res (List Line) :=
  match parseProgram (initialState src) with
  | .error e => .error e
  | .ok (ast, st) => generateCode addr st.varTable ast

/-! ## Specification-side definitions -/

/-- The name `name` has its most recent registration at row `i`: row `i` holds
it and no later row does. -/
def IsMostRecent (varTable : List (List Char)) (name : List Char) (i : Nat) : Prop :=
  varTable[i]? = some name ∧ ∀ j, i < j → varTable[j]? ≠ some name

/-- The name `name` has its first registration at row `i`. -/
def IsFirst (varTable : List (List Char)) (name : List Char) (i : Nat) : Prop :=
  varTable[i]? = some name ∧ ∀ j, j < i → varTable[j]? ≠ some name

/-- The nodes `parseTerm` builds. -/
inductive IsTerm : ASTNode → Prop
  | number (id : Nat) (value : Int) : IsTerm (numberNode id value)
  | identifier (id : Nat) (name : List Char) : IsTerm (identifierNode id name)

/-- An expression tree: a term, or a `+`/`-` node over two expression trees. -/
inductive IsExpr : ASTNode → Prop
  | term {e : ASTNode} : IsTerm e → IsExpr e
  | binary (id : Nat) (op : Char) {l r : ASTNode} :
      (op = '+' ∨ op = '-') → IsExpr l → IsExpr r → IsExpr (binaryNode id op l r)

/-- A single statement, not linked to a successor: a declaration, an
assignment of an expression, or an `if` whose condition is an `=` node over
two expressions and whose body is null or one such statement. -/
inductive IsStmt : ASTNode → Prop
  | varDecl (id : Nat) (name : List Char) : IsStmt (varDeclNode id name)
  | assign (id : Nat) (name : List Char) {e : ASTNode} :
      IsExpr e → IsStmt (assignNode id name e)
  | ifEmpty (id cid : Nat) {a b : ASTNode} :
      IsExpr a → IsExpr b → IsStmt (ifNode id (binaryNode cid '=' a b) .null)
  | ifBody (id cid : Nat) {a b body : ASTNode} :
      IsExpr a → IsExpr b → IsStmt body → IsStmt (ifNode id (binaryNode cid '=' a b) body)

/-- The member `next` of the node `n` points to (null for the null pointer). -/
def nextOf : ASTNode → ASTNode
  | .null => .null
  | .node _ _ _ _ _ next => next

/-- The statement chain that starts with `s1` and goes on, through the `next`
links, with `s2`, ..., `sn`. -/
def chainOf (ss : List ASTNode) : ASTNode := ss.foldr link .null

/-- The lines `generateExpression` writes. -/
def Line.isExprLine : Line → Bool
  | .ldi _ | .ld _ _ | .pushOperand | .movR1 | .popOperand | .add | .sub => true
  | _ => false

/-- A line that names a variable carries the offset `getVarOffset` gives for
that name in the table `tbl`. -/
def Line.Resolved (tbl : List (List Char)) : Line → Prop
  | .ld offset name => offset = getVarOffset tbl name
  | .st offset name => offset = getVarOffset tbl name
  | _ => True

/-- An input made only of whitespace and `//` comments: empty, or a
whitespace character, or a comment up to and including its newline, followed
by such an input; or a comment that the end of the input ends. -/
inductive Blank : List Char → Prop
  | nil : Blank []
  | space (c : Char) (rest : List Char) : isspace c = true → Blank rest → Blank (c :: rest)
  | comment (body rest : List Char) :
      (∀ c ∈ body, c ≠ '\n') → Blank rest → Blank ('/' :: '/' :: (body ++ '\n' :: rest))
  | lastComment (body : List Char) : (∀ c ∈ body, c ≠ '\n') → Blank ('/' :: '/' :: body)

/-- The next character ends a run of characters of class `p`. -/
def EndsRun (p : Char → Bool) (rest : List Char) : Prop :=
  ∀ c ∈ rest.head?, p c = false

/-- What the skip loops leave: on `EOF` nothing, otherwise less than they got. -/
def SkipResult (inp : List Char) (r : Option Char × List Char) : Prop :=
  (r.1 = none → r.2 = []) ∧ (r.1 ≠ none → r.2.length < inp.length)

/-- The loops of the parser have fuel left in state `st`: at the end of the
input they need none, before it more than there are characters unread. -/
def Fuelled (fuel : Nat) (st : State) : Prop :=
  st.currentToken.type ≠ TokenType.TOKEN_EOF → st.input.length < fuel

/-- The next `k` tokens from state `st` on: the current one and those the
following calls of `getNextToken` return. -/
def upcoming : Nat → State → List Token
  | 0, _ => []
  | k + 1, st => st.currentToken :: upcoming k (getNextToken st)

/-- A number or identifier token. -/
def IsTermToken (t : Token) : Prop :=
  t.type = TokenType.TOKEN_NUMBER ∨ t.type = TokenType.TOKEN_IDENTIFIER

/-- A `+` or `-` token. -/
def IsOpToken (t : Token) : Prop :=
  t.type = TokenType.TOKEN_PLUS ∨ t.type = TokenType.TOKEN_MINUS

/-- The node of a term token: a Number with the token's value or an
Identifier with the token's text. -/
def termNode (id : Nat) (t : Token) : ASTNode :=
  if t.type = TokenType.TOKEN_NUMBER then numberNode id t.value else identifierNode id t.text

/-- The operator character of a `+` or `-` token. -/
def opChar (t : Token) : Char := if t.type = TokenType.TOKEN_PLUS then '+' else '-'

/-- The tree with the identities of its nodes forgotten. -/
def eraseIds : ASTNode → ASTNode
  | .null => .null
  | .node d l r c b n =>
    .node { d with id := 0 } (eraseIds l) (eraseIds r) (eraseIds c) (eraseIds b) (eraseIds n)

/-- Two states at the same place of the same input. -/
def SameStream (s t : State) : Prop := s.input = t.input ∧ s.currentToken = t.currentToken

/-- An identifier lexeme: a letter followed by letters and digits, at most 99
characters, other than `int` and `if`. -/
def isName : List Char → Bool
  | [] => false
  | c :: cs =>
    isalpha c && cs.all isalnum && decide ((c :: cs).length ≤ MAX_TOKEN_LEN - 1) &&
      decide (c :: cs ≠ ['i', 'n', 't']) && decide (c :: cs ≠ ['i', 'f'])

/-- The canonical source text of an expression tree: a literal in decimal, a
name, or left operand, blank, operator, blank, right operand. -/
def sourceExpr : ASTNode → List Char
  | .null => []
  | .node d l r _ _ _ =>
    match d.type with
    | NodeType.NODE_NUMBER => Nat.toDigits 10 d.value.toNat
    | NodeType.NODE_IDENTIFIER => d.varName
    | NodeType.NODE_BINARY_OP => sourceExpr l ++ [' ', d.op, ' '] ++ sourceExpr r
    | _ => []

/-- The canonical source text of a comparison node: `a == b`. -/
def sourceCond : ASTNode → List Char
  | .null => []
  | .node _ l r _ _ _ => sourceExpr l ++ [' ', '=', '=', ' '] ++ sourceExpr r

/-- The canonical source text of a statement chain (of a program: of its
chain): `int x;`, `x = e;`, `if (a == b) { s }`, one blank between statements. -/
def source : ASTNode → List Char
  | .null => []
  | .node d _ r c b n =>
    match d.type with
    | NodeType.NODE_PROGRAM => source n
    | NodeType.NODE_VAR_DECL =>
      ['i', 'n', 't', ' '] ++ d.varName ++ [';'] ++
        (match n with
         | .null => []
         | _ => ' ' :: source n)
    | NodeType.NODE_ASSIGN =>
      d.varName ++ [' ', '=', ' '] ++ sourceExpr r ++ [';'] ++
        (match n with
         | .null => []
         | _ => ' ' :: source n)
    | NodeType.NODE_IF =>
      ['i', 'f', ' ', '('] ++ sourceCond c ++ [')', ' ', '{', ' '] ++ source b ++ [' ', '}'] ++
        (match n with
         | .null => []
         | _ => ' ' :: source n)
    | _ => []

/-- The number of nodes of a tree. -/
def nodeCount : ASTNode → Nat
  | .null => 0
  | .node _ l r c b n => 1 + nodeCount l + nodeCount r + nodeCount c + nodeCount b + nodeCount n

/-- The tree with its nodes numbered from `k` on in the order in which the
parser allocates them: an operator node after its left operand and before its
right one, a comparison node after both its sides, every other node before
what hangs below it, a statement before its successor. -/
def renumber : Nat → ASTNode → ASTNode
  | _, .null => .null
  | k, .node d l r c b n =>
    match d.type with
    | NodeType.NODE_BINARY_OP =>
      .node { d with id := k + nodeCount l } (renumber k l) (renumber (k + nodeCount l + 1) r)
        c b n
    | NodeType.NODE_IF =>
      .node { d with id := k } l r
        (match c with
         | .null => .null
         | .node cd cl cr cc cb cn =>
           .node { cd with id := k + 1 + nodeCount cl + nodeCount cr }
             (renumber (k + 1) cl) (renumber (k + 1 + nodeCount cl) cr) cc cb cn)
        (renumber (k + 1 + nodeCount c) b)
        (renumber (k + 1 + nodeCount c + nodeCount b) n)
    | _ =>
      .node { d with id := k } l (renumber (k + 1) r) c b (renumber (k + 1 + nodeCount r) n)

/-- The names the declarations of a statement chain declare, in source order,
those inside `if` bodies included. -/
def declNames : ASTNode → List (List Char)
  | .null => []
  | .node d _ _ _ b n =>
    match d.type with
    | NodeType.NODE_VAR_DECL => d.varName :: declNames n
    | NodeType.NODE_IF => declNames b ++ declNames n
    | _ => declNames n

/-- A well-formed term: a literal that is non-negative and fits in an `int`,
or an identifier lexeme. -/
inductive WfTerm : ASTNode → Prop
  | number (id v : Nat) : v < 2 ^ 31 → WfTerm (numberNode id v)
  | identifier (id : Nat) (name : List Char) : isName name = true →
      WfTerm (identifierNode id name)

/-- A well-formed expression: a term, or a `+`/`-` node with a well-formed
expression on the left and a term on the right. -/
inductive WfExpr : ASTNode → Prop
  | term {e : ASTNode} : WfTerm e → WfExpr e
  | binary (id : Nat) (op : Char) {l r : ASTNode} :
      (op = '+' ∨ op = '-') → WfExpr l → WfTerm r → WfExpr (binaryNode id op l r)

/-- A well-formed statement, without successor: a declaration of a name, an
assignment of a well-formed expression to a name, or an `if` whose condition
is an `=` node over two well-formed expressions and whose body is exactly one
well-formed statement. -/
inductive WfStmt : ASTNode → Prop
  | varDecl (id : Nat) (name : List Char) : isName name = true → WfStmt (varDeclNode id name)
  | assign (id : Nat) (name : List Char) {e : ASTNode} :
      isName name = true → WfExpr e → WfStmt (assignNode id name e)
  | ifStmt (id cid : Nat) {a b body : ASTNode} :
      WfExpr a → WfExpr b → WfStmt body → WfStmt (ifNode id (binaryNode cid '=' a b) body)

/-- State `st` is what `getNextToken` leaves when `text` was unread: its
current token is the first token of `text`. -/
def At (st : State) (text : List Char) : Prop :=
  ∃ old : Token, st.currentToken = (scan old text).1 ∧ st.input = (scan old text).2

/-- The kinds of the tokens `getNextToken` returns on `input` before the
end-of-input token, `old` being the token before them. -/
def tokenTypesFrom : Nat → Token → List Char → List TokenType
  | 0, _, _ => []
  | fuel + 1, old, input =>
    if (scan old input).1.type = TokenType.TOKEN_EOF then []
    else (scan old input).1.type :: tokenTypesFrom fuel (scan old input).1 (scan old input).2

/-- The token sequence of a source text: the kinds of its tokens, in order,
without the end-of-input token. -/
def tokenTypes (src : List Char) : List TokenType :=
  tokenTypesFrom (src.length + 1) (initialState src).currentToken src

/-- The token sequence from state `st` on: the current token, if it is not the
end of the input, and the tokens of the unread input. -/
def remaining (st : State) : List TokenType :=
  if st.currentToken.type = TokenType.TOKEN_EOF then []
  else st.currentToken.type :: tokenTypesFrom (st.input.length + 1) st.currentToken st.input

/-- `term := NUMBER | IDENT`, on token sequences. -/
inductive GTerm : List TokenType → Prop
  | number : GTerm [TokenType.TOKEN_NUMBER]
  | identifier : GTerm [TokenType.TOKEN_IDENTIFIER]

/-- `expression := term (('+' | '-') term)*`. -/
inductive GExpr : List TokenType → Prop
  | term {ts : List TokenType} : GTerm ts → GExpr ts
  | plus {l r : List TokenType} : GExpr l → GTerm r → GExpr (l ++ TokenType.TOKEN_PLUS :: r)
  | minus {l r : List TokenType} : GExpr l → GTerm r → GExpr (l ++ TokenType.TOKEN_MINUS :: r)

/-- `statement := varDecl | assignment | ifStmt` with the three productions of
the grammar, and one more: a single token of a kind in `skip` standing where a
statement is expected.  With no kind in `skip` this is the grammar of the
specification. -/
inductive GStmt (skip : TokenType → Prop) : List TokenType → Prop
  | varDecl : GStmt skip
      [TokenType.TOKEN_INT, TokenType.TOKEN_IDENTIFIER, TokenType.TOKEN_SEMICOLON]
  | assign {e : List TokenType} : GExpr e →
      GStmt skip (TokenType.TOKEN_IDENTIFIER :: TokenType.TOKEN_ASSIGN ::
        (e ++ [TokenType.TOKEN_SEMICOLON]))
  | ifStmt {a b s : List TokenType} : GExpr a → GExpr b → GStmt skip s →
      GStmt skip (TokenType.TOKEN_IF :: TokenType.TOKEN_LPAREN ::
        (a ++ TokenType.TOKEN_EQUAL ::
          (b ++ TokenType.TOKEN_RPAREN :: TokenType.TOKEN_LBRACE ::
            (s ++ [TokenType.TOKEN_RBRACE]))))
  | skipped (t : TokenType) : skip t → GStmt skip [t]

/-- `program := statement*`. -/
inductive GProgram (skip : TokenType → Prop) : List TokenType → Prop
  | nil : GProgram skip []
  | cons {s p : List TokenType} : GStmt skip s → GProgram skip p → GProgram skip (s ++ p)

/-- No token is skipped: the grammar as the specification gives it. -/
def NoSkip (_ : TokenType) : Prop := False

/-- The tokens `parseStatement` skips: those that cannot start a statement. -/
def NotStart (t : TokenType) : Prop :=
  t ≠ TokenType.TOKEN_INT ∧ t ≠ TokenType.TOKEN_IDENTIFIER ∧ t ≠ TokenType.TOKEN_IF

/-- The table has a free row for every `int` token still to come, and the
state is one `getNextToken` leaves (at the end of the input nothing is unread). -/
def Room (st : State) : Prop :=
  (st.currentToken.type = TokenType.TOKEN_EOF → st.input = []) ∧
  st.varTable.length + (remaining st).count TokenType.TOKEN_INT ≤ MAX_VARS

/-- The abort is a diagnostic followed by `exit(1)`, or the embedding's loops
ran out of fuel (which `parseProgram` excludes). -/
def Abort.Clean (e : Abort) : Prop := e = Abort.fuel ∨ ∃ msg, e = Abort.exit msg

/-- The line with the address in a label name replaced by 0. -/
def Line.eraseAddr : Line → Line
  | .jne _ => .jne 0
  | .label _ => .label 0
  | l => l

/-- The allocation ordinals of the If nodes `generateCode` visits from a node
on: those of the chain and of the bodies of its `if` statements. -/
def ifIds : ASTNode → List Nat
  | .null => []
  | .node d _ _ _ b n =>
    match d.type with
    | NodeType.NODE_IF => d.id :: (ifIds b ++ ifIds n)
    | _ => ifIds n

/-- A run of whitespace characters and `//` comments, each comment with the
newline that ends it. -/
inductive BlankPrefix : List Char → Prop
  | nil : BlankPrefix []
  | space (c : Char) (rest : List Char) : isspace c = true → BlankPrefix rest →
      BlankPrefix (c :: rest)
  | comment (body rest : List Char) :
      (∀ c ∈ body, c ≠ '\n') → BlankPrefix rest →
      BlankPrefix ('/' :: '/' :: (body ++ '\n' :: rest))

/-- A PUSH line. -/
def Line.isPush : Line → Bool
  | .pushOperand | .pushSide => true
  | _ => false

/-- A POP line. -/
def Line.isPop : Line → Bool
  | .popOperand | .popSide => true
  | _ => false

/-- An instruction sequence balanced in PUSH/POP: no prefix of it has more POP
lines than PUSH lines, and the whole has as many of the one as of the other. -/
def Balanced (out : List Line) : Prop :=
  (∀ k, (out.take k).countP Line.isPop ≤ (out.take k).countP Line.isPush) ∧
  out.countP Line.isPop = out.countP Line.isPush

/-- An expression tree as generation needs it: not null; a Number, an
Identifier, or a BinaryOp with op `+` or `-` over two such trees. -/
def exprOk : ASTNode → Bool
  | .null => false
  | .node d l r _ _ _ =>
    match d.type with
    | NodeType.NODE_NUMBER => true
    | NodeType.NODE_IDENTIFIER => true
    | NodeType.NODE_BINARY_OP => (d.op = '+' || d.op = '-') && exprOk l && exprOk r
    | _ => false

/-- A statement chain as generation needs it: every VarDecl, Assign and If of
the chain and of the `if` bodies is followed by such a chain; every Assign has
an expression tree as `right`; every If has as `condition` a BinaryOp with op
`=` over two expression trees, and as body such a chain. -/
def chainOk : ASTNode → Bool
  | .null => true
  | .node d _ r c b n =>
    match d.type with
    | NodeType.NODE_VAR_DECL => chainOk n
    | NodeType.NODE_ASSIGN => exprOk r && chainOk n
    | NodeType.NODE_IF =>
      (match c with
       | .null => false
       | .node cd cl cr _ _ _ =>
         decide (cd.type = NodeType.NODE_BINARY_OP) && decide (cd.op = '=') &&
           exprOk cl && exprOk cr) && chainOk b && chainOk n
    | _ => false

/-- A Program node over a statement chain as generation needs it. -/
def programOk : ASTNode → Bool
  | .null => false
  | .node d _ _ _ _ n => decide (d.type = NodeType.NODE_PROGRAM) && chainOk n

/-- The number of BinaryOp nodes of an expression tree. -/
def binaryCount : ASTNode → Nat
  | .null => 0
  | .node d l r _ _ _ =>
    match d.type with
    | NodeType.NODE_BINARY_OP => binaryCount l + binaryCount r + 1
    | _ => 0

/-- An ADD or SUB line. -/
def Line.isArith : Line → Bool
  | .add | .sub => true
  | _ => false

/-- The tokens `getNextToken` returns on `input` before the end-of-input
token, `old` being the token before them. -/
def tokensFrom : Nat → Token → List Char → List Token
  | 0, _, _ => []
  | fuel + 1, old, input =>
    if (scan old input).1.type = TokenType.TOKEN_EOF then []
    else (scan old input).1 :: tokensFrom fuel (scan old input).1 (scan old input).2

/-- The tokens of a source text, in order, without the end-of-input token. -/
def tokens (src : List Char) : List Token :=
  tokensFrom (src.length + 1) (initialState src).currentToken src

/-- The tokens from state `st` on: the current token, if it is not the end of
the input, and the tokens of the unread input. -/
def remainingTokens (st : State) : List Token :=
  if st.currentToken.type = TokenType.TOKEN_EOF then []
  else st.currentToken :: tokensFrom (st.input.length + 1) st.currentToken st.input

/-- The names a token sequence declares, in the order of the text: the text of
every identifier token that stands right after an `int` token. -/
def declaredNames : List Token → List (List Char)
  | [] => []
  | t :: rest =>
    (match rest with
     | [] => []
     | u :: _ =>
       if t.type = TokenType.TOKEN_INT ∧ u.type = TokenType.TOKEN_IDENTIFIER then [u.text]
       else []) ++ declaredNames rest

/-! ## The variable table -/

theorem isFirst_unique {tbl : List (List Char)} {name : List Char} {i j : Nat}
    (hi : IsFirst tbl name i) (hj : IsFirst tbl name j) : i = j := by
  rcases Nat.lt_trichotomy i j with h | h | h
  · exact absurd hi.1 (hj.2 i h)
  · exact h
  · exact absurd hj.1 (hi.2 j h)

theorem isFirst_mem {tbl : List (List Char)} {name : List Char} {i : Nat}
    (hi : IsFirst tbl name i) : name ∈ tbl :=
  List.getElem?_mem hi.1

theorem isFirst_lt {tbl : List (List Char)} {name : List Char} {i : Nat}
    (hi : IsFirst tbl name i) : i < tbl.length := by
  rcases hi with ⟨h, -⟩
  by_contra hn
  rw [List.getElem?_eq_none (by omega)] at h
  exact absurd h (by simp)

theorem getVarOffsetFrom_spec (name : List Char) (tbl : List (List Char)) (k : Nat) :
    (name ∉ tbl ∧ getVarOffsetFrom name k tbl = -1) ∨
    (∃ i, IsFirst tbl name i ∧ getVarOffsetFrom name k tbl = ((k + i : Nat) : Int)) := by
  induction tbl generalizing k with
  | nil => left; simp [getVarOffsetFrom]
  | cons row rows ih =>
    by_cases h : row = name
    · subst h
      right
      exact ⟨0, ⟨by simp, fun j hj => by omega⟩, by simp [getVarOffsetFrom]⟩
    · have h2 : ¬ name = row := fun e => h e.symm
      rcases ih (k + 1) with ⟨h3, h4⟩ | ⟨i, ⟨h3, h4⟩, h5⟩
      · left
        exact ⟨by simp [h2, h3], by simp [getVarOffsetFrom, h, h4]⟩
      · right
        refine ⟨i + 1, ⟨by simpa using h3, fun j hj => ?_⟩, ?_⟩
        · cases j with
          | zero => simp [h]
          | succ j => simpa using h4 j (by omega)
        · simp only [getVarOffsetFrom, h, ↓reduceIte, h5]
          congr 1
          omega

theorem getVarOffset_spec (tbl : List (List Char)) (name : List Char) :
    (name ∉ tbl ∧ getVarOffset tbl name = -1) ∨
    (∃ i, IsFirst tbl name i ∧ getVarOffset tbl name = (i : Int)) := by
  rcases getVarOffsetFrom_spec name tbl 0 with h | ⟨i, h1, h2⟩
  · exact Or.inl h
  · exact Or.inr ⟨i, h1, by simpa [getVarOffset] using h2⟩

/-- C10 (as stated, refuted): after `int x; int x;` the most recent registration
of `x` is row 1, and `getVarOffset` returns 0. -/
theorem getVarOffset_not_most_recent :
    IsMostRecent [['x'], ['x']] ['x'] 1 ∧ getVarOffset [['x'], ['x']] ['x'] ≠ 1 := by
  refine ⟨⟨by decide, fun j hj => ?_⟩, by decide⟩
  have : [['x'], ['x']][j]? = none := by
    apply List.getElem?_eq_none
    simp only [List.length_cons, List.length_nil]
    omega
  simp [this]

/-- C10 (amended): for every table and every name, `getVarOffset` returns the
offset of the first registration of the name (the smallest row that holds it),
and it returns -1, the not-found result, if and only if no row holds the name. -/
theorem getVarOffset_first (tbl : List (List Char)) (name : List Char) :
    (∀ i : Nat, getVarOffset tbl name = (i : Int) ↔ IsFirst tbl name i) ∧
    (getVarOffset tbl name = -1 ↔ name ∉ tbl) := by
  rcases getVarOffset_spec tbl name with ⟨h1, h2⟩ | ⟨i, h1, h2⟩
  · refine ⟨fun i => ⟨fun h => ?_, fun h => absurd (isFirst_mem h) h1⟩, by simp [h1, h2]⟩
    rw [h2] at h
    omega
  · refine ⟨fun j => ⟨fun h => ?_, fun h => ?_⟩, ?_⟩
    · rw [h2] at h
      have : i = j := by exact_mod_cast h
      exact this ▸ h1
    · rw [h2, isFirst_unique h1 h]
    · rw [h2]
      constructor
      · intro h; omega
      · intro h; exact absurd (isFirst_mem h1) h

/-! ## Shape of the trees the parser builds -/

theorem parseTerm_shape {st st' : State} {e : ASTNode}
    (h : parseTerm st = .ok (e, st')) : IsTerm e := by
  unfold parseTerm at h
  split at h
  · cases h; exact IsTerm.number _ _
  · split at h
    · cases h; exact IsTerm.identifier _ _
    · cases h

theorem parseExprLoop_stop (fuel : Nat) (left : ASTNode) (st : State)
    (h1 : st.currentToken.type ≠ TokenType.TOKEN_PLUS)
    (h2 : st.currentToken.type ≠ TokenType.TOKEN_MINUS) :
    parseExprLoop fuel left st = .ok (left, st) := by
  unfold parseExprLoop
  simp [h1, h2]

theorem parseExprLoop_zero (left : ASTNode) (st : State)
    (h : st.currentToken.type = TokenType.TOKEN_PLUS ∨
      st.currentToken.type = TokenType.TOKEN_MINUS) :
    parseExprLoop 0 left st = .error .fuel := by
  unfold parseExprLoop
  simp [h]

theorem parseExprLoop_succ (fuel : Nat) (left : ASTNode) (st : State)
    (h : st.currentToken.type = TokenType.TOKEN_PLUS ∨
      st.currentToken.type = TokenType.TOKEN_MINUS) :
    parseExprLoop (fuel + 1) left st =
      match parseTerm (getNextToken st.alloc) with
      | .error e => .error e
      | .ok (right, st2) =>
        parseExprLoop fuel
          (binaryNode st.nalloc
            (if st.currentToken.type = TokenType.TOKEN_PLUS then '+' else '-') left right)
          st2 := by
  rw [parseExprLoop]
  simp [h]

theorem parseExprLoop_shape (fuel : Nat) {left e : ASTNode} {st st' : State}
    (hl : IsExpr left) (h : parseExprLoop fuel left st = .ok (e, st')) : IsExpr e := by
  induction fuel generalizing left st with
  | zero =>
    by_cases hop : st.currentToken.type = TokenType.TOKEN_PLUS ∨
        st.currentToken.type = TokenType.TOKEN_MINUS
    · rw [parseExprLoop_zero _ _ hop] at h; cases h
    · rw [parseExprLoop_stop _ _ _ (fun e => hop (Or.inl e)) (fun e => hop (Or.inr e))] at h
      cases h; exact hl
  | succ fuel ih =>
    by_cases hop : st.currentToken.type = TokenType.TOKEN_PLUS ∨
        st.currentToken.type = TokenType.TOKEN_MINUS
    · rw [parseExprLoop_succ _ _ _ hop] at h
      split at h
      · cases h
      · rename_i right st2 hr
        refine ih (IsExpr.binary _ _ ?_ hl (IsExpr.term (parseTerm_shape hr))) h
        split <;> simp
    · rw [parseExprLoop_stop _ _ _ (fun e => hop (Or.inl e)) (fun e => hop (Or.inr e))] at h
      cases h; exact hl

theorem parseExpression_shape {st st' : State} {e : ASTNode}
    (h : parseExpression st = .ok (e, st')) : IsExpr e := by
  unfold parseExpression at h
  split at h
  · cases h
  · rename_i left st1 hl
    exact parseExprLoop_shape _ (IsExpr.term (parseTerm_shape hl)) h

/-! ## Inversion of successful parses -/

theorem parseTerm_ok {st st' : State} {e : ASTNode} (h : parseTerm st = .ok (e, st')) :
    st' = getNextToken st.alloc ∧
    ((st.currentToken.type = TokenType.TOKEN_NUMBER ∧
        e = numberNode st.nalloc st.currentToken.value) ∨
     (st.currentToken.type = TokenType.TOKEN_IDENTIFIER ∧
        e = identifierNode st.nalloc st.currentToken.text)) := by
  unfold parseTerm at h
  split at h
  · rename_i h1
    cases h
    exact ⟨rfl, Or.inl ⟨h1, rfl⟩⟩
  · split at h
    · rename_i h1
      cases h
      exact ⟨rfl, Or.inr ⟨h1, rfl⟩⟩
    · cases h

theorem parseExpression_ok {st st' : State} {e : ASTNode}
    (h : parseExpression st = .ok (e, st')) :
    ∃ left st1, parseTerm st = .ok (left, st1) ∧
      parseExprLoop (st1.input.length + 1) left st1 = .ok (e, st') := by
  unfold parseExpression at h
  split at h
  · cases h
  · rename_i left st1 hl
    exact ⟨left, st1, hl, h⟩

theorem parseVarDecl_ok {st st' : State} {n : ASTNode} (h : parseVarDecl st = .ok (n, st')) :
    (getNextToken st).currentToken.type = TokenType.TOKEN_IDENTIFIER ∧
    st.varCount < MAX_VARS ∧
    (getNextToken ((getNextToken st).alloc.register
        (getNextToken st).currentToken.text)).currentToken.type
      = TokenType.TOKEN_SEMICOLON ∧
    n = varDeclNode st.nalloc (getNextToken st).currentToken.text ∧
    st' = getNextToken (getNextToken ((getNextToken st).alloc.register
        (getNextToken st).currentToken.text)) := by
  unfold parseVarDecl at h
  simp only [ne_eq, ite_not] at h
  split at h
  · rename_i h1
    split at h
    · cases h
    · rename_i h2
      split at h
      · rename_i h3
        cases h
        refine ⟨h1, ?_, h3, rfl, rfl⟩
        simpa [State.varCount, getNextToken] using h2
      · cases h
  · cases h

theorem parseAssignment_ok {st st' : State} {n : ASTNode}
    (h : parseAssignment st = .ok (n, st')) :
    ∃ right st2,
      (getNextToken st.alloc).currentToken.type
        = TokenType.TOKEN_ASSIGN ∧
      parseExpression (getNextToken (getNextToken st.alloc))
        = .ok (right, st2) ∧
      st2.currentToken.type = TokenType.TOKEN_SEMICOLON ∧
      n = assignNode st.nalloc st.currentToken.text right ∧
      st' = getNextToken st2 := by
  unfold parseAssignment at h
  simp only [ne_eq, ite_not] at h
  split at h
  · rename_i h1
    split at h
    · cases h
    · rename_i right st2 h2
      split at h
      · rename_i h3
        cases h
        exact ⟨right, st2, h1, h2, h3, rfl, rfl⟩
      · cases h
  · cases h

theorem parseIf_ok {ps : State → Res (ASTNode × State)} {st st' : State} {n : ASTNode}
    (h : parseIf ps st = .ok (n, st')) :
    ∃ a st2 b st3 body st5,
      (getNextToken st).currentToken.type = TokenType.TOKEN_LPAREN ∧
      parseExpression (getNextToken (getNextToken st).alloc)
        = .ok (a, st2) ∧
      st2.currentToken.type = TokenType.TOKEN_EQUAL ∧
      parseExpression (getNextToken st2) = .ok (b, st3) ∧
      st3.currentToken.type = TokenType.TOKEN_RPAREN ∧
      (getNextToken st3.alloc).currentToken.type
        = TokenType.TOKEN_LBRACE ∧
      ps (getNextToken (getNextToken st3.alloc))
        = .ok (body, st5) ∧
      st5.currentToken.type = TokenType.TOKEN_RBRACE ∧
      n = ifNode st.nalloc (binaryNode st3.nalloc '=' a b) body ∧
      st' = getNextToken st5 := by
  unfold parseIf at h
  simp only [ne_eq, ite_not] at h
  split at h
  · rename_i h1
    split at h
    · cases h
    · rename_i a st2 h2
      split at h
      · rename_i h3
        split at h
        · cases h
        · rename_i b st3 h4
          split at h
          · rename_i h5
            split at h
            · rename_i h6
              split at h
              · cases h
              · rename_i body st5 h7
                split at h
                · rename_i h8
                  cases h
                  exact ⟨a, st2, b, st3, body, st5, h1, h2, h3, h4, h5, h6, h7, h8, rfl, rfl⟩
                · cases h
            · cases h
          · cases h
      · cases h
  · cases h

theorem parseStatement_eq (fuel : Nat) (st : State) :
    parseStatement fuel st =
      if st.currentToken.type = TokenType.TOKEN_INT then parseVarDecl st
      else if st.currentToken.type = TokenType.TOKEN_IDENTIFIER then parseAssignment st
      else if st.currentToken.type = TokenType.TOKEN_IF then
        match fuel with
        | 0 => .error .fuel
        | fuel + 1 => parseIf (parseStatement fuel) st
      else .ok (.null, getNextToken st) := by
  rw [parseStatement.eq_def]

theorem parseStatement_if_succ (fuel : Nat) (st : State)
    (h : st.currentToken.type = TokenType.TOKEN_IF) :
    parseStatement (fuel + 1) st = parseIf (parseStatement fuel) st := by
  rw [parseStatement_eq]
  simp [h]

theorem parseStatement_if_zero (st : State)
    (h : st.currentToken.type = TokenType.TOKEN_IF) :
    parseStatement 0 st = .error .fuel := by
  rw [parseStatement_eq]
  simp [h]

theorem parseStatement_int (fuel : Nat) (st : State)
    (h : st.currentToken.type = TokenType.TOKEN_INT) :
    parseStatement fuel st = parseVarDecl st := by
  rw [parseStatement_eq]
  simp [h]

theorem parseStatement_identifier (fuel : Nat) (st : State)
    (h : st.currentToken.type = TokenType.TOKEN_IDENTIFIER) :
    parseStatement fuel st = parseAssignment st := by
  rw [parseStatement_eq]
  simp [h]

theorem parseStatement_other (fuel : Nat) (st : State)
    (h1 : st.currentToken.type ≠ TokenType.TOKEN_INT)
    (h2 : st.currentToken.type ≠ TokenType.TOKEN_IDENTIFIER)
    (h3 : st.currentToken.type ≠ TokenType.TOKEN_IF) :
    parseStatement fuel st = .ok (.null, getNextToken st) := by
  rw [parseStatement_eq]
  simp [h1, h2, h3]

/-- The four ways `parseStatement` can return. -/
theorem parseStatement_ok {fuel : Nat} {st st' : State} {n : ASTNode}
    (h : parseStatement fuel st = .ok (n, st')) :
    (st.currentToken.type = TokenType.TOKEN_INT ∧ parseVarDecl st = .ok (n, st')) ∨
    (st.currentToken.type = TokenType.TOKEN_IDENTIFIER ∧ parseAssignment st = .ok (n, st')) ∨
    (st.currentToken.type = TokenType.TOKEN_IF ∧
      ∃ f, fuel = f + 1 ∧ parseIf (parseStatement f) st = .ok (n, st')) ∨
    (st.currentToken.type ≠ TokenType.TOKEN_INT ∧
      st.currentToken.type ≠ TokenType.TOKEN_IDENTIFIER ∧
      st.currentToken.type ≠ TokenType.TOKEN_IF ∧ n = .null ∧ st' = getNextToken st) := by
  by_cases h1 : st.currentToken.type = TokenType.TOKEN_INT
  · rw [parseStatement_int _ _ h1] at h
    exact Or.inl ⟨h1, h⟩
  · by_cases h2 : st.currentToken.type = TokenType.TOKEN_IDENTIFIER
    · rw [parseStatement_identifier _ _ h2] at h
      exact Or.inr (Or.inl ⟨h2, h⟩)
    · by_cases h3 : st.currentToken.type = TokenType.TOKEN_IF
      · cases fuel with
        | zero => rw [parseStatement_if_zero _ h3] at h; cases h
        | succ f =>
          rw [parseStatement_if_succ _ _ h3] at h
          exact Or.inr (Or.inr (Or.inl ⟨h3, f, rfl, h⟩))
      · rw [parseStatement_other _ _ h1 h2 h3] at h
        cases h
        exact Or.inr (Or.inr (Or.inr ⟨h1, h2, h3, rfl, rfl⟩))

theorem parseProgramLoop_eof (fuel : Nat) (st : State)
    (h : st.currentToken.type = TokenType.TOKEN_EOF) :
    parseProgramLoop fuel st = .ok (.null, st) := by
  rw [parseProgramLoop.eq_def]
  simp [h]

theorem parseProgramLoop_zero (st : State)
    (h : st.currentToken.type ≠ TokenType.TOKEN_EOF) :
    parseProgramLoop 0 st = .error .fuel := by
  rw [parseProgramLoop.eq_def]
  simp [h]

theorem parseProgramLoop_succ (fuel : Nat) (st : State)
    (h : st.currentToken.type ≠ TokenType.TOKEN_EOF) :
    parseProgramLoop (fuel + 1) st =
      match parseStatement (fuel + 1) st with
      | .error e => .error e
      | .ok (stmt, st1) =>
        match parseProgramLoop fuel st1 with
        | .error e => .error e
        | .ok (rest, st2) => .ok (link stmt rest, st2) := by
  rw [parseProgramLoop.eq_def]
  simp [h]

theorem parseProgramLoop_ok {fuel : Nat} {st st' : State} {chain : ASTNode}
    (h : parseProgramLoop fuel st = .ok (chain, st')) :
    (st.currentToken.type = TokenType.TOKEN_EOF ∧ chain = .null ∧ st' = st) ∨
    (st.currentToken.type ≠ TokenType.TOKEN_EOF ∧
      ∃ f stmt st1 rest, fuel = f + 1 ∧ parseStatement (f + 1) st = .ok (stmt, st1) ∧
        parseProgramLoop f st1 = .ok (rest, st') ∧ chain = link stmt rest) := by
  by_cases h1 : st.currentToken.type = TokenType.TOKEN_EOF
  · rw [parseProgramLoop_eof _ _ h1] at h
    cases h
    exact Or.inl ⟨h1, rfl, rfl⟩
  · cases fuel with
    | zero => rw [parseProgramLoop_zero _ h1] at h; cases h
    | succ f =>
      rw [parseProgramLoop_succ _ _ h1] at h
      split at h
      · cases h
      · rename_i stmt st1 h2
        split at h
        · cases h
        · rename_i rest st2 h3
          cases h
          exact Or.inr ⟨h1, f, stmt, st1, rest, rfl, h2, h3, rfl⟩

theorem parseProgram_ok {st st' : State} {ast : ASTNode}
    (h : parseProgram st = .ok (ast, st')) :
    ∃ chain,
      parseProgramLoop ((getNextToken st.alloc).input.length + 1)
        (getNextToken st.alloc) = .ok (chain, st') ∧
      ast = programNode st.nalloc chain := by
  unfold parseProgram at h
  simp only at h
  split at h
  · cases h
  · rename_i chain st2 h1
    cases h
    exact ⟨chain, h1, rfl⟩

theorem parseStatement_shape (fuel : Nat) {st st' : State} {n : ASTNode}
    (h : parseStatement fuel st = .ok (n, st')) : n = .null ∨ IsStmt n := by
  induction fuel generalizing st st' n with
  | zero =>
    rcases parseStatement_ok h with ⟨-, h1⟩ | ⟨-, h1⟩ | ⟨-, f, hf, -⟩ | ⟨-, -, -, h1, -⟩
    · obtain ⟨-, -, -, rfl, -⟩ := parseVarDecl_ok h1
      exact Or.inr (IsStmt.varDecl _ _)
    · obtain ⟨right, st2, -, h2, -, rfl, -⟩ := parseAssignment_ok h1
      exact Or.inr (IsStmt.assign _ _ (parseExpression_shape h2))
    · omega
    · exact Or.inl h1
  | succ fuel ih =>
    rcases parseStatement_ok h with ⟨-, h1⟩ | ⟨-, h1⟩ | ⟨-, f, hf, h1⟩ | ⟨-, -, -, h1, -⟩
    · obtain ⟨-, -, -, rfl, -⟩ := parseVarDecl_ok h1
      exact Or.inr (IsStmt.varDecl _ _)
    · obtain ⟨right, st2, -, h2, -, rfl, -⟩ := parseAssignment_ok h1
      exact Or.inr (IsStmt.assign _ _ (parseExpression_shape h2))
    · obtain rfl : f = fuel := by omega
      obtain ⟨a, st2, b, st3, body, st5, -, h2, -, h4, -, -, h7, -, rfl, -⟩ := parseIf_ok h1
      right
      rcases ih h7 with rfl | hb
      · exact IsStmt.ifEmpty _ _ (parseExpression_shape h2) (parseExpression_shape h4)
      · exact IsStmt.ifBody _ _ (parseExpression_shape h2) (parseExpression_shape h4) hb
    · exact Or.inl h1

theorem parseProgramLoop_shape (fuel : Nat) {st st' : State} {chain : ASTNode}
    (h : parseProgramLoop fuel st = .ok (chain, st')) :
    ∃ ss, chain = chainOf ss ∧ ∀ s ∈ ss, IsStmt s := by
  induction fuel generalizing st st' chain with
  | zero =>
    rcases parseProgramLoop_ok h with ⟨-, rfl, -⟩ | ⟨-, f, -, -, -, hf, -⟩
    · exact ⟨[], rfl, by simp⟩
    · omega
  | succ fuel ih =>
    rcases parseProgramLoop_ok h with ⟨-, rfl, -⟩ | ⟨-, f, stmt, st1, rest, hf, h1, h2, rfl⟩
    · exact ⟨[], rfl, by simp⟩
    · obtain rfl : f = fuel := by omega
      obtain ⟨ss, rfl, hss⟩ := ih h2
      rcases parseStatement_shape _ h1 with rfl | hs
      · exact ⟨ss, rfl, hss⟩
      · refine ⟨stmt :: ss, rfl, ?_⟩
        intro s hs'
        rcases List.mem_cons.1 hs' with rfl | h3
        · exact hs
        · exact hss s h3

theorem parseProgram_shape {st st' : State} {ast : ASTNode}
    (h : parseProgram st = .ok (ast, st')) :
    ∃ ss, ast = programNode st.nalloc (chainOf ss) ∧ ∀ s ∈ ss, IsStmt s := by
  obtain ⟨chain, h1, rfl⟩ := parseProgram_ok h
  obtain ⟨ss, rfl, hss⟩ := parseProgramLoop_shape _ h1
  exact ⟨ss, rfl, hss⟩

/-! ## The code generator on well-shaped trees -/

theorem generateExpression_isExpr (tbl : List (List Char)) {e : ASTNode} (h : IsExpr e) :
    ∃ out, generateExpression tbl e = .ok out := by
  induction h with
  | term ht =>
    cases ht with
    | number id v => exact ⟨[Line.ldi v], by simp [numberNode, createData, generateExpression]⟩
    | identifier id name =>
      exact ⟨[Line.ld (getVarOffset tbl name) name],
        by simp [identifierNode, createData, generateExpression]⟩
  | binary id op hop _ _ ihl ihr =>
    obtain ⟨l, hl⟩ := ihl
    obtain ⟨r, hr⟩ := ihr
    exact ⟨l ++ [Line.pushOperand] ++ r ++ [Line.movR1, Line.popOperand] ++
        (if op = '+' then [Line.add] else if op = '-' then [Line.sub] else []),
      by simp [binaryNode, createData, generateExpression, hl, hr]⟩

theorem generateExpression_lines (tbl : List (List Char)) (e : ASTNode) (out : List Line)
    (h : generateExpression tbl e = .ok out) :
    ∀ l ∈ out, l.isExprLine = true ∧ l.Resolved tbl := by
  induction e generalizing out with
  | null => simp [generateExpression] at h
  | node d left right c b n ihl ihr _ _ _ =>
    unfold generateExpression at h
    split at h
    · cases h
      simp [Line.isExprLine, Line.Resolved]
    · split at h
      · cases h
        simp [Line.isExprLine, Line.Resolved]
      · split at h
        · split at h
          · cases h
          · rename_i l hl
            split at h
            · cases h
            · rename_i r hr
              cases h
              intro x hx
              simp only [List.append_assoc, List.mem_append, List.mem_cons,
                List.mem_singleton, List.not_mem_nil, or_false] at hx
              rcases hx with hx | rfl | hx | (rfl | rfl) | hx
              · exact ihl l hl x hx
              · simp [Line.isExprLine, Line.Resolved]
              · exact ihr r hr x hx
              · simp [Line.isExprLine, Line.Resolved]
              · simp [Line.isExprLine, Line.Resolved]
              · split at hx
                · simp only [List.mem_singleton] at hx
                  subst hx
                  simp [Line.isExprLine, Line.Resolved]
                · split at hx
                  · simp only [List.mem_singleton] at hx
                    subst hx
                    simp [Line.isExprLine, Line.Resolved]
                  · simp at hx
        · cases h
          simp

/-- The block of one statement: what `generateCode` emits for it when it has
no successor; with a successor, the successor's code follows the block. -/
theorem generateCode_isStmt (addr : Nat → Nat) (tbl : List (List Char)) {s : ASTNode}
    (h : IsStmt s) :
    ∃ b, generateCode addr tbl s = .ok b ∧ Line.hlt ∉ b ∧
      ∀ rest, generateCode addr tbl (link s rest) =
        match generateCode addr tbl rest with
        | .error e => .error e
        | .ok r => .ok (b ++ r) := by
  have noHlt : ∀ (e : ASTNode) (c : List Line), generateExpression tbl e = .ok c →
      Line.hlt ∉ c := fun e c hc hm => by
    have := (generateExpression_lines tbl e c hc _ hm).1
    simp [Line.isExprLine] at this
  induction h with
  | varDecl id name =>
    refine ⟨[Line.declare name], by simp [varDeclNode, createData, generateCode],
      by simp, fun rest => ?_⟩
    simp only [varDeclNode, createData, link, generateCode]
  | @assign id name e he =>
    obtain ⟨c, hc⟩ := generateExpression_isExpr tbl he
    refine ⟨[Line.assignment name] ++ c ++ [Line.st (getVarOffset tbl name) name], ?_, ?_,
      fun rest => ?_⟩
    · simp [assignNode, createData, generateCode, hc]
    · simpa using noHlt e c hc
    · simp only [assignNode, createData, link, generateCode, hc]
  | @ifEmpty id cid a b ha hb =>
    obtain ⟨ca, hca⟩ := generateExpression_isExpr tbl ha
    obtain ⟨cb, hcb⟩ := generateExpression_isExpr tbl hb
    refine ⟨[Line.ifStatement] ++ ca ++ [Line.pushSide] ++ cb ++
      [Line.movR1, Line.popSide, Line.cmp, Line.jne (addr id)] ++ [] ++
      [Line.label (addr id)], ?_, ?_, fun rest => ?_⟩
    · simp [ifNode, binaryNode, createData, generateCode, hca, hcb]
    · simpa using ⟨noHlt a ca hca, noHlt b cb hcb⟩
    · simp only [ifNode, binaryNode, createData, link, generateCode, hca, hcb]
  | @ifBody id cid a b body ha hb hbody ih =>
    obtain ⟨ca, hca⟩ := generateExpression_isExpr tbl ha
    obtain ⟨cb, hcb⟩ := generateExpression_isExpr tbl hb
    obtain ⟨cs, hcs, hcs2, -⟩ := ih
    refine ⟨[Line.ifStatement] ++ ca ++ [Line.pushSide] ++ cb ++
      [Line.movR1, Line.popSide, Line.cmp, Line.jne (addr id)] ++ cs ++
      [Line.label (addr id)], ?_, ?_, fun rest => ?_⟩
    · simp [ifNode, binaryNode, createData, generateCode, hca, hcb, hcs]
    · simpa using ⟨noHlt a ca hca, noHlt b cb hcb, hcs2⟩
    · simp only [ifNode, binaryNode, createData, link, generateCode, hca, hcb, hcs]

theorem generateCode_chainOf (addr : Nat → Nat) (tbl : List (List Char))
    (ss : List ASTNode) (hss : ∀ s ∈ ss, IsStmt s) :
    ∃ blocks : List (List Line),
      List.Forall₂ (fun s b => generateCode addr tbl s = .ok b) ss blocks ∧
      generateCode addr tbl (chainOf ss) = .ok blocks.flatten ∧ Line.hlt ∉ blocks.flatten := by
  induction ss with
  | nil => exact ⟨[], List.Forall₂.nil, by simp [chainOf, generateCode], by simp⟩
  | cons s ss ih =>
    obtain ⟨blocks, h1, h2, h3⟩ := ih (fun x hx => hss x (List.mem_cons_of_mem _ hx))
    obtain ⟨b, hb1, hb2, hb3⟩ := generateCode_isStmt addr tbl (hss s (List.mem_cons_self _ _))
    refine ⟨b :: blocks, List.Forall₂.cons hb1 h1, ?_, ?_⟩
    · have := hb3 (chainOf ss)
      rw [h2] at this
      simpa [chainOf] using this
    · simp only [List.flatten_cons, List.mem_append, not_or]
      exact ⟨hb2, h3⟩

/-- C2: for every Program node whose statement chain is `s1, ..., sn`, the
output of `generateCode` is the two header lines, then the blocks of
`s1, ..., sn` in that order, each block being what `generateCode` emits for
that statement alone with the same table, then the halt line; the halt line
occurs exactly once in the output and is its last line.  Every tree
`parseProgram` returns is such a Program node. -/
theorem generateCode_program_order (addr : Nat → Nat) (tbl : List (List Char)) (id : Nat)
    (ss : List ASTNode) (hss : ∀ s ∈ ss, IsStmt s) :
    (∃ blocks : List (List Line),
      List.Forall₂ (fun s b => generateCode addr tbl s = .ok b) ss blocks ∧
      generateCode addr tbl (programNode id (chainOf ss)) =
        .ok ([Line.header1, Line.header2] ++ blocks.flatten ++ [Line.hlt]) ∧
      ([Line.header1, Line.header2] ++ blocks.flatten ++ [Line.hlt]).count Line.hlt = 1 ∧
      ([Line.header1, Line.header2] ++ blocks.flatten ++ [Line.hlt]).getLast? =
        some Line.hlt) ∧
    (∀ (st st' : State) (ast : ASTNode), parseProgram st = .ok (ast, st') →
      ∃ ss', ast = programNode st.nalloc (chainOf ss') ∧ ∀ s ∈ ss', IsStmt s) := by
  refine ⟨?_, fun st st' ast h => parseProgram_shape h⟩
  obtain ⟨blocks, h1, h2, h3⟩ := generateCode_chainOf addr tbl ss hss
  refine ⟨blocks, h1, ?_, ?_, ?_⟩
  · simp [programNode, createData, generateCode, h2]
  · simp [List.count_append, List.count_cons, List.count_eq_zero_of_not_mem h3]
  · rw [List.getLast?_append]
    simp

/-- C2, at the chain `int x; x = 1;` with `x` at offset 0. -/
theorem generateCode_program_order_witness :
    (∃ blocks : List (List Line),
      List.Forall₂ (fun s b => generateCode id [['x']] s = .ok b)
        [varDeclNode 1 ['x'], assignNode 2 ['x'] (numberNode 3 1)] blocks ∧
      generateCode id [['x']]
          (programNode 0 (chainOf [varDeclNode 1 ['x'], assignNode 2 ['x'] (numberNode 3 1)])) =
        .ok ([Line.header1, Line.header2] ++ blocks.flatten ++ [Line.hlt]) ∧
      ([Line.header1, Line.header2] ++ blocks.flatten ++ [Line.hlt]).count Line.hlt = 1 ∧
      ([Line.header1, Line.header2] ++ blocks.flatten ++ [Line.hlt]).getLast? =
        some Line.hlt) ∧
    (∀ (st st' : State) (ast : ASTNode), parseProgram st = .ok (ast, st') →
      ∃ ss', ast = programNode st.nalloc (chainOf ss') ∧ ∀ s ∈ ss', IsStmt s) :=
  generateCode_program_order id [['x']] 0
    [varDeclNode 1 ['x'], assignNode 2 ['x'] (numberNode 3 1)]
    (fun s hs => by
      simp only [List.mem_cons, List.mem_singleton, List.not_mem_nil, or_false] at hs
      rcases hs with rfl | rfl
      · exact IsStmt.varDecl _ _
      · exact IsStmt.assign _ _ (IsExpr.term (IsTerm.number _ _)))

theorem nextOf_isStmt {s : ASTNode} (h : IsStmt s) : nextOf s = .null := by
  cases h <;> rfl

/-! ## The scanner on blank input -/

theorem skipBlank_nil : skipBlank [] = (none, []) := rfl

theorem skipLine_nil : skipLine [] = (none, []) := rfl

theorem skipBlank_cons (c : Char) (cs : List Char) :
    skipBlank (c :: cs) =
      if isspace c then skipBlank cs
      else if c = '/' then
        match cs with
        | [] => (some c, [])
        | next :: cs' => if next = '/' then skipLine cs' else (some c, next :: cs')
      else (some c, cs) := by
  cases cs <;> rfl

theorem skipLine_cons (c : Char) (cs : List Char) :
    skipLine (c :: cs) = if c = '\n' then skipBlank cs else skipLine cs := rfl

theorem skipBlank_space (c : Char) (rest : List Char) (h : isspace c = true) :
    skipBlank (c :: rest) = skipBlank rest := by
  rw [skipBlank_cons]
  simp [h]

theorem skipBlank_comment (rest : List Char) :
    skipBlank ('/' :: '/' :: rest) = skipLine rest := by
  rw [skipBlank_cons]
  simp [show isspace '/' = false by decide]

theorem skipLine_body (body rest : List Char) (h : ∀ c ∈ body, c ≠ '\n') :
    skipLine (body ++ '\n' :: rest) = skipBlank rest := by
  induction body with
  | nil => rw [List.nil_append, skipLine_cons]; simp
  | cons c cs ih =>
    rw [List.cons_append, skipLine_cons]
    simp only [h c (List.mem_cons_self _ _), ↓reduceIte]
    exact ih (fun x hx => h x (List.mem_cons_of_mem _ hx))

theorem skipLine_last (body : List Char) (h : ∀ c ∈ body, c ≠ '\n') :
    skipLine body = (none, []) := by
  induction body with
  | nil => rfl
  | cons c cs ih =>
    rw [skipLine_cons]
    simp only [h c (List.mem_cons_self _ _), ↓reduceIte]
    exact ih (fun x hx => h x (List.mem_cons_of_mem _ hx))

theorem skipBlank_blank {src : List Char} (h : Blank src) : skipBlank src = (none, []) := by
  induction h with
  | nil => rfl
  | space c rest hc _ ih => rw [skipBlank_space c rest hc, ih]
  | comment body rest hb _ ih => rw [skipBlank_comment, skipLine_body body rest hb, ih]
  | lastComment body hb => rw [skipBlank_comment, skipLine_last body hb]

/-- C3: for every input made only of whitespace and `//` comments (the empty
input included), `parseProgram` returns a Program node with an empty statement
chain, and the output is the two header lines followed by the single halt
line, with nothing else. -/
theorem compile_blank (addr : Nat → Nat) (src : List Char) (h : Blank src) :
    (∃ st, parseProgram (initialState src) = .ok (programNode 0 .null, st)) ∧
    compile addr src = .ok [Line.header1, Line.header2, Line.hlt] ∧
    render [Line.header1, Line.header2, Line.hlt] =
      ("; SimpleLang compiled code for 8-bit CPU\n" ++
       "; Variable memory starts at address 0\n\n" ++
       "\n    HLT              ; Halt execution\n").toList := by
  have hp : parseProgram (initialState src) = .ok (programNode 0 .null,
      { input := [], currentToken := { type := TokenType.TOKEN_EOF, text := [], value := 0 },
        varTable := [], nalloc := 1 }) := by
    unfold parseProgram
    simp only [getNextToken, scan, initialState, State.alloc, skipBlank_blank h]
    rw [parseProgramLoop_eof _ _ rfl]
  refine ⟨⟨_, hp⟩, ?_, by decide⟩
  unfold compile
  rw [hp]
  rfl

/-- C3, at an input of two comments, blanks and an empty line. -/
theorem compile_blank_witness :
    (∃ st, parseProgram (initialState " // a\n\t\n//b".toList) =
      .ok (programNode 0 .null, st)) ∧
    compile id " // a\n\t\n//b".toList = .ok [Line.header1, Line.header2, Line.hlt] ∧
    render [Line.header1, Line.header2, Line.hlt] =
      ("; SimpleLang compiled code for 8-bit CPU\n" ++
       "; Variable memory starts at address 0\n\n" ++
       "\n    HLT              ; Halt execution\n").toList :=
  compile_blank id " // a\n\t\n//b".toList
    (Blank.space ' ' _ (by decide)
      (Blank.comment [' ', 'a'] _ (by decide)
        (Blank.space '\t' _ (by decide)
          (Blank.space '\n' _ (by decide) (Blank.lastComment ['b'] (by decide))))))

/-! ## The scanner on single tokens -/

theorem isalnum_not_space {c : Char} (h : isalnum c = true) : isspace c = false := by
  cases hs : isspace c with
  | false => rfl
  | true =>
    exfalso
    simp only [isspace, Bool.or_eq_true, decide_eq_true_eq] at hs
    rcases hs with ((((rfl | rfl) | rfl) | rfl) | rfl) | rfl <;> exact absurd h (by decide)

theorem isalnum_ne_slash {c : Char} (h : isalnum c = true) : c ≠ '/' := by
  rintro rfl
  exact absurd h (by decide)

theorem isalpha_isalnum {c : Char} (h : isalpha c = true) : isalnum c = true := by
  simp [isalnum, h]

theorem isdigit_isalnum {c : Char} (h : isdigit c = true) : isalnum c = true := by
  simp [isalnum, h]

theorem isdigit_not_alpha {c : Char} (h : isdigit c = true) : isalpha c = false := by
  cases ha : isalpha c with
  | false => rfl
  | true =>
    exfalso
    simp only [isdigit, isalpha, Bool.and_eq_true, Bool.or_eq_true, decide_eq_true_eq] at h ha
    omega

theorem skipBlank_char (c : Char) (cs : List Char) (h1 : isspace c = false) (h2 : c ≠ '/') :
    skipBlank (c :: cs) = (some c, cs) := by
  rw [skipBlank_cons]
  simp [h1, h2]

theorem readRun_run (p : Char → Bool) (run rest : List Char) (len : Nat)
    (hrun : ∀ c ∈ run, p c = true) (hlen : len + run.length ≤ MAX_TOKEN_LEN - 1)
    (hrest : EndsRun p rest) : readRun p len (run ++ rest) = (run, rest) := by
  induction run generalizing len with
  | nil =>
    cases rest with
    | nil => rfl
    | cons c cs =>
      have : p c = false := hrest c (by simp)
      simp [readRun, this]
  | cons c cs ih =>
    have h1 : p c = true := hrun c (List.mem_cons_self _ _)
    have h2 : len < MAX_TOKEN_LEN - 1 := by simp only [List.length_cons] at hlen; omega
    have h3 := ih (len + 1) (fun x hx => hrun x (List.mem_cons_of_mem _ hx))
      (by simp only [List.length_cons] at hlen; omega)
    simp [readRun, h1, h2, h3]

theorem scan_space (old : Token) (c : Char) (rest : List Char) (h : isspace c = true) :
    scan old (c :: rest) = scan old rest := by
  simp only [scan, skipBlank_space c rest h]

theorem scan_word (old : Token) (c : Char) (cs rest : List Char)
    (hc : isalpha c = true) (hcs : ∀ x ∈ cs, isalnum x = true)
    (hlen : (c :: cs).length ≤ MAX_TOKEN_LEN - 1) (hrest : EndsRun isalnum rest) :
    scan old (c :: cs ++ rest) =
      ({ type := wordType (c :: cs), text := c :: cs, value := old.value }, rest) := by
  have h1 := isalnum_not_space (isalpha_isalnum hc)
  have h2 := isalnum_ne_slash (isalpha_isalnum hc)
  have h3 := readRun_run isalnum cs rest 1 hcs
    (by simp only [List.length_cons] at hlen; omega) hrest
  simp only [scan, List.cons_append, skipBlank_char c _ h1 h2, hc, ↓reduceIte, h3]

theorem scan_number (old : Token) (c : Char) (cs rest : List Char)
    (hc : isdigit c = true) (hcs : ∀ x ∈ cs, isdigit x = true)
    (hlen : (c :: cs).length ≤ MAX_TOKEN_LEN - 1) (hrest : EndsRun isdigit rest) :
    scan old (c :: cs ++ rest) =
      ({ type := TokenType.TOKEN_NUMBER, text := c :: cs, value := atoi (c :: cs) }, rest) := by
  have h1 := isalnum_not_space (isdigit_isalnum hc)
  have h2 := isalnum_ne_slash (isdigit_isalnum hc)
  have h3 := readRun_run isdigit cs rest 1 hcs
    (by simp only [List.length_cons] at hlen; omega) hrest
  simp [scan, skipBlank_char c _ h1 h2, hc, isdigit_not_alpha hc, h3]

/-- A character that is no blank, letter or digit, and neither `/` nor `=`. -/
theorem scan_symbol (old : Token) (c : Char) (rest : List Char)
    (h1 : isspace c = false) (h2 : c ≠ '/') (h3 : isalnum c = false) (h4 : c ≠ '=') :
    scan old (c :: rest) =
      ({ type := symbolType c, text := charText c, value := old.value }, rest) := by
  simp only [isalnum, Bool.or_eq_false_iff] at h3
  simp [scan, skipBlank_char c _ h1 h2, h3.1, h3.2, h4]

theorem scan_equal (old : Token) (rest : List Char) :
    scan old ('=' :: '=' :: rest) =
      ({ type := TokenType.TOKEN_EQUAL, text := ['=', '='], value := old.value }, rest) := by
  simp [scan, skipBlank_char '=' _ (by decide) (by decide),
    show isalpha '=' = false by decide, show isdigit '=' = false by decide]

theorem scan_assign (old : Token) (rest : List Char) (h : ∀ c ∈ rest.head?, c ≠ '=') :
    scan old ('=' :: rest) =
      ({ type := TokenType.TOKEN_ASSIGN, text := ['='], value := old.value }, rest) := by
  cases rest with
  | nil =>
    simp [scan, skipBlank_char '=' _ (by decide) (by decide),
      show isalpha '=' = false by decide, show isdigit '=' = false by decide]
  | cons c2 r =>
    have : c2 ≠ '=' := h c2 (by simp)
    simp [scan, skipBlank_char '=' _ (by decide) (by decide),
      show isalpha '=' = false by decide, show isdigit '=' = false by decide, this]

theorem scan_eof (old : Token) :
    scan old [] = ({ type := TokenType.TOKEN_EOF, text := [], value := old.value }, []) := rfl

/-! ## Progress of the scanner -/

theorem skip_result (n : Nat) : ∀ inp : List Char, inp.length ≤ n →
    SkipResult inp (skipBlank inp) ∧ SkipResult inp (skipLine inp) := by
  induction n with
  | zero =>
    intro inp h
    cases inp with
    | nil => exact ⟨⟨fun _ => rfl, fun h => absurd rfl h⟩, ⟨fun _ => rfl, fun h => absurd rfl h⟩⟩
    | cons c cs => simp at h
  | succ n ih =>
    intro inp h
    cases inp with
    | nil => exact ⟨⟨fun _ => rfl, fun h => absurd rfl h⟩, ⟨fun _ => rfl, fun h => absurd rfl h⟩⟩
    | cons c cs =>
      have hcs : cs.length ≤ n := by simp only [List.length_cons] at h; omega
      have mono : ∀ r, SkipResult cs r → SkipResult (c :: cs) r := fun r hr =>
        ⟨hr.1, fun h1 => by have := hr.2 h1; simp only [List.length_cons]; omega⟩
      constructor
      · rw [skipBlank_cons]
        split
        · exact mono _ (ih cs hcs).1
        · split
          · cases cs with
            | nil => exact ⟨fun h1 => by simp at h1, fun _ => by simp⟩
            | cons next cs' =>
              simp only
              split
              · have := (ih cs' (by simp only [List.length_cons] at hcs; omega)).2
                exact ⟨this.1, fun h1 => by
                  have := this.2 h1; simp only [List.length_cons]; omega⟩
              · exact ⟨fun h1 => by simp at h1, fun _ => by simp⟩
          · exact ⟨fun h1 => by simp at h1, fun _ => by simp⟩
      · rw [skipLine_cons]
        split
        · exact mono _ (ih cs hcs).1
        · exact mono _ (ih cs hcs).2

theorem skipBlank_result (inp : List Char) : SkipResult inp (skipBlank inp) :=
  (skip_result inp.length inp (Nat.le_refl _)).1

theorem readRun_length (p : Char → Bool) (len : Nat) (inp : List Char) :
    (readRun p len inp).2.length ≤ inp.length := by
  induction inp generalizing len with
  | nil => simp [readRun]
  | cons c cs ih =>
    rw [readRun]
    split
    · have := ih (len + 1)
      simp only [List.length_cons]
      omega
    · simp

theorem wordType_ne_eof (text : List Char) : wordType text ≠ TokenType.TOKEN_EOF := by
  unfold wordType
  split
  · simp
  · split <;> simp

theorem symbolType_ne_eof (c : Char) : symbolType c ≠ TokenType.TOKEN_EOF := by
  unfold symbolType
  repeat' split
  all_goals simp

/-- `getNextToken` returns the end-of-input token with nothing left unread, or
another token and has read at least one character. -/
theorem scan_progress (old : Token) (inp : List Char) :
    ((scan old inp).1.type = TokenType.TOKEN_EOF → (scan old inp).2 = []) ∧
    ((scan old inp).1.type ≠ TokenType.TOKEN_EOF → (scan old inp).2.length < inp.length) := by
  have hs := skipBlank_result inp
  unfold scan
  split
  · rename_i rest heq
    rw [heq] at hs
    exact ⟨fun _ => hs.1 rfl, fun h => absurd rfl h⟩
  · rename_i c rest heq
    rw [heq] at hs
    have hlt : rest.length < inp.length := hs.2 (by simp)
    split
    · refine ⟨fun h => absurd h (wordType_ne_eof _), fun _ => ?_⟩
      have := readRun_length isalnum 1 rest
      simp only
      omega
    · split
      · refine ⟨fun h => by simp at h, fun _ => ?_⟩
        have := readRun_length isdigit 1 rest
        simp only
        omega
      · split
        · split
          · exact ⟨fun h => by simp at h, fun _ => hlt⟩
          · split
            · refine ⟨fun h => by simp at h, fun _ => ?_⟩
              simp only [List.length_cons] at hlt ⊢
              omega
            · exact ⟨fun h => by simp at h, fun _ => hlt⟩
        · exact ⟨fun h => absurd h (symbolType_ne_eof _), fun _ => hlt⟩

theorem scan_length_le (old : Token) (inp : List Char) :
    (scan old inp).2.length ≤ inp.length := by
  by_cases h : (scan old inp).1.type = TokenType.TOKEN_EOF
  · rw [(scan_progress old inp).1 h]
    simp
  · exact Nat.le_of_lt ((scan_progress old inp).2 h)

@[simp] theorem alloc_input (st : State) : st.alloc.input = st.input := rfl

@[simp] theorem alloc_currentToken (st : State) : st.alloc.currentToken = st.currentToken := rfl

@[simp] theorem alloc_varTable (st : State) : st.alloc.varTable = st.varTable := rfl

@[simp] theorem alloc_nalloc (st : State) : st.alloc.nalloc = st.nalloc + 1 := rfl

@[simp] theorem register_input (st : State) (name : List Char) :
    (st.register name).input = st.input := rfl

@[simp] theorem register_currentToken (st : State) (name : List Char) :
    (st.register name).currentToken = st.currentToken := rfl

@[simp] theorem register_varTable (st : State) (name : List Char) :
    (st.register name).varTable = st.varTable ++ [name] := rfl

@[simp] theorem register_nalloc (st : State) (name : List Char) :
    (st.register name).nalloc = st.nalloc := rfl

@[simp] theorem getNextToken_varTable (st : State) :
    (getNextToken st).varTable = st.varTable := rfl

@[simp] theorem getNextToken_nalloc (st : State) : (getNextToken st).nalloc = st.nalloc := rfl

theorem getNextToken_length_le (st : State) :
    (getNextToken st).input.length ≤ st.input.length :=
  scan_length_le _ _

theorem getNextToken_length_lt (st : State)
    (h : (getNextToken st).currentToken.type ≠ TokenType.TOKEN_EOF) :
    (getNextToken st).input.length < st.input.length :=
  (scan_progress _ _).2 h

theorem getNextToken_eof (st : State)
    (h : (getNextToken st).currentToken.type = TokenType.TOKEN_EOF) :
    (getNextToken st).input = [] :=
  (scan_progress _ _).1 h

theorem getNextToken_fuelled (fuel : Nat) (st : State) (h : st.input.length ≤ fuel) :
    Fuelled fuel (getNextToken st) := fun h1 =>
  Nat.lt_of_lt_of_le (getNextToken_length_lt st h1) h

/-! ## The parser never runs out of fuel -/

theorem parseTerm_length {st st' : State} {e : ASTNode} (h : parseTerm st = .ok (e, st')) :
    st'.input.length ≤ st.input.length := by
  rw [(parseTerm_ok h).1]
  exact getNextToken_length_le _

theorem parseTerm_length_lt {st st' : State} {e : ASTNode}
    (h : parseTerm (getNextToken st) = .ok (e, st')) :
    st'.input.length < st.input.length := by
  have h1 := parseTerm_length h
  have h2 : (getNextToken st).currentToken.type ≠ TokenType.TOKEN_EOF := by
    rcases (parseTerm_ok h).2 with ⟨h3, -⟩ | ⟨h3, -⟩ <;> rw [h3] <;> simp
  have := getNextToken_length_lt st h2
  omega

theorem parseTerm_ne_fuel (st : State) : parseTerm st ≠ .error .fuel := by
  unfold parseTerm
  split
  · simp
  · split <;> simp

theorem parseExprLoop_length (fuel : Nat) {left e : ASTNode} {st st' : State}
    (h : parseExprLoop fuel left st = .ok (e, st')) :
    st'.input.length ≤ st.input.length := by
  induction fuel generalizing left st with
  | zero =>
    by_cases hop : st.currentToken.type = TokenType.TOKEN_PLUS ∨
        st.currentToken.type = TokenType.TOKEN_MINUS
    · rw [parseExprLoop_zero _ _ hop] at h; cases h
    · rw [parseExprLoop_stop _ _ _ (fun e => hop (Or.inl e)) (fun e => hop (Or.inr e))] at h
      cases h; exact Nat.le_refl _
  | succ fuel ih =>
    by_cases hop : st.currentToken.type = TokenType.TOKEN_PLUS ∨
        st.currentToken.type = TokenType.TOKEN_MINUS
    · rw [parseExprLoop_succ _ _ _ hop] at h
      split at h
      · cases h
      · rename_i right st2 hr
        have h1 := ih h
        have h2 := parseTerm_length_lt hr
        simp only [alloc_input] at h2
        omega
    · rw [parseExprLoop_stop _ _ _ (fun e => hop (Or.inl e)) (fun e => hop (Or.inr e))] at h
      cases h; exact Nat.le_refl _

theorem parseExprLoop_ne_fuel (fuel : Nat) (left : ASTNode) (st : State)
    (hf : st.input.length < fuel) : parseExprLoop fuel left st ≠ .error .fuel := by
  induction fuel generalizing left st with
  | zero => omega
  | succ fuel ih =>
    by_cases hop : st.currentToken.type = TokenType.TOKEN_PLUS ∨
        st.currentToken.type = TokenType.TOKEN_MINUS
    · rw [parseExprLoop_succ _ _ _ hop]
      split
      · rename_i e he
        intro h
        cases h
        exact parseTerm_ne_fuel _ he
      · rename_i right st2 hr
        have h2 := parseTerm_length_lt hr
        simp only [alloc_input] at h2
        exact ih _ _ (by omega)
    · rw [parseExprLoop_stop _ _ _ (fun e => hop (Or.inl e)) (fun e => hop (Or.inr e))]
      simp

theorem parseExpression_length {st st' : State} {e : ASTNode}
    (h : parseExpression st = .ok (e, st')) : st'.input.length ≤ st.input.length := by
  obtain ⟨left, st1, h1, h2⟩ := parseExpression_ok h
  have := parseTerm_length h1
  have := parseExprLoop_length _ h2
  omega

theorem parseExpression_ne_fuel (st : State) : parseExpression st ≠ .error .fuel := by
  unfold parseExpression
  split
  · rename_i e he
    intro h
    cases h
    exact parseTerm_ne_fuel _ he
  · exact parseExprLoop_ne_fuel _ _ _ (Nat.lt_succ_self _)

theorem parseVarDecl_ne_fuel (st : State) : parseVarDecl st ≠ .error .fuel := by
  unfold parseVarDecl
  simp only
  repeat' split
  all_goals simp

theorem parseAssignment_ne_fuel (st : State) : parseAssignment st ≠ .error .fuel := by
  unfold parseAssignment
  simp only
  split
  · simp
  · split
    · rename_i e he
      intro h
      cases h
      exact parseExpression_ne_fuel _ he
    · split <;> simp

theorem parseVarDecl_length {st st' : State} {n : ASTNode}
    (h : parseVarDecl st = .ok (n, st')) :
    ∃ s, st' = getNextToken s ∧ s.input.length ≤ st.input.length := by
  obtain ⟨-, -, -, -, rfl⟩ := parseVarDecl_ok h
  refine ⟨_, rfl, ?_⟩
  have h1 := getNextToken_length_le st
  have h2 := getNextToken_length_le ((getNextToken st).alloc.register
        (getNextToken st).currentToken.text)
  simp only [register_input, alloc_input] at h2
  omega

theorem parseAssignment_length {st st' : State} {n : ASTNode}
    (h : parseAssignment st = .ok (n, st')) :
    ∃ s, st' = getNextToken s ∧ s.input.length ≤ st.input.length := by
  obtain ⟨right, st2, -, h2, -, -, rfl⟩ := parseAssignment_ok h
  refine ⟨_, rfl, ?_⟩
  have h1 := parseExpression_length h2
  have h3 := getNextToken_length_le (getNextToken st.alloc)
  have h4 := getNextToken_length_le st.alloc
  simp only [alloc_input] at h4
  omega

theorem parseIf_length {ps : State → Res (ASTNode × State)} {st st' : State} {n : ASTNode}
    (hps : ∀ s s' b, ps s = .ok (b, s') → s'.input.length ≤ s.input.length)
    (h : parseIf ps st = .ok (n, st')) :
    ∃ s, st' = getNextToken s ∧ s.input.length ≤ st.input.length := by
  obtain ⟨a, st2, b, st3, body, st5, -, h2, -, h4, -, -, h7, -, -, rfl⟩ := parseIf_ok h
  refine ⟨_, rfl, ?_⟩
  have e1 := getNextToken_length_le st
  have e2 := getNextToken_length_le (getNextToken st).alloc
  have e3 := parseExpression_length h2
  have e4 := getNextToken_length_le st2
  have e5 := parseExpression_length h4
  have e6 := getNextToken_length_le st3.alloc
  have e7 := getNextToken_length_le (getNextToken st3.alloc)
  have e8 := hps _ _ _ h7
  simp only [alloc_input] at e2 e6
  omega

theorem parseStatement_length (fuel : Nat) {st st' : State} {n : ASTNode}
    (h : parseStatement fuel st = .ok (n, st')) :
    ∃ s, st' = getNextToken s ∧ s.input.length ≤ st.input.length := by
  induction fuel generalizing st st' n with
  | zero =>
    rcases parseStatement_ok h with ⟨-, h1⟩ | ⟨-, h1⟩ | ⟨-, f, hf, -⟩ | ⟨-, -, -, -, h1⟩
    · exact parseVarDecl_length h1
    · exact parseAssignment_length h1
    · omega
    · exact ⟨st, h1, Nat.le_refl _⟩
  | succ fuel ih =>
    rcases parseStatement_ok h with ⟨-, h1⟩ | ⟨-, h1⟩ | ⟨-, f, hf, h1⟩ | ⟨-, -, -, -, h1⟩
    · exact parseVarDecl_length h1
    · exact parseAssignment_length h1
    · obtain rfl : f = fuel := by omega
      refine parseIf_length (fun s s' b hb => ?_) h1
      obtain ⟨s0, rfl, h0⟩ := ih hb
      have := getNextToken_length_le s0
      omega
    · exact ⟨st, h1, Nat.le_refl _⟩

theorem parseStatement_length_le (fuel : Nat) {st st' : State} {n : ASTNode}
    (h : parseStatement fuel st = .ok (n, st')) : st'.input.length ≤ st.input.length := by
  obtain ⟨s, rfl, hs⟩ := parseStatement_length fuel h
  have := getNextToken_length_le s
  omega

theorem parseIf_ne_fuel (ps : State → Res (ASTNode × State)) (st : State)
    (hps : ∀ s, s.input.length ≤ st.input.length → ps (getNextToken s) ≠ .error .fuel) :
    parseIf ps st ≠ .error .fuel := by
  unfold parseIf
  simp only [ne_eq, ite_not]
  split
  · split
    · rename_i e he
      intro h
      cases h
      exact parseExpression_ne_fuel _ he
    · rename_i a st2 h2
      split
      · split
        · rename_i e he
          intro h
          cases h
          exact parseExpression_ne_fuel _ he
        · rename_i b st3 h4
          split
          · split
            · split
              · rename_i e he
                intro h
                cases h
                refine hps _ ?_ he
                have e1 := getNextToken_length_le st
                have e2 := getNextToken_length_le (getNextToken st).alloc
                have e3 := parseExpression_length h2
                have e4 := getNextToken_length_le st2
                have e5 := parseExpression_length h4
                have e6 := getNextToken_length_le st3.alloc
                simp only [alloc_input] at e2 e6
                omega
              · split <;> simp
            · simp
          · simp
      · simp
  · simp

theorem parseStatement_ne_fuel (fuel : Nat) (st : State) (hf : Fuelled fuel st) :
    parseStatement fuel st ≠ .error .fuel := by
  induction fuel generalizing st with
  | zero =>
    by_cases h1 : st.currentToken.type = TokenType.TOKEN_INT
    · rw [parseStatement_int _ _ h1]; exact parseVarDecl_ne_fuel st
    · by_cases h2 : st.currentToken.type = TokenType.TOKEN_IDENTIFIER
      · rw [parseStatement_identifier _ _ h2]; exact parseAssignment_ne_fuel st
      · by_cases h3 : st.currentToken.type = TokenType.TOKEN_IF
        · have := hf (by rw [h3]; simp)
          omega
        · rw [parseStatement_other _ _ h1 h2 h3]; simp
  | succ fuel ih =>
    by_cases h1 : st.currentToken.type = TokenType.TOKEN_INT
    · rw [parseStatement_int _ _ h1]; exact parseVarDecl_ne_fuel st
    · by_cases h2 : st.currentToken.type = TokenType.TOKEN_IDENTIFIER
      · rw [parseStatement_identifier _ _ h2]; exact parseAssignment_ne_fuel st
      · by_cases h3 : st.currentToken.type = TokenType.TOKEN_IF
        · rw [parseStatement_if_succ _ _ h3]
          have hlen := hf (by rw [h3]; simp)
          exact parseIf_ne_fuel _ _ (fun s hs => ih _ (getNextToken_fuelled _ _ (by omega)))
        · rw [parseStatement_other _ _ h1 h2 h3]; simp

theorem parseProgramLoop_ne_fuel (fuel : Nat) (st : State) (hf : Fuelled fuel st) :
    parseProgramLoop fuel st ≠ .error .fuel := by
  induction fuel generalizing st with
  | zero =>
    by_cases h1 : st.currentToken.type = TokenType.TOKEN_EOF
    · rw [parseProgramLoop_eof _ _ h1]; simp
    · have := hf h1
      omega
  | succ fuel ih =>
    by_cases h1 : st.currentToken.type = TokenType.TOKEN_EOF
    · rw [parseProgramLoop_eof _ _ h1]; simp
    · rw [parseProgramLoop_succ _ _ h1]
      have hlen := hf h1
      split
      · rename_i e he
        intro h
        cases h
        exact parseStatement_ne_fuel _ _ hf he
      · rename_i stmt st1 hs
        obtain ⟨s, rfl, hs1⟩ := parseStatement_length _ hs
        have := ih _ (getNextToken_fuelled fuel s (by omega))
        split
        · rename_i e he
          intro h
          cases h
          exact this he
        · simp

/-- With the fuel `parseProgram` gives its loop, the loop never runs out. -/
theorem parseProgram_ne_fuel (st : State) : parseProgram st ≠ .error .fuel := by
  unfold parseProgram
  simp only
  split
  · rename_i e he
    intro h
    cases h
    exact parseProgramLoop_ne_fuel _ _ (fun _ => Nat.lt_succ_self _) he
  · simp

/-! ## Wrong tokens inside a statement -/

theorem parseVarDecl_no_identifier (st : State)
    (h : (getNextToken st).currentToken.type ≠ TokenType.TOKEN_IDENTIFIER) :
    parseVarDecl st = .error (.exit "Error: Expected identifier\n") := by
  unfold parseVarDecl
  simp [h]

theorem parseVarDecl_no_semicolon (st : State)
    (h1 : (getNextToken st).currentToken.type = TokenType.TOKEN_IDENTIFIER)
    (h2 : st.varCount < MAX_VARS)
    (h3 : (getNextToken ((getNextToken st).alloc.register
        (getNextToken st).currentToken.text)).currentToken.type ≠ TokenType.TOKEN_SEMICOLON) :
    parseVarDecl st = .error (.exit "Error: Expected semicolon\n") := by
  unfold parseVarDecl
  have h4 : ¬ MAX_VARS ≤ (getNextToken st).varCount := by
    simp only [State.varCount, getNextToken_varTable] at h2 ⊢
    omega
  simp [h1, h3, h4]

theorem parseVarDecl_never_accepts (st : State)
    (h3 : (getNextToken ((getNextToken st).alloc.register
        (getNextToken st).currentToken.text)).currentToken.type ≠ TokenType.TOKEN_SEMICOLON)
    (r : ASTNode × State) : parseVarDecl st ≠ .ok r := by
  intro h
  obtain ⟨-, -, h4, -, -⟩ := @parseVarDecl_ok st r.2 r.1 h
  exact h3 h4

theorem parseAssignment_no_assign (st : State)
    (h : (getNextToken st.alloc).currentToken.type ≠ TokenType.TOKEN_ASSIGN) :
    parseAssignment st = .error (.exit "Error: Expected '='\n") := by
  unfold parseAssignment
  simp [h]

theorem parseAssignment_no_semicolon (st st2 : State) (right : ASTNode)
    (h1 : (getNextToken st.alloc).currentToken.type = TokenType.TOKEN_ASSIGN)
    (h2 : parseExpression (getNextToken (getNextToken st.alloc)) = .ok (right, st2))
    (h3 : st2.currentToken.type ≠ TokenType.TOKEN_SEMICOLON) :
    parseAssignment st = .error (.exit "Error: Expected semicolon\n") := by
  unfold parseAssignment
  simp [h1, h2, h3]

theorem parseAssignment_error (st : State) (e : Abort)
    (h1 : (getNextToken st.alloc).currentToken.type = TokenType.TOKEN_ASSIGN)
    (h2 : parseExpression (getNextToken (getNextToken st.alloc)) = .error e) :
    parseAssignment st = .error e := by
  unfold parseAssignment
  simp [h1, h2]

theorem parseTerm_no_term (st : State)
    (h1 : st.currentToken.type ≠ TokenType.TOKEN_NUMBER)
    (h2 : st.currentToken.type ≠ TokenType.TOKEN_IDENTIFIER) :
    parseTerm st = .error (.exit "Error: Expected number or identifier\n") := by
  unfold parseTerm
  simp [h1, h2]

theorem parseExpression_no_term (st : State)
    (h1 : st.currentToken.type ≠ TokenType.TOKEN_NUMBER)
    (h2 : st.currentToken.type ≠ TokenType.TOKEN_IDENTIFIER) :
    parseExpression st = .error (.exit "Error: Expected number or identifier\n") := by
  unfold parseExpression
  simp [parseTerm_no_term st h1 h2]

theorem parseExprLoop_no_term (fuel : Nat) (left : ASTNode) (st : State)
    (hop : st.currentToken.type = TokenType.TOKEN_PLUS ∨
      st.currentToken.type = TokenType.TOKEN_MINUS)
    (h1 : (getNextToken st.alloc).currentToken.type ≠ TokenType.TOKEN_NUMBER)
    (h2 : (getNextToken st.alloc).currentToken.type ≠ TokenType.TOKEN_IDENTIFIER) :
    parseExprLoop (fuel + 1) left st =
      .error (.exit "Error: Expected number or identifier\n") := by
  rw [parseExprLoop_succ _ _ _ hop, parseTerm_no_term _ h1 h2]

theorem parseIf_no_lparen (ps : State → Res (ASTNode × State)) (st : State)
    (h : (getNextToken st).currentToken.type ≠ TokenType.TOKEN_LPAREN) :
    parseIf ps st = .error (.exit "Error: Expected '('\n") := by
  unfold parseIf
  simp [h]

theorem parseIf_left_error (ps : State → Res (ASTNode × State)) (st : State) (e : Abort)
    (h1 : (getNextToken st).currentToken.type = TokenType.TOKEN_LPAREN)
    (h2 : parseExpression (getNextToken (getNextToken st).alloc) = .error e) :
    parseIf ps st = .error e := by
  unfold parseIf
  simp [h1, h2]

theorem parseIf_no_equal (ps : State → Res (ASTNode × State)) (st st2 : State) (a : ASTNode)
    (h1 : (getNextToken st).currentToken.type = TokenType.TOKEN_LPAREN)
    (h2 : parseExpression (getNextToken (getNextToken st).alloc) = .ok (a, st2))
    (h3 : st2.currentToken.type ≠ TokenType.TOKEN_EQUAL) :
    parseIf ps st = .error (.exit "Error: Only '==' supported in conditions\n") := by
  unfold parseIf
  simp [h1, h2, h3]

theorem parseIf_right_error (ps : State → Res (ASTNode × State)) (st st2 : State)
    (a : ASTNode) (e : Abort)
    (h1 : (getNextToken st).currentToken.type = TokenType.TOKEN_LPAREN)
    (h2 : parseExpression (getNextToken (getNextToken st).alloc) = .ok (a, st2))
    (h3 : st2.currentToken.type = TokenType.TOKEN_EQUAL)
    (h4 : parseExpression (getNextToken st2) = .error e) :
    parseIf ps st = .error e := by
  unfold parseIf
  simp [h1, h2, h3, h4]

theorem parseIf_no_rparen (ps : State → Res (ASTNode × State)) (st st2 st3 : State)
    (a b : ASTNode)
    (h1 : (getNextToken st).currentToken.type = TokenType.TOKEN_LPAREN)
    (h2 : parseExpression (getNextToken (getNextToken st).alloc) = .ok (a, st2))
    (h3 : st2.currentToken.type = TokenType.TOKEN_EQUAL)
    (h4 : parseExpression (getNextToken st2) = .ok (b, st3))
    (h5 : st3.currentToken.type ≠ TokenType.TOKEN_RPAREN) :
    parseIf ps st = .error (.exit "Error: Expected ')'\n") := by
  unfold parseIf
  simp [h1, h2, h3, h4, h5]

theorem parseIf_no_lbrace (ps : State → Res (ASTNode × State)) (st st2 st3 : State)
    (a b : ASTNode)
    (h1 : (getNextToken st).currentToken.type = TokenType.TOKEN_LPAREN)
    (h2 : parseExpression (getNextToken (getNextToken st).alloc) = .ok (a, st2))
    (h3 : st2.currentToken.type = TokenType.TOKEN_EQUAL)
    (h4 : parseExpression (getNextToken st2) = .ok (b, st3))
    (h5 : st3.currentToken.type = TokenType.TOKEN_RPAREN)
    (h6 : (getNextToken st3.alloc).currentToken.type ≠ TokenType.TOKEN_LBRACE) :
    parseIf ps st = .error (.exit "Error: Expected '\x7b'\n") := by
  unfold parseIf
  simp [h1, h2, h3, h4, h5, h6]

theorem parseIf_body_error (ps : State → Res (ASTNode × State)) (st st2 st3 : State)
    (a b : ASTNode) (e : Abort)
    (h1 : (getNextToken st).currentToken.type = TokenType.TOKEN_LPAREN)
    (h2 : parseExpression (getNextToken (getNextToken st).alloc) = .ok (a, st2))
    (h3 : st2.currentToken.type = TokenType.TOKEN_EQUAL)
    (h4 : parseExpression (getNextToken st2) = .ok (b, st3))
    (h5 : st3.currentToken.type = TokenType.TOKEN_RPAREN)
    (h6 : (getNextToken st3.alloc).currentToken.type = TokenType.TOKEN_LBRACE)
    (h7 : ps (getNextToken (getNextToken st3.alloc)) = .error e) :
    parseIf ps st = .error e := by
  unfold parseIf
  simp [h1, h2, h3, h4, h5, h6, h7]

theorem parseIf_no_rbrace (ps : State → Res (ASTNode × State)) (st st2 st3 st5 : State)
    (a b body : ASTNode)
    (h1 : (getNextToken st).currentToken.type = TokenType.TOKEN_LPAREN)
    (h2 : parseExpression (getNextToken (getNextToken st).alloc) = .ok (a, st2))
    (h3 : st2.currentToken.type = TokenType.TOKEN_EQUAL)
    (h4 : parseExpression (getNextToken st2) = .ok (b, st3))
    (h5 : st3.currentToken.type = TokenType.TOKEN_RPAREN)
    (h6 : (getNextToken st3.alloc).currentToken.type = TokenType.TOKEN_LBRACE)
    (h7 : ps (getNextToken (getNextToken st3.alloc)) = .ok (body, st5))
    (h8 : st5.currentToken.type ≠ TokenType.TOKEN_RBRACE) :
    parseIf ps st = .error (.exit "Error: Expected '\x7d'\n") := by
  unfold parseIf
  simp [h1, h2, h3, h4, h5, h6, h7, h8]

theorem parseProgramLoop_error (fuel : Nat) (st : State) (e : Abort)
    (h1 : st.currentToken.type ≠ TokenType.TOKEN_EOF)
    (h2 : parseStatement (fuel + 1) st = .error e) :
    parseProgramLoop (fuel + 1) st = .error e := by
  rw [parseProgramLoop_succ _ _ h1, h2]

theorem parseProgramLoop_later_error (fuel : Nat) (st st1 : State) (stmt : ASTNode) (e : Abort)
    (h1 : st.currentToken.type ≠ TokenType.TOKEN_EOF)
    (h2 : parseStatement (fuel + 1) st = .ok (stmt, st1))
    (h3 : parseProgramLoop fuel st1 = .error e) :
    parseProgramLoop (fuel + 1) st = .error e := by
  rw [parseProgramLoop_succ _ _ h1, h2]
  simp [h3]

theorem parseProgram_error (st : State) (e : Abort)
    (h : parseProgramLoop ((getNextToken st.alloc).input.length + 1) (getNextToken st.alloc)
      = .error e) :
    parseProgram st = .error e := by
  unfold parseProgram
  simp [h]

theorem compile_error (addr : Nat → Nat) (src : List Char) (e : Abort)
    (h : parseProgram (initialState src) = .error e) : compile addr src = .error e := by
  unfold compile
  simp [h]

/-- C5: inside a statement that has started, a wrong token at an expected
position ends the parse with the matching diagnostic, and the compilation ends
with it before any code is generated.  In the order of the conjuncts: a
non-identifier after `int`; a non-`;` after a declaration (whose name found a
free row of the table; without a free row no node is returned either); a
non-`=` after the first identifier of a statement; a non-`;` after the
expression of an assignment; a token that is no number and no identifier where
a term is required, as first operand and after `+` or `-`; in an `if`, a
missing `(`, `==`, `)`, opening brace, closing brace.  Then: the statement
parsers are the ones `parseStatement` calls, an error of an operand- or
body-parser is the error of the statement, an error of a statement is the
error of `parseProgram`, and an error of `parseProgram` is the result of the
compilation.  Last, on `int 5;`, `x = ;` and `if (1 = 2) { }`. -/
theorem wrong_token_rejected :
    (∀ st : State, (getNextToken st).currentToken.type ≠ TokenType.TOKEN_IDENTIFIER →
      parseVarDecl st = .error (.exit "Error: Expected identifier\n")) ∧
    (∀ st : State, (getNextToken st).currentToken.type = TokenType.TOKEN_IDENTIFIER →
      (getNextToken ((getNextToken st).alloc.register
        (getNextToken st).currentToken.text)).currentToken.type ≠ TokenType.TOKEN_SEMICOLON →
      (st.varCount < MAX_VARS → parseVarDecl st = .error (.exit "Error: Expected semicolon\n")) ∧
      ∀ r, parseVarDecl st ≠ .ok r) ∧
    (∀ st : State, (getNextToken st.alloc).currentToken.type ≠ TokenType.TOKEN_ASSIGN →
      parseAssignment st = .error (.exit "Error: Expected '='\n")) ∧
    (∀ (st st2 : State) (right : ASTNode),
      (getNextToken st.alloc).currentToken.type = TokenType.TOKEN_ASSIGN →
      parseExpression (getNextToken (getNextToken st.alloc)) = .ok (right, st2) →
      st2.currentToken.type ≠ TokenType.TOKEN_SEMICOLON →
      parseAssignment st = .error (.exit "Error: Expected semicolon\n")) ∧
    (∀ st : State, st.currentToken.type ≠ TokenType.TOKEN_NUMBER →
      st.currentToken.type ≠ TokenType.TOKEN_IDENTIFIER →
      parseTerm st = .error (.exit "Error: Expected number or identifier\n") ∧
      parseExpression st = .error (.exit "Error: Expected number or identifier\n")) ∧
    (∀ (fuel : Nat) (left : ASTNode) (st : State),
      (st.currentToken.type = TokenType.TOKEN_PLUS ∨
        st.currentToken.type = TokenType.TOKEN_MINUS) →
      (getNextToken st.alloc).currentToken.type ≠ TokenType.TOKEN_NUMBER →
      (getNextToken st.alloc).currentToken.type ≠ TokenType.TOKEN_IDENTIFIER →
      parseExprLoop (fuel + 1) left st =
        .error (.exit "Error: Expected number or identifier\n")) ∧
    (∀ (ps : State → Res (ASTNode × State)) (st : State),
      (getNextToken st).currentToken.type ≠ TokenType.TOKEN_LPAREN →
      parseIf ps st = .error (.exit "Error: Expected '('\n")) ∧
    (∀ (ps : State → Res (ASTNode × State)) (st st2 : State) (a : ASTNode),
      (getNextToken st).currentToken.type = TokenType.TOKEN_LPAREN →
      parseExpression (getNextToken (getNextToken st).alloc) = .ok (a, st2) →
      st2.currentToken.type ≠ TokenType.TOKEN_EQUAL →
      parseIf ps st = .error (.exit "Error: Only '==' supported in conditions\n")) ∧
    (∀ (ps : State → Res (ASTNode × State)) (st st2 st3 : State) (a b : ASTNode),
      (getNextToken st).currentToken.type = TokenType.TOKEN_LPAREN →
      parseExpression (getNextToken (getNextToken st).alloc) = .ok (a, st2) →
      st2.currentToken.type = TokenType.TOKEN_EQUAL →
      parseExpression (getNextToken st2) = .ok (b, st3) →
      (st3.currentToken.type ≠ TokenType.TOKEN_RPAREN →
        parseIf ps st = .error (.exit "Error: Expected ')'\n")) ∧
      (st3.currentToken.type = TokenType.TOKEN_RPAREN →
        (getNextToken st3.alloc).currentToken.type ≠ TokenType.TOKEN_LBRACE →
        parseIf ps st = .error (.exit "Error: Expected '\x7b'\n")) ∧
      (∀ (body : ASTNode) (st5 : State),
        st3.currentToken.type = TokenType.TOKEN_RPAREN →
        (getNextToken st3.alloc).currentToken.type = TokenType.TOKEN_LBRACE →
        ps (getNextToken (getNextToken st3.alloc)) = .ok (body, st5) →
        st5.currentToken.type ≠ TokenType.TOKEN_RBRACE →
        parseIf ps st = .error (.exit "Error: Expected '\x7d'\n")) ∧
      (∀ e : Abort,
        st3.currentToken.type = TokenType.TOKEN_RPAREN →
        (getNextToken st3.alloc).currentToken.type = TokenType.TOKEN_LBRACE →
        ps (getNextToken (getNextToken st3.alloc)) = .error e →
        parseIf ps st = .error e)) ∧
    (∀ (ps : State → Res (ASTNode × State)) (st : State) (e : Abort),
      (getNextToken st).currentToken.type = TokenType.TOKEN_LPAREN →
      (parseExpression (getNextToken (getNextToken st).alloc) = .error e →
        parseIf ps st = .error e) ∧
      (∀ (a : ASTNode) (st2 : State),
        parseExpression (getNextToken (getNextToken st).alloc) = .ok (a, st2) →
        st2.currentToken.type = TokenType.TOKEN_EQUAL →
        parseExpression (getNextToken st2) = .error e → parseIf ps st = .error e)) ∧
    (∀ (st : State) (e : Abort),
      (getNextToken st.alloc).currentToken.type = TokenType.TOKEN_ASSIGN →
      parseExpression (getNextToken (getNextToken st.alloc)) = .error e →
      parseAssignment st = .error e) ∧
    (∀ (fuel : Nat) (st : State),
      (st.currentToken.type = TokenType.TOKEN_INT →
        parseStatement fuel st = parseVarDecl st) ∧
      (st.currentToken.type = TokenType.TOKEN_IDENTIFIER →
        parseStatement fuel st = parseAssignment st) ∧
      (st.currentToken.type = TokenType.TOKEN_IF →
        parseStatement (fuel + 1) st = parseIf (parseStatement fuel) st)) ∧
    (∀ (fuel : Nat) (st : State) (e : Abort),
      st.currentToken.type ≠ TokenType.TOKEN_EOF →
      (parseStatement (fuel + 1) st = .error e → parseProgramLoop (fuel + 1) st = .error e) ∧
      (∀ (stmt : ASTNode) (st1 : State), parseStatement (fuel + 1) st = .ok (stmt, st1) →
        parseProgramLoop fuel st1 = .error e → parseProgramLoop (fuel + 1) st = .error e)) ∧
    (∀ (st : State) (e : Abort),
      parseProgramLoop ((getNextToken st.alloc).input.length + 1) (getNextToken st.alloc)
        = .error e →
      parseProgram st = .error e) ∧
    (∀ (addr : Nat → Nat) (src : List Char) (e : Abort),
      parseProgram (initialState src) = .error e → compile addr src = .error e) ∧
    (∀ addr : Nat → Nat,
      compile addr "int 5;".toList = .error (.exit "Error: Expected identifier\n") ∧
      compile addr "x = ;".toList = .error (.exit "Error: Expected number or identifier\n") ∧
      compile addr "if (1 = 2) { }".toList =
        .error (.exit "Error: Only '==' supported in conditions\n")) := by
  refine ⟨parseVarDecl_no_identifier, ?_, parseAssignment_no_assign,
    parseAssignment_no_semicolon, ?_, parseExprLoop_no_term, parseIf_no_lparen,
    parseIf_no_equal, ?_, ?_, parseAssignment_error, ?_, ?_, parseProgram_error,
    compile_error, ?_⟩
  · exact fun st h1 h2 =>
      ⟨fun h3 => parseVarDecl_no_semicolon st h1 h3 h2, parseVarDecl_never_accepts st h2⟩
  · exact fun st h1 h2 => ⟨parseTerm_no_term st h1 h2, parseExpression_no_term st h1 h2⟩
  · exact fun ps st st2 st3 a b h1 h2 h3 h4 =>
      ⟨parseIf_no_rparen ps st st2 st3 a b h1 h2 h3 h4,
       parseIf_no_lbrace ps st st2 st3 a b h1 h2 h3 h4,
       fun body st5 h5 h6 h7 h8 =>
         parseIf_no_rbrace ps st st2 st3 st5 a b body h1 h2 h3 h4 h5 h6 h7 h8,
       fun e h5 h6 h7 => parseIf_body_error ps st st2 st3 a b e h1 h2 h3 h4 h5 h6 h7⟩
  · exact fun ps st e h1 =>
      ⟨parseIf_left_error ps st e h1,
       fun a st2 h2 h3 h4 => parseIf_right_error ps st st2 a e h1 h2 h3 h4⟩
  · exact fun fuel st =>
      ⟨parseStatement_int fuel st, parseStatement_identifier fuel st,
       parseStatement_if_succ fuel st⟩
  · exact fun fuel st e h1 =>
      ⟨parseProgramLoop_error fuel st e h1,
       fun stmt st1 h2 h3 => parseProgramLoop_later_error fuel st st1 stmt e h1 h2 h3⟩
  · intro addr
    refine ⟨compile_error addr _ _ ?_, compile_error addr _ _ ?_, compile_error addr _ _ ?_⟩
    · decide
    · decide
    · decide

/-! ## Associativity of `parseExpression` -/

theorem sameStream_next {s t : State} (h : SameStream s t) :
    SameStream (getNextToken s) (getNextToken t) := by
  unfold SameStream getNextToken
  simp only [h.1, h.2, and_self]

theorem sameStream_alloc (s : State) : SameStream s.alloc s := ⟨rfl, rfl⟩

theorem sameStream_iterate {s t : State} (h : SameStream s t) (k : Nat) :
    SameStream (getNextToken^[k] s) (getNextToken^[k] t) := by
  induction k generalizing s t with
  | zero => exact h
  | succ k ih => exact ih (sameStream_next h)

theorem upcoming_sameStream {s t : State} (h : SameStream s t) (k : Nat) :
    upcoming k s = upcoming k t := by
  induction k generalizing s t with
  | zero => rfl
  | succ k ih => simp only [upcoming, h.2, ih (sameStream_next h)]

theorem parseTerm_term (st : State) (h : IsTermToken st.currentToken) :
    parseTerm st = .ok (termNode st.nalloc st.currentToken, getNextToken st.alloc) := by
  unfold parseTerm termNode
  rcases h with h | h
  · simp [h]
  · simp [h]

theorem eraseIds_termNode (id : Nat) (t : Token) : eraseIds (termNode id t) = termNode 0 t := by
  unfold termNode
  split <;> rfl

theorem parseExprLoop_left_assoc (pairs : List (Token × Token)) :
    ∀ (fuel : Nat) (left : ASTNode) (st : State) (stop : Token),
      st.input.length < fuel →
      upcoming (2 * pairs.length + 1) st = pairs.flatMap (fun p => [p.1, p.2]) ++ [stop] →
      (∀ p ∈ pairs, IsOpToken p.1 ∧ IsTermToken p.2) → ¬ IsOpToken stop →
      ∃ e st', parseExprLoop fuel left st = .ok (e, st') ∧
        eraseIds e =
          pairs.foldl (fun l p => binaryNode 0 (opChar p.1) l (termNode 0 p.2)) (eraseIds left) ∧
        SameStream st' (getNextToken^[2 * pairs.length] st) ∧ st'.currentToken = stop ∧
        st'.varTable = st.varTable ∧ st'.nalloc = st.nalloc + 2 * pairs.length := by
  induction pairs with
  | nil =>
    intro fuel left st stop _ hup _ hstop
    simp only [List.length_nil, Nat.mul_zero, Nat.zero_add, upcoming, List.flatMap_nil,
      List.nil_append, List.cons.injEq, and_true] at hup
    refine ⟨left, st, parseExprLoop_stop _ _ _ ?_ ?_, rfl, ⟨rfl, rfl⟩, hup, rfl, rfl⟩
    · exact fun h => hstop (Or.inl (hup ▸ h))
    · exact fun h => hstop (Or.inr (hup ▸ h))
  | cons p ps ih =>
    intro fuel left st stop hf hup hps hstop
    have hlen : 2 * (p :: ps).length + 1 = (2 * ps.length + 1) + 1 + 1 := by
      simp only [List.length_cons]; omega
    rw [hlen] at hup
    simp only [upcoming, List.flatMap_cons, List.cons_append, List.nil_append,
      List.cons.injEq] at hup
    obtain ⟨h1, h2, h3⟩ := hup
    obtain ⟨hop, hterm⟩ := hps p (List.mem_cons_self _ _)
    cases fuel with
    | zero => omega
    | succ f =>
      have hs1 : SameStream (getNextToken st.alloc) (getNextToken st) :=
        sameStream_next (sameStream_alloc st)
      have ht : IsTermToken (getNextToken st.alloc).currentToken := by
        rw [hs1.2, h2]; exact hterm
      have hpt := parseTerm_term _ ht
      have hs2 : SameStream (getNextToken (getNextToken st.alloc).alloc)
          (getNextToken (getNextToken st)) :=
        sameStream_next ⟨hs1.1, hs1.2⟩
      have hlt := parseTerm_length_lt hpt
      simp only [alloc_input] at hlt
      obtain ⟨e, st', he, hfold, hss, hst, hvt, hna⟩ :=
        ih f (binaryNode st.nalloc
            (if st.currentToken.type = TokenType.TOKEN_PLUS then '+' else '-') left
            (termNode (getNextToken st.alloc).nalloc (getNextToken st.alloc).currentToken))
          (getNextToken (getNextToken st.alloc).alloc) stop (by omega)
          (by rw [upcoming_sameStream hs2]; exact h3)
          (fun q hq => hps q (List.mem_cons_of_mem _ hq)) hstop
      refine ⟨e, st', ?_, ?_, ?_, hst, ?_, ?_⟩
      · rw [parseExprLoop_succ _ _ _ (by rw [h1]; exact hop), hpt]
        exact he
      · rw [hfold]
        simp only [List.foldl_cons]
        congr 1
        simp only [binaryNode, createData, eraseIds, eraseIds_termNode, opChar, h1, hs1.2, h2]
      · have : 2 * (p :: ps).length = 2 * ps.length + 1 + 1 := by
          simp only [List.length_cons]; omega
        rw [this]
        simp only [Function.iterate_succ, Function.comp_apply]
        exact ⟨hss.1.trans (sameStream_iterate hs2 _).1, hss.2.trans (sameStream_iterate hs2 _).2⟩
      · simpa using hvt
      · simp only [hna, getNextToken_nalloc, alloc_nalloc, List.length_cons]
        omega

/-- C7: when the tokens from the current one on are `t0 op1 t1 ... opn tn`
(terms `ti`, operators `opi` each `+` or `-`) followed by a token `stop` that
is neither `+` nor `-`, `parseExpression` returns the left fold
`BinaryOp(opn, ... BinaryOp(op1, t0, t1) ..., tn)` and stops with `stop` as the
current token, having read nothing after it. -/
theorem parseExpression_left_assoc (st : State) (t0 stop : Token)
    (pairs : List (Token × Token))
    (hup : upcoming (2 * pairs.length + 2) st =
      t0 :: (pairs.flatMap (fun p => [p.1, p.2]) ++ [stop]))
    (ht0 : IsTermToken t0) (hpairs : ∀ p ∈ pairs, IsOpToken p.1 ∧ IsTermToken p.2)
    (hstop : ¬ IsOpToken stop) :
    ∃ e st', parseExpression st = .ok (e, st') ∧
      eraseIds e =
        pairs.foldl (fun l p => binaryNode 0 (opChar p.1) l (termNode 0 p.2)) (termNode 0 t0) ∧
      st'.currentToken = stop ∧
      st'.currentToken = (getNextToken^[2 * pairs.length + 1] st).currentToken ∧
      st'.input = (getNextToken^[2 * pairs.length + 1] st).input := by
  have hlen : 2 * pairs.length + 2 = (2 * pairs.length + 1) + 1 := by omega
  rw [hlen] at hup
  simp only [upcoming, List.cons.injEq] at hup
  obtain ⟨h1, h2⟩ := hup
  have ht : IsTermToken st.currentToken := h1 ▸ ht0
  have hs1 : SameStream (getNextToken st.alloc) (getNextToken st) :=
    sameStream_next (sameStream_alloc st)
  obtain ⟨e, st', he, hfold, hss, hst, -, -⟩ :=
    parseExprLoop_left_assoc pairs ((getNextToken st.alloc).input.length + 1)
      (termNode st.nalloc st.currentToken) (getNextToken st.alloc) stop (Nat.lt_succ_self _)
      (by rw [upcoming_sameStream hs1]; exact h2) hpairs hstop
  have hss2 := sameStream_iterate hs1 (2 * pairs.length)
  have hcur : st'.currentToken = (getNextToken^[2 * pairs.length + 1] st).currentToken := by
    simp only [Function.iterate_succ, Function.comp_apply]
    exact hss.2.trans hss2.2
  refine ⟨e, st', ?_, ?_, hst, hcur, ?_⟩
  · unfold parseExpression
    rw [parseTerm_term st ht]
    exact he
  · rw [hfold, eraseIds_termNode, h1]
  · simp only [Function.iterate_succ, Function.comp_apply]
    exact hss.1.trans hss2.1

/-- C7, at `a - b - c;`: the tree is `(a - b) - c`, and the parser stops on
the `;`. -/
theorem parseExpression_left_assoc_witness :
    ∃ e st', parseExpression (getNextToken (initialState "a - b - c;".toList)) = .ok (e, st') ∧
      eraseIds e =
        binaryNode 0 '-'
          (binaryNode 0 '-' (identifierNode 0 ['a']) (identifierNode 0 ['b']))
          (identifierNode 0 ['c']) ∧
      st'.currentToken = { type := TokenType.TOKEN_SEMICOLON, text := [';'], value := 0 } ∧
      st'.currentToken =
        (getNextToken^[5] (getNextToken (initialState "a - b - c;".toList))).currentToken ∧
      st'.input = (getNextToken^[5] (getNextToken (initialState "a - b - c;".toList))).input :=
  parseExpression_left_assoc (getNextToken (initialState "a - b - c;".toList))
    { type := TokenType.TOKEN_IDENTIFIER, text := ['a'], value := 0 }
    { type := TokenType.TOKEN_SEMICOLON, text := [';'], value := 0 }
    [({ type := TokenType.TOKEN_MINUS, text := ['-'], value := 0 },
      { type := TokenType.TOKEN_IDENTIFIER, text := ['b'], value := 0 }),
     ({ type := TokenType.TOKEN_MINUS, text := ['-'], value := 0 },
      { type := TokenType.TOKEN_IDENTIFIER, text := ['c'], value := 0 })]
    (by decide) (Or.inr rfl)
    (fun p hp => by
      simp only [List.mem_cons, List.mem_singleton, List.not_mem_nil, or_false] at hp
      rcases hp with rfl | rfl <;> exact ⟨Or.inr rfl, Or.inr rfl⟩)
    (by unfold IsOpToken; decide)

/-! ## Decimal literals -/

theorem digitChar_isdigit (n : Nat) (h : n < 10) :
    isdigit (Nat.digitChar n) = true ∧ (Nat.digitChar n).toNat - 48 = n := by
  interval_cases n <;> decide

theorem digitsValue_append (xs : List Char) (c : Char) :
    digitsValue (xs ++ [c]) = digitsValue xs * 10 + (c.toNat - 48) := by
  simp [digitsValue, List.foldl_append]

theorem toDigitsCore_spec (fuel : Nat) : ∀ (n : Nat) (ds : List Char), n < fuel →
    ∃ pre, Nat.toDigitsCore 10 fuel n ds = pre ++ ds ∧ pre ≠ [] ∧
      (∀ c ∈ pre, isdigit c = true) ∧ digitsValue pre = n := by
  induction fuel with
  | zero => intro n ds h; omega
  | succ fuel ih =>
    intro n ds h
    have hd := digitChar_isdigit (n % 10) (Nat.mod_lt _ (by decide))
    by_cases h0 : n / 10 = 0
    · refine ⟨[Nat.digitChar (n % 10)], by simp [Nat.toDigitsCore, h0], by simp,
        by simpa using hd.1, ?_⟩
      have : digitsValue [Nat.digitChar (n % 10)] = (Nat.digitChar (n % 10)).toNat - 48 := by
        simp [digitsValue]
      rw [this, hd.2]
      omega
    · obtain ⟨pre, h1, h2, h3, h4⟩ := ih (n / 10) (Nat.digitChar (n % 10) :: ds) (by omega)
      refine ⟨pre ++ [Nat.digitChar (n % 10)], by simp [Nat.toDigitsCore, h0, h1], by simp,
        ?_, ?_⟩
      · intro c hc
        rcases List.mem_append.1 hc with hc | hc
        · exact h3 c hc
        · simp only [List.mem_singleton] at hc
          rw [hc]; exact hd.1
      · rw [digitsValue_append, h4, hd.2]
        omega

theorem toDigits_spec (n : Nat) :
    Nat.toDigits 10 n ≠ [] ∧ (∀ c ∈ Nat.toDigits 10 n, isdigit c = true) ∧
      digitsValue (Nat.toDigits 10 n) = n := by
  obtain ⟨pre, h1, h2, h3, h4⟩ := toDigitsCore_spec (n + 1) n [] (Nat.lt_succ_self _)
  simp only [List.append_nil] at h1
  unfold Nat.toDigits
  rw [h1]
  exact ⟨h2, h3, h4⟩

theorem toDigits_length (n : Nat) (h : n < 2 ^ 31) : (Nat.toDigits 10 n).length ≤ 10 :=
  Nat.toDigitsCore_length 10 (by decide) (n + 1) n 10 (by omega) (by decide)

theorem atoi_toDigits (n : Nat) (h : n < 2 ^ 31) : atoi (Nat.toDigits 10 n) = (n : Int) := by
  unfold atoi toInt32
  rw [(toDigits_spec n).2.2]
  have : min (n : Int) (2 ^ 63 - 1) = n := by
    apply min_eq_left
    omega
  rw [this]
  omega

/-! ## Positions in the source text -/

theorem at_next (st : State) : At (getNextToken st) st.input := ⟨st.currentToken, rfl, rfl⟩

theorem at_space {st : State} {c : Char} {text : List Char} (h : At st (c :: text))
    (hc : isspace c = true) : At st text := by
  obtain ⟨old, h1, h2⟩ := h
  exact ⟨old, by rw [h1, scan_space old c text hc], by rw [h2, scan_space old c text hc]⟩

theorem at_blank {st : State} {text : List Char} (h : At st (' ' :: text)) : At st text :=
  at_space h (by decide)

theorem at_eof {st : State} (h : At st []) :
    st.currentToken.type = TokenType.TOKEN_EOF ∧ st.input = [] := by
  obtain ⟨old, h1, h2⟩ := h
  rw [h1, h2, scan_eof]
  exact ⟨rfl, rfl⟩

theorem at_word {st : State} {c : Char} {cs rest : List Char} (h : At st (c :: cs ++ rest))
    (hc : isalpha c = true) (hcs : ∀ x ∈ cs, isalnum x = true)
    (hlen : (c :: cs).length ≤ MAX_TOKEN_LEN - 1) (hrest : EndsRun isalnum rest) :
    st.currentToken.type = wordType (c :: cs) ∧ st.currentToken.text = c :: cs ∧
      st.input = rest := by
  obtain ⟨old, h1, h2⟩ := h
  rw [h1, h2, scan_word old c cs rest hc hcs hlen hrest]
  exact ⟨rfl, rfl, rfl⟩

theorem at_number {st : State} {c : Char} {cs rest : List Char} (h : At st (c :: cs ++ rest))
    (hc : isdigit c = true) (hcs : ∀ x ∈ cs, isdigit x = true)
    (hlen : (c :: cs).length ≤ MAX_TOKEN_LEN - 1) (hrest : EndsRun isdigit rest) :
    st.currentToken.type = TokenType.TOKEN_NUMBER ∧ st.currentToken.value = atoi (c :: cs) ∧
      st.input = rest := by
  obtain ⟨old, h1, h2⟩ := h
  rw [h1, h2, scan_number old c cs rest hc hcs hlen hrest]
  exact ⟨rfl, rfl, rfl⟩

theorem at_symbol {st : State} {c : Char} {rest : List Char} (h : At st (c :: rest))
    (h1 : isspace c = false) (h2 : c ≠ '/') (h3 : isalnum c = false) (h4 : c ≠ '=') :
    st.currentToken.type = symbolType c ∧ st.input = rest := by
  obtain ⟨old, e1, e2⟩ := h
  rw [e1, e2, scan_symbol old c rest h1 h2 h3 h4]
  exact ⟨rfl, rfl⟩

theorem at_equal {st : State} {rest : List Char} (h : At st ('=' :: '=' :: rest)) :
    st.currentToken.type = TokenType.TOKEN_EQUAL ∧ st.input = rest := by
  obtain ⟨old, e1, e2⟩ := h
  rw [e1, e2, scan_equal old rest]
  exact ⟨rfl, rfl⟩

theorem at_assign {st : State} {rest : List Char} (h : At st ('=' :: ' ' :: rest)) :
    st.currentToken.type = TokenType.TOKEN_ASSIGN ∧ st.input = ' ' :: rest := by
  obtain ⟨old, e1, e2⟩ := h
  rw [e1, e2, scan_assign old (' ' :: rest) (by simp)]
  exact ⟨rfl, rfl⟩

theorem isName_spec {name : List Char} (h : isName name = true) :
    ∃ c cs, name = c :: cs ∧ isalpha c = true ∧ (∀ x ∈ cs, isalnum x = true) ∧
      (c :: cs).length ≤ MAX_TOKEN_LEN - 1 ∧ wordType (c :: cs) = TokenType.TOKEN_IDENTIFIER := by
  cases name with
  | nil => simp [isName] at h
  | cons c cs =>
    simp only [isName, Bool.and_eq_true, List.all_eq_true, decide_eq_true_eq] at h
    obtain ⟨⟨⟨⟨h1, h2⟩, h3⟩, h4⟩, h5⟩ := h
    exact ⟨c, cs, rfl, h1, h2, h3, by simp [wordType, h4, h5]⟩

theorem at_name {st : State} {name rest : List Char} (h : At st (name ++ rest))
    (hn : isName name = true) (hrest : EndsRun isalnum rest) :
    st.currentToken.type = TokenType.TOKEN_IDENTIFIER ∧ st.currentToken.text = name ∧
      st.input = rest := by
  obtain ⟨c, cs, rfl, h1, h2, h3, h4⟩ := isName_spec hn
  have := at_word h h1 h2 h3 hrest
  rw [h4] at this
  exact this

theorem endsRun_digit {rest : List Char} (h : EndsRun isalnum rest) : EndsRun isdigit rest := by
  intro c hc
  have := h c hc
  simp only [isalnum, Bool.or_eq_false_iff] at this
  exact this.2

theorem at_decimal {st : State} {v : Nat} {rest : List Char}
    (h : At st (Nat.toDigits 10 v ++ rest)) (hv : v < 2 ^ 31) (hrest : EndsRun isalnum rest) :
    st.currentToken.type = TokenType.TOKEN_NUMBER ∧ st.currentToken.value = (v : Int) ∧
      st.input = rest := by
  obtain ⟨h1, h2, h3⟩ := toDigits_spec v
  have h4 := toDigits_length v hv
  have h5 := atoi_toDigits v hv
  cases hd : Nat.toDigits 10 v with
  | nil => exact absurd hd h1
  | cons c cs =>
    rw [hd] at h h2 h4 h5
    have := at_number h (h2 c (List.mem_cons_self _ _))
      (fun x hx => h2 x (List.mem_cons_of_mem _ hx))
      (by simp only [MAX_TOKEN_LEN]; omega) (endsRun_digit hrest)
    rw [h5] at this
    exact this

theorem endsRun_cons (c : Char) (rest : List Char) (h : isalnum c = false) :
    EndsRun isalnum (c :: rest) := by
  intro x hx
  simp only [List.head?_cons, Option.mem_def, Option.some.injEq] at hx
  rw [← hx]
  exact h

theorem endsRun_nil : EndsRun isalnum [] := by
  intro x hx
  simp at hx

/-! ## Parsing the canonical source text: expressions -/

theorem parseTerm_source {t : ASTNode} (ht : WfTerm t) {st : State} {rest : List Char}
    (h : At st (sourceExpr t ++ rest)) (hrest : EndsRun isalnum rest) :
    parseTerm st = .ok (renumber st.nalloc t, getNextToken st.alloc) ∧
      At (getNextToken st.alloc) rest := by
  cases ht with
  | number id v hv =>
    have hsrc : sourceExpr (numberNode id v) = Nat.toDigits 10 v := by
      simp [sourceExpr, numberNode, createData]
    rw [hsrc] at h
    obtain ⟨h1, h2, h3⟩ := at_decimal h hv hrest
    refine ⟨?_, by rw [← h3]; exact at_next st.alloc⟩
    unfold parseTerm
    simp [h1, h2, renumber, numberNode, createData]
  | identifier id name hn =>
    have hsrc : sourceExpr (identifierNode id name) = name := by
      simp [sourceExpr, identifierNode, createData]
    rw [hsrc] at h
    obtain ⟨h1, h2, h3⟩ := at_name h hn hrest
    refine ⟨?_, by rw [← h3]; exact at_next st.alloc⟩
    unfold parseTerm
    simp [h1, h2, renumber, identifierNode, createData]

theorem nodeCount_term {t : ASTNode} (ht : WfTerm t) : nodeCount t = 1 := by
  cases ht <;> rfl

theorem at_operator {st : State} {op : Char} {rest : List Char}
    (hop : op = '+' ∨ op = '-') (h : At st (' ' :: op :: ' ' :: rest)) :
    (st.currentToken.type = TokenType.TOKEN_PLUS ∨
      st.currentToken.type = TokenType.TOKEN_MINUS) ∧
    (if st.currentToken.type = TokenType.TOKEN_PLUS then '+' else '-') = op ∧
    At (getNextToken st.alloc) rest := by
  have h1 := at_blank h
  rcases hop with rfl | rfl
  · obtain ⟨h2, h3⟩ := at_symbol h1 (by decide) (by decide) (by decide) (by decide)
    have h4 : st.currentToken.type = TokenType.TOKEN_PLUS := by rw [h2]; decide
    refine ⟨Or.inl h4, by simp [h4], ?_⟩
    have := at_next st.alloc
    rw [alloc_input, h3] at this
    exact at_blank this
  · obtain ⟨h2, h3⟩ := at_symbol h1 (by decide) (by decide) (by decide) (by decide)
    have h4 : st.currentToken.type = TokenType.TOKEN_MINUS := by rw [h2]; decide
    refine ⟨Or.inr h4, by simp [h4], ?_⟩
    have := at_next st.alloc
    rw [alloc_input, h3] at this
    exact at_blank this

/-- The loop of `parseExpression` over the text of `e`: after the first term
it needs `j` iterations to have built `e`, and then stands behind the text. -/
theorem parseExprLoop_source {e : ASTNode} (he : WfExpr e) :
    ∀ (st : State) (rest : List Char), At st (sourceExpr e ++ rest) → EndsRun isalnum rest →
      ∃ j t0 st0 st1, parseTerm st = .ok (t0, st0) ∧
        (∀ fuel, parseExprLoop (fuel + j) t0 st0 =
          parseExprLoop fuel (renumber st.nalloc e) st1) ∧
        st1.input.length + j ≤ st0.input.length ∧ At st1 rest ∧
        st1.varTable = st.varTable ∧ st1.nalloc = st.nalloc + nodeCount e := by
  induction he with
  | @term t ht =>
    intro st rest h hrest
    obtain ⟨h1, h2⟩ := parseTerm_source ht h hrest
    exact ⟨0, _, _, _, h1, fun fuel => rfl, Nat.le_refl _, h2, rfl,
      by simp [nodeCount_term ht]⟩
  | @binary id op l r hop hl hr ih =>
    intro st rest h hrest
    have hsrc : sourceExpr (binaryNode id op l r) ++ rest =
        sourceExpr l ++ (' ' :: op :: ' ' :: (sourceExpr r ++ rest)) := by
      simp [sourceExpr, binaryNode, createData]
    rw [hsrc] at h
    obtain ⟨j, t0, st0, st1, h1, h2, h3, h4, h5, h6⟩ :=
      ih st _ h (endsRun_cons _ _ (by decide))
    obtain ⟨o1, o2, o3⟩ := at_operator hop h4
    obtain ⟨p1, p2⟩ := parseTerm_source hr o3 hrest
    have hlt := parseTerm_length_lt p1
    simp only [alloc_input] at hlt
    refine ⟨j + 1, t0, st0, _, h1, fun fuel => ?_, by omega, p2, ?_, ?_⟩
    · rw [← Nat.add_assoc, Nat.add_right_comm, h2 (fuel + 1), parseExprLoop_succ _ _ _ o1, p1]
      simp only [o2, getNextToken_nalloc, alloc_nalloc, h6]
      congr 1
    · simp [h5]
    · simp only [getNextToken_nalloc, alloc_nalloc, h6, nodeCount_term hr, binaryNode,
        nodeCount]
      omega

/-- What may follow an expression in the text: no letter or digit next, and
the next token neither `+` nor `-`. -/
theorem parseExpression_source {e : ASTNode} (he : WfExpr e) {st : State} {rest : List Char}
    (h : At st (sourceExpr e ++ rest)) (hrest : EndsRun isalnum rest)
    (hstop : ∀ old, ¬ IsOpToken (scan old rest).1) :
    ∃ st1, parseExpression st = .ok (renumber st.nalloc e, st1) ∧ At st1 rest ∧
      st1.varTable = st.varTable ∧ st1.nalloc = st.nalloc + nodeCount e := by
  obtain ⟨j, t0, st0, st1, h1, h2, h3, h4, h5, h6⟩ := parseExprLoop_source he st rest h hrest
  refine ⟨st1, ?_, h4, h5, h6⟩
  unfold parseExpression
  rw [h1]
  simp only
  have hf : st0.input.length + 1 = (st0.input.length + 1 - j) + j := by omega
  rw [hf, h2]
  obtain ⟨old, e1, -⟩ := h4
  have := hstop old
  rw [← e1] at this
  exact parseExprLoop_stop _ _ _ (fun e => this (Or.inl e)) (fun e => this (Or.inr e))

/-! ## Parsing the canonical source text: statements -/

theorem at_char {st : State} {c : Char} {rest : List Char} (h : At st (c :: rest))
    (h1 : isspace c = false) (h2 : c ≠ '/') (h3 : isalnum c = false) (h4 : c ≠ '=') :
    st.currentToken.type = symbolType c ∧ At (getNextToken st) rest ∧
      At (getNextToken st.alloc) rest := by
  obtain ⟨e1, e2⟩ := at_symbol h h1 h2 h3 h4
  refine ⟨e1, ?_, ?_⟩
  · rw [← e2]; exact at_next st
  · rw [← e2]; exact at_next st.alloc

theorem stop_semicolon (rest : List Char) (old : Token) :
    ¬ IsOpToken (scan old (';' :: rest)).1 := by
  rw [scan_symbol old ';' rest (by decide) (by decide) (by decide) (by decide)]
  show ¬ (symbolType ';' = TokenType.TOKEN_PLUS ∨ symbolType ';' = TokenType.TOKEN_MINUS)
  decide

theorem stop_rparen (rest : List Char) (old : Token) :
    ¬ IsOpToken (scan old (')' :: rest)).1 := by
  rw [scan_symbol old ')' rest (by decide) (by decide) (by decide) (by decide)]
  show ¬ (symbolType ')' = TokenType.TOKEN_PLUS ∨ symbolType ')' = TokenType.TOKEN_MINUS)
  decide

theorem stop_equal (rest : List Char) (old : Token) :
    ¬ IsOpToken (scan old (' ' :: '=' :: '=' :: rest)).1 := by
  rw [scan_space old ' ' _ (by decide), scan_equal]
  show ¬ (TokenType.TOKEN_EQUAL = TokenType.TOKEN_PLUS ∨
    TokenType.TOKEN_EQUAL = TokenType.TOKEN_MINUS)
  decide

theorem parseVarDecl_source (id : Nat) {name : List Char} (hn : isName name = true)
    {st : State} {rest : List Char}
    (h : At st (source (varDeclNode id name) ++ rest))
    (hcap : st.varTable.length + 1 ≤ MAX_VARS) :
    ∃ st1, parseStatement 0 st = .ok (varDeclNode st.nalloc name, st1) ∧
      (∀ fuel, parseStatement fuel st = parseStatement 0 st) ∧ At st1 rest ∧
      st1.varTable = st.varTable ++ [name] ∧ st1.nalloc = st.nalloc + 1 := by
  have hsrc : source (varDeclNode id name) ++ rest =
      'i' :: ['n', 't'] ++ (' ' :: (name ++ (';' :: rest))) := by
    simp [source, varDeclNode, createData]
  rw [hsrc] at h
  obtain ⟨h1, -, h3⟩ := at_word h (by decide) (by decide) (by decide)
    (endsRun_cons _ _ (by decide))
  have h1' : st.currentToken.type = TokenType.TOKEN_INT := by rw [h1]; decide
  have a1 : At (getNextToken st) (name ++ (';' :: rest)) := by
    have := at_next st
    rw [h3] at this
    exact at_blank this
  obtain ⟨n1, n2, n3⟩ := at_name a1 hn (endsRun_cons _ _ (by decide))
  have a2 : At (getNextToken ((getNextToken st).alloc.register name)) (';' :: rest) := by
    have := at_next ((getNextToken st).alloc.register name)
    rw [register_input, alloc_input, n3] at this
    exact this
  obtain ⟨s1, s2, -⟩ := at_char a2 (by decide) (by decide) (by decide) (by decide)
  have s1' : (getNextToken ((getNextToken st).alloc.register name)).currentToken.type =
      TokenType.TOKEN_SEMICOLON := by
    rw [s1]; decide
  have hcap' : ¬ MAX_VARS ≤ (getNextToken st).varCount := by
    simp only [State.varCount, getNextToken_varTable]
    omega
  have hp : parseVarDecl st = .ok (varDeclNode st.nalloc name,
      getNextToken (getNextToken ((getNextToken st).alloc.register name))) := by
    unfold parseVarDecl
    simp [n1, hcap', n2, s1']
  refine ⟨_, ?_, fun fuel => ?_, s2, ?_, ?_⟩
  · rw [parseStatement_int _ _ h1', hp]
  · rw [parseStatement_int _ _ h1', parseStatement_int _ _ h1']
  · simp
  · simp

theorem parseAssignment_source (id : Nat) {name : List Char} (hn : isName name = true)
    {e : ASTNode} (he : WfExpr e) {st : State} {rest : List Char}
    (h : At st (source (assignNode id name e) ++ rest)) :
    ∃ st1, parseStatement 0 st = .ok (assignNode st.nalloc name (renumber (st.nalloc + 1) e), st1) ∧
      (∀ fuel, parseStatement fuel st = parseStatement 0 st) ∧ At st1 rest ∧
      st1.varTable = st.varTable ∧ st1.nalloc = st.nalloc + 1 + nodeCount e := by
  have hsrc : source (assignNode id name e) ++ rest =
      name ++ (' ' :: '=' :: ' ' :: (sourceExpr e ++ (';' :: rest))) := by
    simp [source, assignNode, createData]
  rw [hsrc] at h
  obtain ⟨h1, h2, h3⟩ := at_name h hn (endsRun_cons _ _ (by decide))
  have a1 : At (getNextToken st.alloc) ('=' :: ' ' :: (sourceExpr e ++ (';' :: rest))) := by
    have := at_next st.alloc
    rw [alloc_input, h3] at this
    exact at_blank this
  obtain ⟨q1, q2⟩ := at_assign a1
  have a2 : At (getNextToken (getNextToken st.alloc)) (sourceExpr e ++ (';' :: rest)) := by
    have := at_next (getNextToken st.alloc)
    rw [q2] at this
    exact at_blank this
  obtain ⟨st2, p1, p2, p3, p4⟩ := parseExpression_source he a2
    (endsRun_cons _ _ (by decide)) (stop_semicolon rest)
  obtain ⟨s1, s2, -⟩ := at_char p2 (by decide) (by decide) (by decide) (by decide)
  have s1' : st2.currentToken.type = TokenType.TOKEN_SEMICOLON := by rw [s1]; decide
  have hp : parseAssignment st =
      .ok (assignNode st.nalloc name (renumber (st.nalloc + 1) e), getNextToken st2) := by
    unfold parseAssignment
    simp only [getNextToken_nalloc, alloc_nalloc] at p1
    simp [q1, p1, s1', h2]
  refine ⟨_, ?_, fun fuel => ?_, s2, ?_, ?_⟩
  · rw [parseStatement_identifier _ _ h1, hp]
  · rw [parseStatement_identifier _ _ h1, parseStatement_identifier _ _ h1]
  · simpa using p3
  · simp only [getNextToken_nalloc, p4, alloc_nalloc]

theorem renumber_ifNode (k id cid : Nat) (op : Char) (a b body : ASTNode) :
    renumber k (ifNode id (binaryNode cid op a b) body) =
      ifNode k
        (binaryNode (k + 1 + nodeCount a + nodeCount b) op (renumber (k + 1) a)
          (renumber (k + 1 + nodeCount a) b))
        (renumber (k + 1 + nodeCount a + nodeCount b + 1) body) := by
  simp only [renumber, ifNode, binaryNode, createData, nodeCount]
  congr 2
  omega

theorem parseStatement_source {s : ASTNode} (hs : WfStmt s) :
    ∀ (fuel : Nat) (st : State) (rest : List Char), At st (source s ++ rest) →
      Fuelled fuel st → st.varTable.length + (declNames s).length ≤ MAX_VARS →
      ∃ st1, parseStatement fuel st = .ok (renumber st.nalloc s, st1) ∧ At st1 rest ∧
        st1.varTable = st.varTable ++ declNames s ∧
        st1.nalloc = st.nalloc + nodeCount s := by
  induction hs with
  | varDecl id name hn =>
    intro fuel st rest h _ hcap
    obtain ⟨st1, h1, h2, h3, h4, h5⟩ := parseVarDecl_source id hn h
      (by simpa [declNames, varDeclNode, createData] using hcap)
    exact ⟨st1, by rw [h2, h1]; simp [renumber, varDeclNode, createData], h3,
      by simpa [declNames, varDeclNode, createData] using h4,
      by simpa [nodeCount, varDeclNode, createData] using h5⟩
  | @assign id name e hn he =>
    intro fuel st rest h _ _
    obtain ⟨st1, h1, h2, h3, h4, h5⟩ := parseAssignment_source id hn he h
    refine ⟨st1, by rw [h2, h1]; simp [renumber, assignNode, createData], h3,
      by simpa [declNames, assignNode, createData] using h4, ?_⟩
    rw [h5]
    simp only [nodeCount, assignNode, createData]
    omega
  | @ifStmt id cid a b body ha hb _ ih =>
    intro fuel st rest h hf hcap
    have hsrc : source (ifNode id (binaryNode cid '=' a b) body) ++ rest =
        'i' :: ['f'] ++ (' ' :: '(' :: (sourceExpr a ++ (' ' :: '=' :: '=' :: ' ' ::
          (sourceExpr b ++ (')' :: ' ' :: '{' :: ' ' ::
            (source body ++ (' ' :: '}' :: rest))))))) := by
      simp [source, sourceCond, ifNode, binaryNode, createData]
    rw [hsrc] at h
    obtain ⟨h1, -, h3⟩ := at_word h (by decide) (by decide) (by decide)
      (endsRun_cons _ _ (by decide))
    have h1' : st.currentToken.type = TokenType.TOKEN_IF := by rw [h1]; decide
    have hlen : st.input.length < fuel := hf (by rw [h1']; simp)
    cases fuel with
    | zero => omega
    | succ f =>
      have a1 := at_next st
      rw [h3] at a1
      obtain ⟨l1, -, l2⟩ := at_char (at_blank a1) (by decide) (by decide) (by decide)
        (by decide)
      have l1' : (getNextToken st).currentToken.type = TokenType.TOKEN_LPAREN := by
        rw [l1]; decide
      obtain ⟨st2, p1, p2, p3, p4⟩ := parseExpression_source ha l2
        (endsRun_cons _ _ (by decide)) (stop_equal _)
      obtain ⟨q1, q2⟩ := at_equal (at_blank p2)
      have a2 := at_next st2
      rw [q2] at a2
      obtain ⟨st3, r1, r2, r3, r4⟩ := parseExpression_source hb (at_blank a2)
        (endsRun_cons _ _ (by decide)) (stop_rparen _)
      obtain ⟨t1, -, t2⟩ := at_char r2 (by decide) (by decide) (by decide) (by decide)
      have t1' : st3.currentToken.type = TokenType.TOKEN_RPAREN := by rw [t1]; decide
      obtain ⟨u1, u2, -⟩ := at_char (at_blank t2) (by decide) (by decide) (by decide)
        (by decide)
      have u1' : (getNextToken st3.alloc).currentToken.type = TokenType.TOKEN_LBRACE := by
        rw [u1]; decide
      have e1 := getNextToken_length_le st
      have e2 := getNextToken_length_le (getNextToken st).alloc
      have e3 := parseExpression_length p1
      have e4 := getNextToken_length_le st2
      have e5 := parseExpression_length r1
      have e6 := getNextToken_length_le st3.alloc
      simp only [alloc_input] at e2 e6
      have hvt : (getNextToken (getNextToken st3.alloc)).varTable = st.varTable := by
        simp only [getNextToken_varTable, alloc_varTable, r3, p3]
      obtain ⟨st5, b1, b2, b3, b4⟩ := ih f (getNextToken (getNextToken st3.alloc)) _
        (at_blank u2) (getNextToken_fuelled f _ (by omega))
        (by rw [hvt]; simpa [declNames, ifNode, createData] using hcap)
      obtain ⟨v1, v2, -⟩ := at_char (at_blank b2) (by decide) (by decide) (by decide)
        (by decide)
      have v1' : st5.currentToken.type = TokenType.TOKEN_RBRACE := by rw [v1]; decide
      refine ⟨getNextToken st5, ?_, v2, ?_, ?_⟩
      · rw [parseStatement_if_succ _ _ h1']
        unfold parseIf
        simp only [getNextToken_nalloc, alloc_nalloc] at p1 r1 b1 p4 r4
        simp only [l1', ne_eq, not_true_eq_false, ↓reduceIte, p1, q1, r1, t1', u1', b1, v1',
          getNextToken_nalloc]
        rw [renumber_ifNode, r4, p4]
      · simp only [getNextToken_varTable, alloc_varTable] at hvt
        simp only [getNextToken_varTable, b3, alloc_varTable, hvt]
        simp [declNames, ifNode, createData]
      · simp only [getNextToken_nalloc, alloc_nalloc] at b4 r4 p4
        simp only [getNextToken_nalloc, b4, r4, p4, nodeCount, ifNode, binaryNode, createData]
        omega

/-! ## Parsing the canonical source text: programs -/

theorem wfStmt_link {s : ASTNode} (hs : WfStmt s) (rest : ASTNode) :
    link s rest ≠ .null ∧
    source (link s rest) =
      source s ++ (match rest with
        | .null => []
        | _ => ' ' :: source rest) ∧
    (∀ k, renumber k (link s rest) = link (renumber k s) (renumber (k + nodeCount s) rest)) ∧
    declNames (link s rest) = declNames s ++ declNames rest ∧
    nodeCount (link s rest) = nodeCount s + nodeCount rest := by
  cases hs with
  | varDecl id name hn =>
    refine ⟨by simp [link, varDeclNode], ?_, fun k => ?_, ?_, ?_⟩
    · cases rest <;> simp [link, source, varDeclNode, createData]
    · simp [link, renumber, varDeclNode, createData, nodeCount]
    · simp [link, declNames, varDeclNode, createData]
    · simp only [link, nodeCount, varDeclNode, createData]
  | @assign id name e hn he =>
    refine ⟨by simp [link, assignNode], ?_, fun k => ?_, ?_, ?_⟩
    · cases rest <;> simp [link, source, assignNode, createData]
    · simp only [link, renumber, assignNode, createData, nodeCount]
      congr 2
      omega
    · simp [link, declNames, assignNode, createData]
    · simp only [link, nodeCount, assignNode, createData]
  | @ifStmt id cid a b body ha hb hbody =>
    refine ⟨by simp [link, ifNode], ?_, fun k => ?_, ?_, ?_⟩
    · cases rest <;> simp [link, source, ifNode, createData]
    · simp only [link, renumber, ifNode, binaryNode, createData, nodeCount]
      congr 2
      omega
    · simp [link, declNames, ifNode, createData]
    · simp only [link, nodeCount, ifNode, createData]
      omega

theorem renumber_ne_null {s : ASTNode} (hs : WfStmt s) (k : Nat) : renumber k s ≠ .null := by
  cases hs <;> simp [renumber, varDeclNode, assignNode, ifNode, createData]

theorem parseProgramLoop_source (ss : List ASTNode) (hss : ∀ s ∈ ss, WfStmt s) :
    ∀ (fuel : Nat) (st : State), At st (source (chainOf ss)) → Fuelled fuel st →
      st.varTable.length + (declNames (chainOf ss)).length ≤ MAX_VARS →
      ∃ st1, parseProgramLoop fuel st = .ok (renumber st.nalloc (chainOf ss), st1) ∧
        st1.varTable = st.varTable ++ declNames (chainOf ss) := by
  induction ss with
  | nil =>
    intro fuel st h _ _
    have := at_eof (by simpa [chainOf, source] using h)
    exact ⟨st, by rw [parseProgramLoop_eof _ _ this.1]; simp [chainOf, renumber],
      by simp [chainOf, declNames]⟩
  | cons s ss ih =>
    intro fuel st h hf hcap
    have hs := hss s (List.mem_cons_self _ _)
    obtain ⟨w1, w2, w3, w4, w5⟩ := wfStmt_link hs (chainOf ss)
    have hchain : chainOf (s :: ss) = link s (chainOf ss) := rfl
    rw [hchain] at h hcap ⊢
    rw [w2] at h
    rw [w4, List.length_append] at hcap
    obtain ⟨st1, p1, p2, p3, p4⟩ := parseStatement_source hs fuel st _ h hf (by omega)
    have hne : st.currentToken.type ≠ TokenType.TOKEN_EOF := by
      intro he
      rw [parseStatement_other _ _ (by rw [he]; simp) (by rw [he]; simp) (by rw [he]; simp)]
        at p1
      simp only [Except.ok.injEq, Prod.mk.injEq] at p1
      exact renumber_ne_null hs _ p1.1.symm
    have hlen := hf hne
    cases fuel with
    | zero => omega
    | succ f =>
      obtain ⟨s0, hs0, hs1⟩ := parseStatement_length _ p1
      have hf1 : Fuelled f st1 := by
        rw [hs0]
        exact getNextToken_fuelled f s0 (by omega)
      have hat : At st1 (source (chainOf ss)) := by
        cases hc : chainOf ss with
        | null =>
          rw [hc] at p2
          simpa [source] using p2
        | node d l r c b n =>
          rw [hc] at p2
          exact at_blank p2
      obtain ⟨st2, q1, q2⟩ := ih (fun x hx => hss x (List.mem_cons_of_mem _ hx)) f st1 hat hf1
        (by rw [p3, List.length_append]; omega)
      refine ⟨st2, ?_, ?_⟩
      · rw [parseProgramLoop_succ _ _ hne, p1]
        simp only [q1, w3, p4]
      · rw [q2, p3, w4, List.append_assoc]

theorem parseProgram_source (id : Nat) (ss : List ASTNode) (hss : ∀ s ∈ ss, WfStmt s)
    (hcap : (declNames (chainOf ss)).length ≤ MAX_VARS) :
    ∃ st, parseProgram (initialState (source (programNode id (chainOf ss)))) =
        .ok (programNode 0 (renumber 1 (chainOf ss)), st) ∧
      st.varTable = declNames (chainOf ss) := by
  have hsrc : source (programNode id (chainOf ss)) = source (chainOf ss) := by
    simp [source, programNode, createData]
  rw [hsrc]
  have hat := at_next (initialState (source (chainOf ss))).alloc
  obtain ⟨st1, p1, p2⟩ := parseProgramLoop_source ss hss
    ((getNextToken (initialState (source (chainOf ss))).alloc).input.length + 1)
    (getNextToken (initialState (source (chainOf ss))).alloc) hat
    (fun _ => Nat.lt_succ_self _) (by simpa [initialState] using hcap)
  refine ⟨st1, ?_, by simpa [initialState] using p2⟩
  unfold parseProgram
  simp only [p1]
  rfl

theorem eraseIds_link (s rest : ASTNode) :
    eraseIds (link s rest) = link (eraseIds s) (eraseIds rest) := by
  cases s <;> rfl

theorem eraseIds_renumber_term {t : ASTNode} (ht : WfTerm t) (k : Nat) :
    eraseIds (renumber k t) = eraseIds t := by
  cases ht <;> rfl

theorem eraseIds_renumber_expr {e : ASTNode} (he : WfExpr e) :
    ∀ k, eraseIds (renumber k e) = eraseIds e := by
  induction he with
  | term ht => exact eraseIds_renumber_term ht
  | binary id op hop _ hr ih =>
    intro k
    simp only [renumber, binaryNode, createData, eraseIds, ih, eraseIds_renumber_term hr]

theorem eraseIds_renumber_stmt {s : ASTNode} (hs : WfStmt s) :
    ∀ k, eraseIds (renumber k s) = eraseIds s := by
  induction hs with
  | varDecl id name hn => intro k; rfl
  | assign id name hn he =>
    intro k
    simp only [renumber, assignNode, createData, eraseIds, eraseIds_renumber_expr he]
  | ifStmt id cid ha hb _ ih =>
    intro k
    simp only [renumber_ifNode, ifNode, binaryNode, createData, eraseIds, ih,
      eraseIds_renumber_expr ha, eraseIds_renumber_expr hb]

theorem eraseIds_renumber_chain (ss : List ASTNode) (hss : ∀ s ∈ ss, WfStmt s) :
    ∀ k, eraseIds (renumber k (chainOf ss)) = eraseIds (chainOf ss) := by
  induction ss with
  | nil => intro k; rfl
  | cons s ss ih =>
    intro k
    have hs := hss s (List.mem_cons_self _ _)
    have hchain : chainOf (s :: ss) = link s (chainOf ss) := rfl
    rw [hchain, (wfStmt_link hs (chainOf ss)).2.2.1 k, eraseIds_link, eraseIds_link,
      eraseIds_renumber_stmt hs, ih (fun x hx => hss x (List.mem_cons_of_mem _ hx))]

/-! ## End to end: `int x; x = a + b;` -/

/-- C1: for every identifier lexeme `x` and all decimal literals `a`, `b` that
fit in an `int`, compiling `int x; x = a + b;` succeeds, and what is written
for the assignment is, after its comment line, exactly LDI R0, a; PUSH R0;
LDI R0, b; MOV R1, R0; POP R0; ADD R0, R1; ST R0, [0], in this order (between
the header with the declaration's comment and the halt line). -/
theorem compile_sum (addr : Nat → Nat) (x : List Char) (a b : Nat)
    (hx : isName x = true) (ha : a < 2 ^ 31) (hb : b < 2 ^ 31) :
    compile addr
        ("int ".toList ++ x ++ "; ".toList ++ x ++ " = ".toList ++ Nat.toDigits 10 a ++
          " + ".toList ++ Nat.toDigits 10 b ++ ";".toList) =
      .ok ([Line.header1, Line.header2, Line.declare x, Line.assignment x] ++
        [Line.ldi a, Line.pushOperand, Line.ldi b, Line.movR1, Line.popOperand, Line.add,
          Line.st 0 x] ++ [Line.hlt]) ∧
    [Line.ldi a, Line.pushOperand, Line.ldi b, Line.movR1, Line.popOperand, Line.add,
        Line.st 0 x].map Line.text =
      ["    LDI R0, ".toList ++ fmtInt a ++ "       ; Load immediate ".toList ++ fmtInt a ++
          "\n".toList,
       "    PUSH R0          ; Save left operand\n".toList,
       "    LDI R0, ".toList ++ fmtInt b ++ "       ; Load immediate ".toList ++ fmtInt b ++
          "\n".toList,
       "    MOV R1, R0       ; Move right to R1\n".toList,
       "    POP R0           ; Restore left operand\n".toList,
       "    ADD R0, R1       ; Add R0 + R1\n".toList,
       "    ST R0, [".toList ++ fmtInt 0 ++ "]      ; Store to variable ".toList ++ x ++
          "\n".toList] := by
  refine ⟨?_, rfl⟩
  have hss : ∀ s ∈ [varDeclNode 0 x,
      assignNode 0 x (binaryNode 0 '+' (numberNode 0 a) (numberNode 0 b))], WfStmt s := by
    intro s hs
    simp only [List.mem_cons, List.mem_singleton, List.not_mem_nil, or_false] at hs
    rcases hs with rfl | rfl
    · exact WfStmt.varDecl _ _ hx
    · exact WfStmt.assign _ _ hx
        (WfExpr.binary _ _ (Or.inl rfl) (WfExpr.term (WfTerm.number _ a ha))
          (WfTerm.number _ b hb))
  obtain ⟨st, h1, h2⟩ := parseProgram_source 0 _ hss
    (by simp [chainOf, link, declNames, varDeclNode, assignNode, createData, MAX_VARS])
  have hsrc : source (programNode 0 (chainOf [varDeclNode 0 x,
      assignNode 0 x (binaryNode 0 '+' (numberNode 0 a) (numberNode 0 b))])) =
      "int ".toList ++ x ++ "; ".toList ++ x ++ " = ".toList ++ Nat.toDigits 10 a ++
          " + ".toList ++ Nat.toDigits 10 b ++ ";".toList := by
    simp [source, sourceExpr, chainOf, link, programNode, varDeclNode, assignNode, binaryNode,
      numberNode, createData]
  rw [hsrc] at h1
  unfold compile
  rw [h1]
  simp only [h2]
  simp [chainOf, link, declNames, renumber, nodeCount, generateCode, generateExpression,
    getVarOffset, getVarOffsetFrom, programNode, varDeclNode, assignNode, binaryNode, numberNode,
    createData]

/-- C1, at the instance of the specification: `int x; x = 1 + 2;`. -/
theorem compile_sum_witness :
    compile id "int x; x = 1 + 2;".toList =
      .ok ([Line.header1, Line.header2, Line.declare ['x'], Line.assignment ['x']] ++
        [Line.ldi 1, Line.pushOperand, Line.ldi 2, Line.movR1, Line.popOperand, Line.add,
          Line.st 0 ['x']] ++ [Line.hlt]) ∧
    [Line.ldi 1, Line.pushOperand, Line.ldi 2, Line.movR1, Line.popOperand, Line.add,
        Line.st 0 ['x']].map Line.text =
      ["    LDI R0, 1       ; Load immediate 1\n".toList,
       "    PUSH R0          ; Save left operand\n".toList,
       "    LDI R0, 2       ; Load immediate 2\n".toList,
       "    MOV R1, R0       ; Move right to R1\n".toList,
       "    POP R0           ; Restore left operand\n".toList,
       "    ADD R0, R1       ; Add R0 + R1\n".toList,
       "    ST R0, [0]      ; Store to variable x\n".toList] :=
  compile_sum id ['x'] 1 2 (by decide) (by norm_num) (by norm_num)

/-! ## The variable table after parsing, and the offsets in the output -/

theorem parseTerm_varTable {st st' : State} {e : ASTNode} (h : parseTerm st = .ok (e, st')) :
    st'.varTable = st.varTable := by
  rw [(parseTerm_ok h).1]
  rfl

theorem parseExprLoop_varTable (fuel : Nat) {left e : ASTNode} {st st' : State}
    (h : parseExprLoop fuel left st = .ok (e, st')) : st'.varTable = st.varTable := by
  induction fuel generalizing left st with
  | zero =>
    by_cases hop : st.currentToken.type = TokenType.TOKEN_PLUS ∨
        st.currentToken.type = TokenType.TOKEN_MINUS
    · rw [parseExprLoop_zero _ _ hop] at h; cases h
    · rw [parseExprLoop_stop _ _ _ (fun e => hop (Or.inl e)) (fun e => hop (Or.inr e))] at h
      cases h; rfl
  | succ fuel ih =>
    by_cases hop : st.currentToken.type = TokenType.TOKEN_PLUS ∨
        st.currentToken.type = TokenType.TOKEN_MINUS
    · rw [parseExprLoop_succ _ _ _ hop] at h
      split at h
      · cases h
      · rename_i right st2 hr
        rw [ih h, parseTerm_varTable hr]
        rfl
    · rw [parseExprLoop_stop _ _ _ (fun e => hop (Or.inl e)) (fun e => hop (Or.inr e))] at h
      cases h; rfl

theorem parseExpression_varTable {st st' : State} {e : ASTNode}
    (h : parseExpression st = .ok (e, st')) : st'.varTable = st.varTable := by
  obtain ⟨left, st1, h1, h2⟩ := parseExpression_ok h
  rw [parseExprLoop_varTable _ h2, parseTerm_varTable h1]

theorem declNames_link {s : ASTNode} (hs : s = .null ∨ IsStmt s) (rest : ASTNode) :
    declNames (link s rest) = declNames s ++ declNames rest := by
  rcases hs with rfl | hs
  · rfl
  · cases hs <;> simp [link, declNames, varDeclNode, assignNode, ifNode, createData]

/-- A statement parser appends to the table the names its statement declares,
and keeps the table within its 26 rows. -/
theorem parseStatement_varTable (fuel : Nat) {st st' : State} {n : ASTNode}
    (h : parseStatement fuel st = .ok (n, st')) :
    st'.varTable = st.varTable ++ declNames n ∧
      (st.varTable.length ≤ MAX_VARS → st'.varTable.length ≤ MAX_VARS) := by
  induction fuel generalizing st st' n with
  | zero =>
    rcases parseStatement_ok h with ⟨-, h1⟩ | ⟨-, h1⟩ | ⟨-, f, hf, -⟩ | ⟨-, -, -, h1, h2⟩
    · obtain ⟨-, hc, -, rfl, rfl⟩ := parseVarDecl_ok h1
      simp only [State.varCount] at hc
      exact ⟨by simp [declNames, varDeclNode, createData], fun _ => by simp; omega⟩
    · obtain ⟨right, st2, -, h2, -, rfl, rfl⟩ := parseAssignment_ok h1
      have := parseExpression_varTable h2
      simp only [getNextToken_varTable, alloc_varTable] at this
      exact ⟨by simp [declNames, assignNode, createData, this], fun hc => by simpa [this] using hc⟩
    · omega
    · subst h1 h2
      exact ⟨by simp [declNames], fun hc => by simpa using hc⟩
  | succ fuel ih =>
    rcases parseStatement_ok h with ⟨-, h1⟩ | ⟨-, h1⟩ | ⟨-, f, hf, h1⟩ | ⟨-, -, -, h1, h2⟩
    · obtain ⟨-, hc, -, rfl, rfl⟩ := parseVarDecl_ok h1
      simp only [State.varCount] at hc
      exact ⟨by simp [declNames, varDeclNode, createData], fun _ => by simp; omega⟩
    · obtain ⟨right, st2, -, h2, -, rfl, rfl⟩ := parseAssignment_ok h1
      have := parseExpression_varTable h2
      simp only [getNextToken_varTable, alloc_varTable] at this
      exact ⟨by simp [declNames, assignNode, createData, this], fun hc => by simpa [this] using hc⟩
    · obtain rfl : f = fuel := by omega
      obtain ⟨a, st2, b, st3, body, st5, -, h2, -, h4, -, -, h7, -, rfl, rfl⟩ := parseIf_ok h1
      have e1 := parseExpression_varTable h2
      have e2 := parseExpression_varTable h4
      obtain ⟨e3, e4⟩ := ih h7
      simp only [getNextToken_varTable, alloc_varTable] at e1 e2 e3 e4
      rw [e2, e1] at e3 e4
      exact ⟨by simp [declNames, ifNode, createData, e3], fun hc => by simpa using e4 hc⟩
    · subst h1 h2
      exact ⟨by simp [declNames], fun hc => by simpa using hc⟩

theorem parseProgramLoop_varTable (fuel : Nat) {st st' : State} {chain : ASTNode}
    (h : parseProgramLoop fuel st = .ok (chain, st')) :
    st'.varTable = st.varTable ++ declNames chain ∧
      (st.varTable.length ≤ MAX_VARS → st'.varTable.length ≤ MAX_VARS) := by
  induction fuel generalizing st st' chain with
  | zero =>
    rcases parseProgramLoop_ok h with ⟨-, rfl, rfl⟩ | ⟨-, f, -, -, -, hf, -⟩
    · exact ⟨by simp [declNames], fun hc => hc⟩
    · omega
  | succ fuel ih =>
    rcases parseProgramLoop_ok h with ⟨-, rfl, rfl⟩ | ⟨-, f, stmt, st1, rest, hf, h1, h2, rfl⟩
    · exact ⟨by simp [declNames], fun hc => hc⟩
    · obtain rfl : f = fuel := by omega
      obtain ⟨e1, e2⟩ := parseStatement_varTable _ h1
      obtain ⟨e3, e4⟩ := ih h2
      refine ⟨?_, fun hc => e4 (e2 hc)⟩
      rw [e3, e1, declNames_link (parseStatement_shape _ h1), List.append_assoc]

theorem parseProgram_varTable {src : List Char} {ast : ASTNode} {st : State}
    (h : parseProgram (initialState src) = .ok (ast, st)) :
    st.varTable = declNames ast ∧ st.varCount ≤ MAX_VARS := by
  obtain ⟨chain, h1, rfl⟩ := parseProgram_ok h
  obtain ⟨e1, e2⟩ := parseProgramLoop_varTable _ h1
  simp only [getNextToken_varTable, alloc_varTable, initialState, List.nil_append,
    List.length_nil, Nat.zero_le, true_implies] at e1 e2
  exact ⟨by simp [e1, declNames, programNode, createData], e2⟩

theorem generateCode_lines (addr : Nat → Nat) (tbl : List (List Char)) (n : ASTNode)
    (out : List Line) (h : generateCode addr tbl n = .ok out) : ∀ l ∈ out, l.Resolved tbl := by
  induction n generalizing out with
  | null =>
    simp only [generateCode, Except.ok.injEq] at h
    subst h
    simp
  | node d left right c b n _ _ _ ihb ihn =>
    have hexpr := fun e o (ho : generateExpression tbl e = .ok o) x hx =>
      (generateExpression_lines tbl e o ho x hx).2
    obtain ⟨id, type, name, value, op⟩ := d
    cases type
    case NODE_PROGRAM =>
      simp only [generateCode] at h
      split at h
      · cases h
      · rename_i rest hr
        cases h
        intro x hx
        simp only [List.cons_append, List.nil_append, List.mem_cons, List.mem_append,
          List.mem_singleton, List.not_mem_nil, or_false, List.append_assoc] at hx
        rcases hx with rfl | rfl | hx | rfl
        · trivial
        · trivial
        · exact ihn rest hr x hx
        · trivial
    case NODE_VAR_DECL =>
      simp only [generateCode] at h
      split at h
      · cases h
      · rename_i rest hr
        cases h
        intro x hx
        simp only [List.cons_append, List.nil_append, List.mem_cons, List.mem_append,
          List.mem_singleton, List.not_mem_nil, or_false, List.append_assoc] at hx
        rcases hx with rfl | hx
        · trivial
        · exact ihn rest hr x hx
    case NODE_ASSIGN =>
      simp only [generateCode] at h
      split at h
      · cases h
      · rename_i e he
        split at h
        · cases h
        · rename_i rest hr
          cases h
          intro x hx
          simp only [List.cons_append, List.nil_append, List.mem_cons, List.mem_append,
          List.mem_singleton, List.not_mem_nil, or_false, List.append_assoc] at hx
          rcases hx with rfl | hx | rfl | hx
          · trivial
          · exact hexpr _ _ he x hx
          · rfl
          · exact ihn rest hr x hx
    case NODE_IF =>
      cases c with
      | null => simp [generateCode] at h
      | node cd cl cr cc cb cn =>
        simp only [generateCode] at h
        split at h
        · cases h
        · rename_i l hl
          split at h
          · cases h
          · rename_i r hr
            split at h
            · cases h
            · rename_i body hbody
              split at h
              · cases h
              · rename_i rest hrest
                cases h
                intro x hx
                simp only [List.cons_append, List.nil_append, List.mem_cons, List.mem_append,
          List.mem_singleton, List.not_mem_nil, or_false, List.append_assoc] at hx
                rcases hx with rfl | hx | rfl | hx | rfl | rfl | rfl | rfl | hx | rfl | hx
                · trivial
                · exact hexpr _ _ hl x hx
                · trivial
                · exact hexpr _ _ hr x hx
                · trivial
                · trivial
                · trivial
                · trivial
                · exact ihb body hbody x hx
                · trivial
                · exact ihn rest hrest x hx
    case NODE_BINARY_OP => exact ihn out (by simpa only [generateCode] using h)
    case NODE_NUMBER => exact ihn out (by simpa only [generateCode] using h)
    case NODE_IDENTIFIER => exact ihn out (by simpa only [generateCode] using h)

/-! ## The token sequence the parser consumes -/

theorem tokenTypesFrom_fuel (fuel : Nat) : ∀ (fuel' : Nat) (old : Token) (input : List Char),
    input.length < fuel → input.length < fuel' →
    tokenTypesFrom fuel old input = tokenTypesFrom fuel' old input := by
  induction fuel with
  | zero => intro fuel' old input h; omega
  | succ f ih =>
    intro fuel' old input h h'
    cases fuel' with
    | zero => omega
    | succ f' =>
      simp only [tokenTypesFrom]
      split
      · rfl
      · rename_i hne
        have := (scan_progress old input).2 hne
        rw [ih f' _ _ (by omega) (by omega)]

theorem tokenTypesFrom_step (old : Token) (input : List Char) :
    tokenTypesFrom (input.length + 1) old input =
      if (scan old input).1.type = TokenType.TOKEN_EOF then []
      else (scan old input).1.type ::
        tokenTypesFrom ((scan old input).2.length + 1) (scan old input).1 (scan old input).2 := by
  show (if (scan old input).1.type = TokenType.TOKEN_EOF then []
      else (scan old input).1.type ::
        tokenTypesFrom input.length (scan old input).1 (scan old input).2) = _
  split
  · rfl
  · rename_i hne
    have := (scan_progress old input).2 hne
    rw [tokenTypesFrom_fuel input.length ((scan old input).2.length + 1) _ _
      this (Nat.lt_succ_self _)]

theorem remaining_eof (st : State) (h : st.currentToken.type = TokenType.TOKEN_EOF) :
    remaining st = [] := by
  simp [remaining, h]

theorem remaining_next (st : State) (h : st.currentToken.type ≠ TokenType.TOKEN_EOF) :
    remaining st = st.currentToken.type :: remaining (getNextToken st) := by
  rw [remaining, if_neg h, tokenTypesFrom_step]
  rfl

theorem remaining_sameStream {s t : State} (h : SameStream s t) : remaining s = remaining t := by
  simp only [remaining, h.1, h.2]

theorem remaining_alloc (st : State) : remaining st.alloc = remaining st :=
  remaining_sameStream (sameStream_alloc st)

theorem remaining_next_alloc (st : State) :
    remaining (getNextToken st.alloc) = remaining (getNextToken st) :=
  remaining_sameStream (sameStream_next (sameStream_alloc st))

theorem tokenTypes_eq (src : List Char) :
    tokenTypes src = remaining (getNextToken (initialState src).alloc) := by
  rw [tokenTypes, tokenTypesFrom_step]
  rfl

theorem parseTerm_tokens {st st' : State} {e : ASTNode} (h : parseTerm st = .ok (e, st')) :
    ∃ ts, GTerm ts ∧ remaining st = ts ++ remaining st' := by
  obtain ⟨rfl, h1⟩ := parseTerm_ok h
  rcases h1 with ⟨h1, -⟩ | ⟨h1, -⟩
  · refine ⟨_, GTerm.number, ?_⟩
    rw [remaining_next st (by rw [h1]; simp), h1, remaining_next_alloc]
    rfl
  · refine ⟨_, GTerm.identifier, ?_⟩
    rw [remaining_next st (by rw [h1]; simp), h1, remaining_next_alloc]
    rfl

theorem parseExprLoop_tokens (fuel : Nat) {left e : ASTNode} {st st' : State}
    (h : parseExprLoop fuel left st = .ok (e, st')) (pre : List TokenType) (hpre : GExpr pre) :
    ∃ ts, GExpr (pre ++ ts) ∧ remaining st = ts ++ remaining st' := by
  induction fuel generalizing left st pre with
  | zero =>
    by_cases hop : st.currentToken.type = TokenType.TOKEN_PLUS ∨
        st.currentToken.type = TokenType.TOKEN_MINUS
    · rw [parseExprLoop_zero _ _ hop] at h; cases h
    · rw [parseExprLoop_stop _ _ _ (fun e => hop (Or.inl e)) (fun e => hop (Or.inr e))] at h
      cases h
      exact ⟨[], by simpa using hpre, rfl⟩
  | succ fuel ih =>
    by_cases hop : st.currentToken.type = TokenType.TOKEN_PLUS ∨
        st.currentToken.type = TokenType.TOKEN_MINUS
    · rw [parseExprLoop_succ _ _ _ hop] at h
      split at h
      · cases h
      · rename_i right st2 hr
        obtain ⟨r, hr1, hr2⟩ := parseTerm_tokens hr
        have hne : st.currentToken.type ≠ TokenType.TOKEN_EOF := by
          rcases hop with hop | hop <;> rw [hop] <;> simp
        have hpre' : GExpr (pre ++ st.currentToken.type :: r) := by
          rcases hop with hop | hop
          · rw [hop]; exact GExpr.plus hpre hr1
          · rw [hop]; exact GExpr.minus hpre hr1
        obtain ⟨ts, h1, h2⟩ := ih h _ hpre'
        refine ⟨st.currentToken.type :: (r ++ ts), by simpa using h1, ?_⟩
        rw [remaining_next st hne, ← remaining_next_alloc, hr2, h2]
        simp
    · rw [parseExprLoop_stop _ _ _ (fun e => hop (Or.inl e)) (fun e => hop (Or.inr e))] at h
      cases h
      exact ⟨[], by simpa using hpre, rfl⟩

theorem parseExpression_tokens {st st' : State} {e : ASTNode}
    (h : parseExpression st = .ok (e, st')) :
    ∃ ts, GExpr ts ∧ remaining st = ts ++ remaining st' := by
  obtain ⟨left, st1, h1, h2⟩ := parseExpression_ok h
  obtain ⟨t, ht1, ht2⟩ := parseTerm_tokens h1
  obtain ⟨ts, h3, h4⟩ := parseExprLoop_tokens _ h2 t (GExpr.term ht1)
  exact ⟨t ++ ts, h3, by rw [ht2, h4, List.append_assoc]⟩

theorem sameStream_register (st : State) (name : List Char) :
    SameStream (st.alloc.register name) st := ⟨rfl, rfl⟩

theorem getNextToken_of_nil (st : State) (h : st.input = []) :
    (getNextToken st).currentToken.type = TokenType.TOKEN_EOF := by
  simp only [getNextToken, h, scan_eof]

theorem parseVarDecl_tokens {st st' : State} {n : ASTNode}
    (hint : st.currentToken.type = TokenType.TOKEN_INT)
    (h : parseVarDecl st = .ok (n, st')) :
    remaining st = [TokenType.TOKEN_INT, TokenType.TOKEN_IDENTIFIER,
      TokenType.TOKEN_SEMICOLON] ++ remaining st' := by
  obtain ⟨h1, -, h3, -, rfl⟩ := parseVarDecl_ok h
  rw [remaining_next st (by rw [hint]; simp), hint,
    remaining_next (getNextToken st) (by rw [h1]; simp), h1,
    ← remaining_sameStream (sameStream_next
      (sameStream_register (getNextToken st) (getNextToken st).currentToken.text)),
    remaining_next _ (by rw [h3]; simp), h3]
  rfl

theorem parseAssignment_tokens {st st' : State} {n : ASTNode}
    (hid : st.currentToken.type = TokenType.TOKEN_IDENTIFIER)
    (h : parseAssignment st = .ok (n, st')) :
    ∃ e, GExpr e ∧ remaining st = TokenType.TOKEN_IDENTIFIER :: TokenType.TOKEN_ASSIGN ::
      (e ++ [TokenType.TOKEN_SEMICOLON]) ++ remaining st' := by
  obtain ⟨right, st2, h1, h2, h3, -, rfl⟩ := parseAssignment_ok h
  obtain ⟨e, he1, he2⟩ := parseExpression_tokens h2
  refine ⟨e, he1, ?_⟩
  rw [remaining_next st (by rw [hid]; simp), hid, ← remaining_next_alloc,
    remaining_next _ (by rw [h1]; simp), h1, he2, remaining_next st2 (by rw [h3]; simp), h3]
  simp

theorem parseIf_tokens {ps : State → Res (ASTNode × State)} {st st' : State} {n : ASTNode}
    (hif : st.currentToken.type = TokenType.TOKEN_IF)
    (hps : ∀ s s' b, s.currentToken.type ≠ TokenType.TOKEN_EOF → ps s = .ok (b, s') →
      ∃ ts, GStmt NotStart ts ∧ remaining s = ts ++ remaining s')
    (hps0 : ∀ s s' b, s.currentToken.type = TokenType.TOKEN_EOF → ps s = .ok (b, s') →
      s' = getNextToken s)
    (h : parseIf ps st = .ok (n, st')) :
    ∃ ts, GStmt NotStart ts ∧ remaining st = ts ++ remaining st' := by
  obtain ⟨a, st2, b, st3, body, st5, h1, h2, h3, h4, h5, h6, h7, h8, -, rfl⟩ := parseIf_ok h
  obtain ⟨ta, ha1, ha2⟩ := parseExpression_tokens h2
  obtain ⟨tb, hb1, hb2⟩ := parseExpression_tokens h4
  have hbody : ∃ ts, GStmt NotStart ts ∧
      remaining (getNextToken (getNextToken st3.alloc)) = ts ++ remaining st5 := by
    by_cases he : (getNextToken (getNextToken st3.alloc)).currentToken.type
        = TokenType.TOKEN_EOF
    · exfalso
      have h9 := hps0 _ _ _ he h7
      have h10 := getNextToken_of_nil _ (getNextToken_eof _ he)
      rw [← h9, h8] at h10
      cases h10
    · exact hps _ _ _ he h7
  obtain ⟨ts, hs1, hs2⟩ := hbody
  refine ⟨_, GStmt.ifStmt ha1 hb1 hs1, ?_⟩
  rw [remaining_next st (by rw [hif]; simp), hif,
    remaining_next (getNextToken st) (by rw [h1]; simp), h1, ← remaining_next_alloc, ha2,
    remaining_next st2 (by rw [h3]; simp), h3, hb2,
    remaining_next st3 (by rw [h5]; simp), h5, ← remaining_next_alloc,
    remaining_next _ (by rw [h6]; simp), h6, hs2,
    remaining_next st5 (by rw [h8]; simp), h8]
  simp

theorem parseStatement_tokens (fuel : Nat) {st st' : State} {n : ASTNode}
    (hne : st.currentToken.type ≠ TokenType.TOKEN_EOF)
    (h : parseStatement fuel st = .ok (n, st')) :
    ∃ ts, GStmt NotStart ts ∧ remaining st = ts ++ remaining st' := by
  induction fuel generalizing st st' n with
  | zero =>
    rcases parseStatement_ok h with ⟨h0, h1⟩ | ⟨h0, h1⟩ | ⟨-, f, hf, -⟩ | ⟨n1, n2, n3, -, rfl⟩
    · exact ⟨_, GStmt.varDecl, parseVarDecl_tokens h0 h1⟩
    · obtain ⟨e, he1, he2⟩ := parseAssignment_tokens h0 h1
      exact ⟨_, GStmt.assign he1, he2⟩
    · omega
    · exact ⟨_, GStmt.skipped _ ⟨n1, n2, n3⟩, remaining_next st hne⟩
  | succ fuel ih =>
    rcases parseStatement_ok h with ⟨h0, h1⟩ | ⟨h0, h1⟩ | ⟨h0, f, hf, h1⟩ | ⟨n1, n2, n3, -, rfl⟩
    · exact ⟨_, GStmt.varDecl, parseVarDecl_tokens h0 h1⟩
    · obtain ⟨e, he1, he2⟩ := parseAssignment_tokens h0 h1
      exact ⟨_, GStmt.assign he1, he2⟩
    · obtain rfl : f = fuel := by omega
      refine parseIf_tokens h0 (fun s s' b hs hb => ih hs hb) (fun s s' b hs hb => ?_) h1
      rcases parseStatement_ok hb with ⟨h2, -⟩ | ⟨h2, -⟩ | ⟨h2, -⟩ | ⟨-, -, -, -, h3⟩
      · rw [hs] at h2; cases h2
      · rw [hs] at h2; cases h2
      · rw [hs] at h2; cases h2
      · exact h3
    · exact ⟨_, GStmt.skipped _ ⟨n1, n2, n3⟩, remaining_next st hne⟩

theorem parseProgramLoop_tokens (fuel : Nat) {st st' : State} {chain : ASTNode}
    (h : parseProgramLoop fuel st = .ok (chain, st')) : GProgram NotStart (remaining st) := by
  induction fuel generalizing st st' chain with
  | zero =>
    rcases parseProgramLoop_ok h with ⟨h1, -, -⟩ | ⟨-, f, -, -, -, hf, -⟩
    · rw [remaining_eof st h1]; exact GProgram.nil
    · omega
  | succ fuel ih =>
    rcases parseProgramLoop_ok h with ⟨h1, -, -⟩ | ⟨hne, f, stmt, st1, rest, hf, h1, h2, -⟩
    · rw [remaining_eof st h1]; exact GProgram.nil
    · obtain rfl : f = fuel := by omega
      obtain ⟨ts, h3, h4⟩ := parseStatement_tokens _ hne h1
      rw [h4]
      exact GProgram.cons h3 (ih h2)

/-- What `parseProgram` accepts is derivable from the grammar in which a token
that cannot start a statement may stand for a statement. -/
theorem parseProgram_tokens {src : List Char} {ast : ASTNode} {st : State}
    (h : parseProgram (initialState src) = .ok (ast, st)) :
    GProgram NotStart (tokenTypes src) := by
  obtain ⟨chain, h1, -⟩ := parseProgram_ok h
  rw [tokenTypes_eq]
  exact parseProgramLoop_tokens _ h1

/-! ## Which aborts can end the parse -/

theorem parseTerm_clean {st : State} {e : Abort} (h : parseTerm st = .error e) : e.Clean := by
  unfold parseTerm at h
  split at h
  · cases h
  · split at h
    · cases h
    · cases h
      exact Or.inr ⟨_, rfl⟩

theorem parseExprLoop_clean (fuel : Nat) {left : ASTNode} {st : State} {e : Abort}
    (h : parseExprLoop fuel left st = .error e) : e.Clean := by
  induction fuel generalizing left st with
  | zero =>
    by_cases hop : st.currentToken.type = TokenType.TOKEN_PLUS ∨
        st.currentToken.type = TokenType.TOKEN_MINUS
    · rw [parseExprLoop_zero _ _ hop] at h; cases h; exact Or.inl rfl
    · rw [parseExprLoop_stop _ _ _ (fun e => hop (Or.inl e)) (fun e => hop (Or.inr e))] at h
      cases h
  | succ fuel ih =>
    by_cases hop : st.currentToken.type = TokenType.TOKEN_PLUS ∨
        st.currentToken.type = TokenType.TOKEN_MINUS
    · rw [parseExprLoop_succ _ _ _ hop] at h
      split at h
      · rename_i e' he
        cases h
        exact parseTerm_clean he
      · exact ih h
    · rw [parseExprLoop_stop _ _ _ (fun e => hop (Or.inl e)) (fun e => hop (Or.inr e))] at h
      cases h

theorem parseExpression_clean {st : State} {e : Abort} (h : parseExpression st = .error e) :
    e.Clean := by
  unfold parseExpression at h
  split at h
  · rename_i e' he
    cases h
    exact parseTerm_clean he
  · exact parseExprLoop_clean _ h

theorem count_le_of_eq_append {l ts r : List TokenType} (h : l = ts ++ r) :
    r.count TokenType.TOKEN_INT ≤ l.count TokenType.TOKEN_INT := by
  rw [h, List.count_append]
  omega

theorem room_next {st : State} (h : Room st) : Room (getNextToken st) := by
  refine ⟨getNextToken_eof st, ?_⟩
  by_cases he : st.currentToken.type = TokenType.TOKEN_EOF
  · have h1 := getNextToken_of_nil st (h.1 he)
    rw [remaining_eof _ h1]
    have := h.2
    simp only [getNextToken_varTable, List.count_nil]
    omega
  · have := h.2
    rw [remaining_next st he, List.count_cons] at this
    simp only [getNextToken_varTable]
    omega

theorem room_sameStream {s t : State} (hs : SameStream s t) (hv : s.varTable = t.varTable)
    (h : Room t) : Room s := by
  refine ⟨fun he => ?_, ?_⟩
  · rw [hs.1]
    exact h.1 (by rw [← hs.2]; exact he)
  · rw [remaining_sameStream hs, hv]
    exact h.2

theorem room_alloc {st : State} (h : Room st) : Room st.alloc :=
  room_sameStream (sameStream_alloc st) rfl h

theorem parseExprLoop_room (fuel : Nat) {left e : ASTNode} {st st' : State}
    (h : parseExprLoop fuel left st = .ok (e, st')) (hr : Room st) : Room st' := by
  induction fuel generalizing left st with
  | zero =>
    by_cases hop : st.currentToken.type = TokenType.TOKEN_PLUS ∨
        st.currentToken.type = TokenType.TOKEN_MINUS
    · rw [parseExprLoop_zero _ _ hop] at h; cases h
    · rw [parseExprLoop_stop _ _ _ (fun e => hop (Or.inl e)) (fun e => hop (Or.inr e))] at h
      cases h; exact hr
  | succ fuel ih =>
    by_cases hop : st.currentToken.type = TokenType.TOKEN_PLUS ∨
        st.currentToken.type = TokenType.TOKEN_MINUS
    · rw [parseExprLoop_succ _ _ _ hop] at h
      split at h
      · cases h
      · rename_i right st2 hr2
        obtain ⟨rfl, -⟩ := parseTerm_ok hr2
        exact ih h (room_next (room_alloc (room_next (room_alloc hr))))
    · rw [parseExprLoop_stop _ _ _ (fun e => hop (Or.inl e)) (fun e => hop (Or.inr e))] at h
      cases h; exact hr

theorem parseExpression_room {st st' : State} {e : ASTNode}
    (h : parseExpression st = .ok (e, st')) (hr : Room st) : Room st' := by
  obtain ⟨left, st1, h1, h2⟩ := parseExpression_ok h
  obtain ⟨rfl, -⟩ := parseTerm_ok h1
  exact parseExprLoop_room _ h2 (room_next (room_alloc hr))

theorem parseVarDecl_room {st : State} (hint : st.currentToken.type = TokenType.TOKEN_INT)
    (hr : Room st) :
    (∀ e, parseVarDecl st = .error e → e.Clean) ∧
    (∀ n st', parseVarDecl st = .ok (n, st') → Room st') := by
  have hlen : st.varTable.length < MAX_VARS := by
    have := hr.2
    rw [remaining_next st (by rw [hint]; simp), hint, List.count_cons_self] at this
    omega
  constructor
  · intro e h
    unfold parseVarDecl at h
    simp only [ne_eq, ite_not] at h
    split at h
    · split at h
      · rename_i h2
        simp only [State.varCount, getNextToken_varTable] at h2
        omega
      · split at h
        · cases h
        · cases h; exact Or.inr ⟨_, rfl⟩
    · cases h; exact Or.inr ⟨_, rfl⟩
  · intro n st' h
    have htok := parseVarDecl_tokens hint h
    obtain ⟨-, -, -, -, rfl⟩ := parseVarDecl_ok h
    refine ⟨getNextToken_eof _, ?_⟩
    have := hr.2
    rw [htok] at this
    simp only [List.cons_append, List.nil_append, List.count_cons_self] at this
    rw [List.count_cons_of_ne (by decide), List.count_cons_of_ne (by decide)] at this
    simp only [getNextToken_varTable, register_varTable, alloc_varTable, List.length_append,
      List.length_singleton]
    omega

theorem parseAssignment_room {st : State} (hr : Room st) :
    (∀ e, parseAssignment st = .error e → e.Clean) ∧
    (∀ n st', parseAssignment st = .ok (n, st') → Room st') := by
  constructor
  · intro e h
    unfold parseAssignment at h
    simp only [ne_eq, ite_not] at h
    split at h
    · split at h
      · rename_i e' he
        cases h
        exact parseExpression_clean he
      · split at h
        · cases h
        · cases h; exact Or.inr ⟨_, rfl⟩
    · cases h; exact Or.inr ⟨_, rfl⟩
  · intro n st' h
    obtain ⟨right, st2, -, h2, -, -, rfl⟩ := parseAssignment_ok h
    exact room_next (parseExpression_room h2 (room_next (room_next (room_alloc hr))))

theorem parseIf_accepts (ps : State → Res (ASTNode × State)) (st st2 st3 st5 : State)
    (a b body : ASTNode)
    (h1 : (getNextToken st).currentToken.type = TokenType.TOKEN_LPAREN)
    (h2 : parseExpression (getNextToken (getNextToken st).alloc) = .ok (a, st2))
    (h3 : st2.currentToken.type = TokenType.TOKEN_EQUAL)
    (h4 : parseExpression (getNextToken st2) = .ok (b, st3))
    (h5 : st3.currentToken.type = TokenType.TOKEN_RPAREN)
    (h6 : (getNextToken st3.alloc).currentToken.type = TokenType.TOKEN_LBRACE)
    (h7 : ps (getNextToken (getNextToken st3.alloc)) = .ok (body, st5))
    (h8 : st5.currentToken.type = TokenType.TOKEN_RBRACE) :
    parseIf ps st =
      .ok (ifNode st.nalloc (binaryNode st3.nalloc '=' a b) body, getNextToken st5) := by
  unfold parseIf
  simp [h1, h2, h3, h4, h5, h6, h7, h8]

theorem parseIf_room {ps : State → Res (ASTNode × State)} {st : State} (hr : Room st)
    (hps : ∀ s, Room s → (∀ e, ps s = .error e → e.Clean) ∧
      (∀ n s', ps s = .ok (n, s') → Room s')) :
    (∀ e, parseIf ps st = .error e → e.Clean) ∧
    (∀ n st', parseIf ps st = .ok (n, st') → Room st') := by
  by_cases h1 : (getNextToken st).currentToken.type = TokenType.TOKEN_LPAREN
  swap
  · rw [parseIf_no_lparen ps st h1]
    exact ⟨fun e h => by cases h; exact Or.inr ⟨_, rfl⟩, fun n st' h => by cases h⟩
  have r1 : Room (getNextToken (getNextToken st).alloc) :=
    room_next (room_alloc (room_next hr))
  cases h2 : parseExpression (getNextToken (getNextToken st).alloc) with
  | error e2 =>
    rw [parseIf_left_error ps st e2 h1 h2]
    exact ⟨fun e h => by cases h; exact parseExpression_clean h2, fun n st' h => by cases h⟩
  | ok r2 =>
    obtain ⟨a, st2⟩ := r2
    have r2 := parseExpression_room h2 r1
    by_cases h3 : st2.currentToken.type = TokenType.TOKEN_EQUAL
    swap
    · rw [parseIf_no_equal ps st st2 a h1 h2 h3]
      exact ⟨fun e h => by cases h; exact Or.inr ⟨_, rfl⟩, fun n st' h => by cases h⟩
    cases h4 : parseExpression (getNextToken st2) with
    | error e4 =>
      rw [parseIf_right_error ps st st2 a e4 h1 h2 h3 h4]
      exact ⟨fun e h => by cases h; exact parseExpression_clean h4, fun n st' h => by cases h⟩
    | ok r4 =>
      obtain ⟨b, st3⟩ := r4
      have r3 := parseExpression_room h4 (room_next r2)
      by_cases h5 : st3.currentToken.type = TokenType.TOKEN_RPAREN
      swap
      · rw [parseIf_no_rparen ps st st2 st3 a b h1 h2 h3 h4 h5]
        exact ⟨fun e h => by cases h; exact Or.inr ⟨_, rfl⟩, fun n st' h => by cases h⟩
      by_cases h6 : (getNextToken st3.alloc).currentToken.type = TokenType.TOKEN_LBRACE
      swap
      · rw [parseIf_no_lbrace ps st st2 st3 a b h1 h2 h3 h4 h5 h6]
        exact ⟨fun e h => by cases h; exact Or.inr ⟨_, rfl⟩, fun n st' h => by cases h⟩
      have r4 : Room (getNextToken (getNextToken st3.alloc)) :=
        room_next (room_next (room_alloc r3))
      obtain ⟨p1, p2⟩ := hps _ r4
      cases h7 : ps (getNextToken (getNextToken st3.alloc)) with
      | error e7 =>
        rw [parseIf_body_error ps st st2 st3 a b e7 h1 h2 h3 h4 h5 h6 h7]
        exact ⟨fun e h => by cases h; exact p1 _ h7, fun n st' h => by cases h⟩
      | ok r7 =>
        obtain ⟨body, st5⟩ := r7
        by_cases h8 : st5.currentToken.type = TokenType.TOKEN_RBRACE
        · rw [parseIf_accepts ps st st2 st3 st5 a b body h1 h2 h3 h4 h5 h6 h7 h8]
          refine ⟨fun e h => (by cases h), fun n st' h => ?_⟩
          cases h
          exact room_next (p2 _ _ h7)
        · rw [parseIf_no_rbrace ps st st2 st3 st5 a b body h1 h2 h3 h4 h5 h6 h7 h8]
          exact ⟨fun e h => by cases h; exact Or.inr ⟨_, rfl⟩, fun n st' h => by cases h⟩

theorem parseStatement_room (fuel : Nat) : ∀ st : State, Room st →
    (∀ e, parseStatement fuel st = .error e → e.Clean) ∧
    (∀ n st', parseStatement fuel st = .ok (n, st') → Room st') := by
  induction fuel with
  | zero =>
    intro st hr
    by_cases h1 : st.currentToken.type = TokenType.TOKEN_INT
    · rw [parseStatement_int _ _ h1]; exact parseVarDecl_room h1 hr
    · by_cases h2 : st.currentToken.type = TokenType.TOKEN_IDENTIFIER
      · rw [parseStatement_identifier _ _ h2]; exact parseAssignment_room hr
      · by_cases h3 : st.currentToken.type = TokenType.TOKEN_IF
        · rw [parseStatement_if_zero _ h3]
          exact ⟨fun e h => by cases h; exact Or.inl rfl, fun n st' h => by cases h⟩
        · rw [parseStatement_other _ _ h1 h2 h3]
          exact ⟨fun e h => (by cases h), fun n st' h => (by cases h; exact room_next hr)⟩
  | succ fuel ih =>
    intro st hr
    by_cases h1 : st.currentToken.type = TokenType.TOKEN_INT
    · rw [parseStatement_int _ _ h1]; exact parseVarDecl_room h1 hr
    · by_cases h2 : st.currentToken.type = TokenType.TOKEN_IDENTIFIER
      · rw [parseStatement_identifier _ _ h2]; exact parseAssignment_room hr
      · by_cases h3 : st.currentToken.type = TokenType.TOKEN_IF
        · rw [parseStatement_if_succ _ _ h3]
          exact parseIf_room hr ih
        · rw [parseStatement_other _ _ h1 h2 h3]
          exact ⟨fun e h => (by cases h), fun n st' h => (by cases h; exact room_next hr)⟩

theorem parseProgramLoop_clean (fuel : Nat) : ∀ (st : State) (e : Abort), Room st →
    parseProgramLoop fuel st = .error e → e.Clean := by
  induction fuel with
  | zero =>
    intro st e hr h
    by_cases h1 : st.currentToken.type = TokenType.TOKEN_EOF
    · rw [parseProgramLoop_eof _ _ h1] at h; cases h
    · rw [parseProgramLoop_zero _ h1] at h; cases h; exact Or.inl rfl
  | succ fuel ih =>
    intro st e hr h
    by_cases h1 : st.currentToken.type = TokenType.TOKEN_EOF
    · rw [parseProgramLoop_eof _ _ h1] at h; cases h
    · rw [parseProgramLoop_succ _ _ h1] at h
      obtain ⟨p1, p2⟩ := parseStatement_room (fuel + 1) st hr
      split at h
      · rename_i e' he
        cases h
        exact p1 _ he
      · rename_i stmt st1 hs
        split at h
        · rename_i e' he
          cases h
          exact ih _ _ (p2 _ _ hs) he
        · cases h

/-- With at most 26 `int` tokens in the input, `parseProgram` can only end
with an AST or with a diagnostic and `exit(1)`. -/
theorem parseProgram_exit {src : List Char} {e : Abort}
    (hcount : (tokenTypes src).count TokenType.TOKEN_INT ≤ MAX_VARS)
    (h : parseProgram (initialState src) = .error e) : ∃ msg, e = Abort.exit msg := by
  have hne : e ≠ Abort.fuel := fun he => parseProgram_ne_fuel _ (he ▸ h)
  have hroom : Room (getNextToken (initialState src).alloc) := by
    refine ⟨getNextToken_eof _, ?_⟩
    rw [← tokenTypes_eq]
    simpa [initialState] using hcount
  unfold parseProgram at h
  simp only at h
  split at h
  · rename_i e' he
    cases h
    rcases parseProgramLoop_clean _ _ _ hroom he with h1 | h1
    · exact absurd h1 hne
    · exact h1
  · cases h

/-! ## Fail-fast parsing and the grammar -/

theorem gexpr_counts {ts : List TokenType} (h : GExpr ts) :
    ts.count TokenType.TOKEN_SEMICOLON = 0 ∧ ts.count TokenType.TOKEN_INT = 0 ∧
      ts.count TokenType.TOKEN_ASSIGN = 0 := by
  have hterm : ∀ r, GTerm r → r.count TokenType.TOKEN_SEMICOLON = 0 ∧
      r.count TokenType.TOKEN_INT = 0 ∧ r.count TokenType.TOKEN_ASSIGN = 0 := by
    intro r hr
    cases hr <;> decide
  induction h with
  | term ht => exact hterm _ ht
  | plus _ hr ih =>
    obtain ⟨h1, h2, h3⟩ := hterm _ hr
    obtain ⟨i1, i2, i3⟩ := ih
    simp [List.count_append, List.count_cons, h1, h2, h3, i1, i2, i3]
  | minus _ hr ih =>
    obtain ⟨h1, h2, h3⟩ := hterm _ hr
    obtain ⟨i1, i2, i3⟩ := ih
    simp [List.count_append, List.count_cons, h1, h2, h3, i1, i2, i3]

/-- In the grammar of the specification every `;` ends a declaration or an
assignment. -/
theorem gstmt_counts {ts : List TokenType} (h : GStmt NoSkip ts) :
    ts.count TokenType.TOKEN_SEMICOLON =
      ts.count TokenType.TOKEN_INT + ts.count TokenType.TOKEN_ASSIGN := by
  induction h with
  | varDecl => decide
  | assign he =>
    obtain ⟨h1, h2, h3⟩ := gexpr_counts he
    simp [List.count_append, List.count_cons, h1, h2, h3]
  | ifStmt ha hb _ ih =>
    obtain ⟨h1, h2, h3⟩ := gexpr_counts ha
    obtain ⟨i1, i2, i3⟩ := gexpr_counts hb
    simp only [List.count_append, List.count_cons, h1, h2, h3, i1, i2, i3, ih]
    simp
  | skipped t ht => exact absurd ht (fun h => h)

theorem gprogram_counts {ts : List TokenType} (h : GProgram NoSkip ts) :
    ts.count TokenType.TOKEN_SEMICOLON =
      ts.count TokenType.TOKEN_INT + ts.count TokenType.TOKEN_ASSIGN := by
  induction h with
  | nil => rfl
  | cons hs _ ih =>
    rw [List.count_append, List.count_append, List.count_append, gstmt_counts hs, ih]
    omega

/-- C4 (as stated, refuted): the token sequences of `;` and of
`if (1 == 2) { ; }` are not derivable from `program := statement*`, yet
`parseProgram` returns an AST for both (with an empty chain, and with an `if`
whose body is null) and assembly is generated. -/
theorem skipped_token_accepted :
    (¬ GProgram NoSkip (tokenTypes ";".toList) ∧
      (∃ st, parseProgram (initialState ";".toList) = .ok (programNode 0 .null, st)) ∧
      compile id ";".toList = .ok [Line.header1, Line.header2, Line.hlt]) ∧
    (¬ GProgram NoSkip (tokenTypes "if (1 == 2) \x7b ; \x7d".toList) ∧
      (∃ st, parseProgram (initialState "if (1 == 2) \x7b ; \x7d".toList) =
        .ok (programNode 0
          (ifNode 1 (binaryNode 4 '=' (numberNode 2 1) (numberNode 3 2)) .null), st)) ∧
      compile id "if (1 == 2) \x7b ; \x7d".toList =
        .ok [Line.header1, Line.header2, Line.ifStatement, Line.ldi 1, Line.pushSide,
          Line.ldi 2, Line.movR1, Line.popSide, Line.cmp, Line.jne 1, Line.label 1,
          Line.hlt]) := by
  refine ⟨⟨fun h => ?_, ⟨_, rfl⟩, by decide⟩, ⟨fun h => ?_, ⟨_, rfl⟩, by decide⟩⟩
  · have := gprogram_counts h
    revert this
    decide
  · have := gprogram_counts h
    revert this
    decide

/-- C4 (amended): for every input whose token sequence is not derivable from
the grammar in which a token that cannot start a statement (any token but
`int`, an identifier and `if`) may stand where a statement is expected, at top
level and as the body of an `if`, `parseProgram` returns no AST and no
assembly is generated; when the input has at most 26 `int` tokens, the parse
ends in a diagnostic and `exit(1)`. -/
theorem parse_rejects_underivable (addr : Nat → Nat) (src : List Char)
    (h : ¬ GProgram NotStart (tokenTypes src)) :
    ∃ e, parseProgram (initialState src) = .error e ∧ compile addr src = .error e ∧
      e ≠ Abort.fuel ∧
      ((tokenTypes src).count TokenType.TOKEN_INT ≤ MAX_VARS → ∃ msg, e = Abort.exit msg) := by
  cases hp : parseProgram (initialState src) with
  | ok r =>
    obtain ⟨ast, st⟩ := r
    exact absurd (parseProgram_tokens hp) h
  | error e =>
    exact ⟨e, rfl, compile_error addr src e hp, fun he => parseProgram_ne_fuel _ (he ▸ hp),
      fun hc => parseProgram_exit hc hp⟩

theorem gstmt_int {skip : TokenType → Prop} {rest : List TokenType}
    (h : GStmt skip (TokenType.TOKEN_INT :: rest)) (hs : ¬ skip TokenType.TOKEN_INT) :
    rest = [TokenType.TOKEN_IDENTIFIER, TokenType.TOKEN_SEMICOLON] := by
  cases h with
  | varDecl => rfl
  | skipped t ht => exact absurd ht hs

theorem gstmt_ne_nil {skip : TokenType → Prop} {ts : List TokenType} (h : GStmt skip ts) :
    ts ≠ [] := by
  cases h <;> simp

theorem not_gprogram_int_number (rest : List TokenType) :
    ¬ GProgram NotStart (TokenType.TOKEN_INT :: TokenType.TOKEN_NUMBER :: rest) := by
  intro h
  generalize hts : TokenType.TOKEN_INT :: TokenType.TOKEN_NUMBER :: rest = ts at h
  cases h with
  | nil => cases hts
  | @cons s p hs hp =>
    cases s with
    | nil => exact gstmt_ne_nil hs rfl
    | cons t s' =>
      simp only [List.cons_append, List.cons.injEq] at hts
      obtain ⟨rfl, hts⟩ := hts
      have := gstmt_int hs (fun h => h.1 rfl)
      subst this
      simp at hts

/-- C4 (amended), at `int 5;`. -/
theorem parse_rejects_underivable_witness :
    ∃ e, parseProgram (initialState "int 5;".toList) = .error e ∧
      compile id "int 5;".toList = .error e ∧ e ≠ Abort.fuel ∧
      ((tokenTypes "int 5;".toList).count TokenType.TOKEN_INT ≤ MAX_VARS →
        ∃ msg, e = Abort.exit msg) :=
  parse_rejects_underivable id "int 5;".toList
    (by
      have : tokenTypes "int 5;".toList =
          [TokenType.TOKEN_INT, TokenType.TOKEN_NUMBER, TokenType.TOKEN_SEMICOLON] := by decide
      rw [this]
      exact not_gprogram_int_number _)

/-! ## What is derivable is accepted -/

theorem remaining_cons {st : State} {t : TokenType} {more : List TokenType}
    (h : remaining st = t :: more) :
    st.currentToken.type = t ∧ st.currentToken.type ≠ TokenType.TOKEN_EOF ∧
      remaining (getNextToken st) = more := by
  by_cases he : st.currentToken.type = TokenType.TOKEN_EOF
  · rw [remaining_eof st he] at h
    cases h
  · rw [remaining_next st he] at h
    simp only [List.cons.injEq] at h
    exact ⟨h.1, he, h.2⟩

theorem remaining_nil {st : State} (h : remaining st = []) :
    st.currentToken.type = TokenType.TOKEN_EOF := by
  by_cases he : st.currentToken.type = TokenType.TOKEN_EOF
  · exact he
  · rw [remaining_next st he] at h
    cases h

theorem parseTerm_complete {ts rest : List TokenType} (ht : GTerm ts) {st : State}
    (h : remaining st = ts ++ rest) :
    parseTerm st = .ok (termNode st.nalloc st.currentToken, getNextToken st.alloc) ∧
      remaining (getNextToken st.alloc) = rest := by
  cases ht with
  | number =>
    obtain ⟨h1, -, h3⟩ := remaining_cons h
    exact ⟨parseTerm_term st (Or.inl h1), by rw [remaining_next_alloc]; exact h3⟩
  | identifier =>
    obtain ⟨h1, -, h3⟩ := remaining_cons h
    exact ⟨parseTerm_term st (Or.inr h1), by rw [remaining_next_alloc]; exact h3⟩

theorem parseExprLoop_complete {ts : List TokenType} (he : GExpr ts) :
    ∀ (st : State) (rest : List TokenType), remaining st = ts ++ rest →
      ∃ j t0 st0 left st1, parseTerm st = .ok (t0, st0) ∧
        (∀ fuel, parseExprLoop (fuel + j) t0 st0 = parseExprLoop fuel left st1) ∧
        st1.input.length + j ≤ st0.input.length ∧ remaining st1 = rest ∧
        st1.varTable = st.varTable := by
  induction he with
  | @term ts ht =>
    intro st rest h
    obtain ⟨h1, h2⟩ := parseTerm_complete ht h
    exact ⟨0, _, _, _, _, h1, fun fuel => rfl, Nat.le_refl _, h2, rfl⟩
  | @plus l r _ hr ih =>
    intro st rest h
    rw [List.append_assoc, List.cons_append] at h
    obtain ⟨j, t0, st0, left, st1, h1, h2, h3, h4, h5⟩ := ih st _ h
    obtain ⟨o1, -, o3⟩ := remaining_cons h4
    rw [← remaining_next_alloc] at o3
    obtain ⟨p1, p2⟩ := parseTerm_complete hr o3
    have hlt := parseTerm_length_lt p1
    simp only [alloc_input] at hlt
    refine ⟨j + 1, t0, st0, binaryNode st1.nalloc
      (if st1.currentToken.type = TokenType.TOKEN_PLUS then '+' else '-') left
      (termNode (getNextToken st1.alloc).nalloc (getNextToken st1.alloc).currentToken),
      getNextToken (getNextToken st1.alloc).alloc, h1, fun fuel => ?_, by omega, p2,
      by simp [h5]⟩
    rw [← Nat.add_assoc, Nat.add_right_comm, h2 (fuel + 1),
      parseExprLoop_succ _ _ _ (Or.inl o1), p1]
  | @minus l r _ hr ih =>
    intro st rest h
    rw [List.append_assoc, List.cons_append] at h
    obtain ⟨j, t0, st0, left, st1, h1, h2, h3, h4, h5⟩ := ih st _ h
    obtain ⟨o1, -, o3⟩ := remaining_cons h4
    rw [← remaining_next_alloc] at o3
    obtain ⟨p1, p2⟩ := parseTerm_complete hr o3
    have hlt := parseTerm_length_lt p1
    simp only [alloc_input] at hlt
    refine ⟨j + 1, t0, st0, binaryNode st1.nalloc
      (if st1.currentToken.type = TokenType.TOKEN_PLUS then '+' else '-') left
      (termNode (getNextToken st1.alloc).nalloc (getNextToken st1.alloc).currentToken),
      getNextToken (getNextToken st1.alloc).alloc, h1, fun fuel => ?_, by omega, p2,
      by simp [h5]⟩
    rw [← Nat.add_assoc, Nat.add_right_comm, h2 (fuel + 1),
      parseExprLoop_succ _ _ _ (Or.inr o1), p1]

theorem parseExpression_complete {ts : List TokenType} (he : GExpr ts) {st : State}
    {t : TokenType} {rest : List TokenType} (h : remaining st = ts ++ t :: rest)
    (ht1 : t ≠ TokenType.TOKEN_PLUS) (ht2 : t ≠ TokenType.TOKEN_MINUS) :
    ∃ e st1, parseExpression st = .ok (e, st1) ∧ remaining st1 = t :: rest ∧
      st1.varTable = st.varTable := by
  obtain ⟨j, t0, st0, left, st1, h1, h2, h3, h4, h5⟩ := parseExprLoop_complete he st _ h
  refine ⟨left, st1, ?_, h4, h5⟩
  unfold parseExpression
  rw [h1]
  simp only
  have hf : st0.input.length + 1 = (st0.input.length + 1 - j) + j := by omega
  rw [hf, h2]
  obtain ⟨o1, -, -⟩ := remaining_cons h4
  exact parseExprLoop_stop _ _ _ (by rw [o1]; exact ht1) (by rw [o1]; exact ht2)

theorem parseStatement_complete {skip : TokenType → Prop} (hskip : ∀ t, skip t → NotStart t)
    {ts : List TokenType} (hs : GStmt skip ts) :
    ∀ (fuel : Nat) (st : State) (rest : List TokenType), remaining st = ts ++ rest →
      Fuelled fuel st → st.varTable.length + ts.count TokenType.TOKEN_INT ≤ MAX_VARS →
      ∃ n st', parseStatement fuel st = .ok (n, st') ∧ remaining st' = rest ∧
        st'.varTable.length = st.varTable.length + ts.count TokenType.TOKEN_INT := by
  induction hs with
  | varDecl =>
    intro fuel st rest h _ hcap
    simp only [List.cons_append, List.nil_append] at h
    obtain ⟨a1, -, a3⟩ := remaining_cons h
    obtain ⟨b1, -, b3⟩ := remaining_cons a3
    rw [← remaining_sameStream (sameStream_next
      (sameStream_register (getNextToken st) (getNextToken st).currentToken.text))] at b3
    obtain ⟨c1, -, c3⟩ := remaining_cons b3
    have hc : ¬ MAX_VARS ≤ (getNextToken st).varCount := by
      simp only [State.varCount, getNextToken_varTable]
      have : List.count TokenType.TOKEN_INT [TokenType.TOKEN_INT, TokenType.TOKEN_IDENTIFIER,
        TokenType.TOKEN_SEMICOLON] = 1 := by decide
      omega
    refine ⟨varDeclNode (getNextToken st).nalloc (getNextToken st).currentToken.text, _, ?_,
      c3, ?_⟩
    · rw [parseStatement_int _ _ a1]
      unfold parseVarDecl
      simp only [b1, ne_eq, not_true_eq_false, ↓reduceIte, hc, c1]
    · simp only [getNextToken_varTable, register_varTable, alloc_varTable, List.length_append,
        List.length_singleton]
      rfl
  | @assign e he =>
    intro fuel st rest h _ _
    simp only [List.cons_append, List.nil_append, List.append_assoc] at h
    obtain ⟨a1, -, a3⟩ := remaining_cons h
    rw [← remaining_next_alloc] at a3
    obtain ⟨b1, -, b3⟩ := remaining_cons a3
    obtain ⟨x, st2, p1, p2, p3⟩ := parseExpression_complete he b3 (by decide) (by decide)
    obtain ⟨c1, -, c3⟩ := remaining_cons p2
    refine ⟨assignNode st.nalloc st.currentToken.text x, _, ?_, c3, ?_⟩
    · rw [parseStatement_identifier _ _ a1]
      unfold parseAssignment
      simp only [b1, ne_eq, not_true_eq_false, ↓reduceIte, p1, c1]
    · have hcount := (gexpr_counts he).2.1
      simp only [getNextToken_varTable, p3, alloc_varTable, List.count_cons,
        List.count_append, hcount]
      simp
  | @ifStmt a b s ha hb _ ih =>
    intro fuel st rest h hf hcap
    simp only [List.cons_append, List.nil_append, List.append_assoc] at h
    obtain ⟨a1, an, a3⟩ := remaining_cons h
    have hlen : st.input.length < fuel := hf an
    cases fuel with
    | zero => omega
    | succ f =>
      obtain ⟨b1, -, b3⟩ := remaining_cons a3
      rw [← remaining_next_alloc] at b3
      obtain ⟨x, st2, p1, p2, p3⟩ := parseExpression_complete ha b3 (by decide) (by decide)
      obtain ⟨c1, -, c3⟩ := remaining_cons p2
      obtain ⟨y, st3, q1, q2, q3⟩ := parseExpression_complete hb c3 (by decide) (by decide)
      obtain ⟨d1, -, d3⟩ := remaining_cons q2
      rw [← remaining_next_alloc] at d3
      obtain ⟨e1, -, e3⟩ := remaining_cons d3
      have l1 := getNextToken_length_le st
      have l2 := getNextToken_length_le (getNextToken st).alloc
      have l3 := parseExpression_length p1
      have l4 := getNextToken_length_le st2
      have l5 := parseExpression_length q1
      have l6 := getNextToken_length_le st3.alloc
      simp only [alloc_input] at l2 l6
      have hvt : (getNextToken (getNextToken st3.alloc)).varTable = st.varTable := by
        simp only [getNextToken_varTable, alloc_varTable, q3, p3]
      have hca := (gexpr_counts ha).2.1
      have hcb := (gexpr_counts hb).2.1
      have hcount : List.count TokenType.TOKEN_INT (TokenType.TOKEN_IF ::
          TokenType.TOKEN_LPAREN :: (a ++ TokenType.TOKEN_EQUAL ::
            (b ++ TokenType.TOKEN_RPAREN :: TokenType.TOKEN_LBRACE ::
              (s ++ [TokenType.TOKEN_RBRACE])))) = List.count TokenType.TOKEN_INT s := by
        simp [List.count_cons, List.count_append, hca, hcb]
      rw [hcount] at hcap ⊢
      obtain ⟨body, st5, r1, r2, r3⟩ := ih f (getNextToken (getNextToken st3.alloc)) _ e3
        (getNextToken_fuelled f _ (by omega)) (by rw [hvt]; exact hcap)
      obtain ⟨g1, -, g3⟩ := remaining_cons r2
      refine ⟨ifNode st.nalloc (binaryNode st3.nalloc '=' x y) body, _, ?_, g3, ?_⟩
      · rw [parseStatement_if_succ _ _ a1]
        exact parseIf_accepts _ st st2 st3 st5 x y body b1 p1 c1 q1 d1 e1 r1 g1
      · rw [getNextToken_varTable, r3, hvt]
  | skipped t ht =>
    intro fuel st rest h _ _
    simp only [List.cons_append, List.nil_append] at h
    obtain ⟨a1, -, a3⟩ := remaining_cons h
    obtain ⟨n1, n2, n3⟩ := hskip t ht
    refine ⟨.null, _, parseStatement_other _ _ (by rw [a1]; exact n1) (by rw [a1]; exact n2)
      (by rw [a1]; exact n3), a3, ?_⟩
    simp [List.count_cons, n1]

theorem parseProgramLoop_complete {skip : TokenType → Prop}
    (hskip : ∀ t, skip t → NotStart t) {ts : List TokenType} (hp : GProgram skip ts) :
    ∀ (fuel : Nat) (st : State), remaining st = ts → Fuelled fuel st →
      st.varTable.length + ts.count TokenType.TOKEN_INT ≤ MAX_VARS →
      ∃ chain st', parseProgramLoop fuel st = .ok (chain, st') := by
  induction hp with
  | nil =>
    intro fuel st h _ _
    exact ⟨_, _, parseProgramLoop_eof _ _ (remaining_nil h)⟩
  | @cons s p hs _ ih =>
    intro fuel st h hf hcap
    rw [List.count_append] at hcap
    have hne : st.currentToken.type ≠ TokenType.TOKEN_EOF := by
      intro he
      rw [remaining_eof st he] at h
      exact gstmt_ne_nil hs (List.append_eq_nil.1 h.symm).1
    have hlen := hf hne
    obtain ⟨n, st1, p1, p2, p3⟩ := parseStatement_complete hskip hs fuel st p h hf (by omega)
    cases fuel with
    | zero => omega
    | succ f =>
      obtain ⟨s0, hs0, hs1⟩ := parseStatement_length _ p1
      have hf1 : Fuelled f st1 := by
        rw [hs0]
        exact getNextToken_fuelled f s0 (by omega)
      obtain ⟨chain, st2, q1⟩ := ih f st1 p2 hf1 (by omega)
      exact ⟨link n chain, st2, by rw [parseProgramLoop_succ _ _ hne, p1]; simp only [q1]⟩

/-- A source text whose token sequence is derivable from the grammar, also
with skipped tokens, and has at most 26 `int` tokens is accepted. -/
theorem parseProgram_complete {skip : TokenType → Prop} (hskip : ∀ t, skip t → NotStart t)
    (src : List Char) (hp : GProgram skip (tokenTypes src))
    (hcount : (tokenTypes src).count TokenType.TOKEN_INT ≤ MAX_VARS) :
    ∃ ast st, parseProgram (initialState src) = .ok (ast, st) := by
  obtain ⟨chain, st, h⟩ := parseProgramLoop_complete hskip hp
    ((getNextToken (initialState src).alloc).input.length + 1)
    (getNextToken (initialState src).alloc) (tokenTypes_eq src).symm
    (fun _ => Nat.lt_succ_self _) (by simpa [initialState] using hcount)
  refine ⟨programNode (initialState src).nalloc chain, st, ?_⟩
  unfold parseProgram
  simp only [h]

/-! ## Round trip -/

/-- C6: for every well-formed program AST `p` (a Program node over a chain of
well-formed statements, with at most 26 declarations), scanning and parsing
the canonical source text of `p` succeeds and returns `p`, its nodes numbered
in the order of their allocation (so `p` itself up to the identity of the
nodes), and leaves in the variable table the declared names in source order.
Moreover every source text whose token sequence is derivable from the grammar
`program := statement*` and has at most 26 `int` tokens is accepted. -/
theorem parse_source_roundtrip (id : Nat) (ss : List ASTNode) (hss : ∀ s ∈ ss, WfStmt s)
    (hcap : (declNames (programNode id (chainOf ss))).length ≤ MAX_VARS) :
    (∃ q st, parseProgram (initialState (source (programNode id (chainOf ss)))) = .ok (q, st) ∧
      q = renumber 0 (programNode id (chainOf ss)) ∧
      eraseIds q = eraseIds (programNode id (chainOf ss)) ∧
      st.varTable = declNames (programNode id (chainOf ss))) ∧
    (∀ src : List Char, GProgram NoSkip (tokenTypes src) →
      (tokenTypes src).count TokenType.TOKEN_INT ≤ MAX_VARS →
      ∃ ast st, parseProgram (initialState src) = .ok (ast, st)) := by
  refine ⟨?_, fun src hp hc => parseProgram_complete (fun _ ht => False.elim ht) src hp hc⟩
  have hd : declNames (programNode id (chainOf ss)) = declNames (chainOf ss) := by
    simp [declNames, programNode, createData]
  rw [hd] at hcap ⊢
  obtain ⟨st, h1, h2⟩ := parseProgram_source id ss hss hcap
  have hr : renumber 0 (programNode id (chainOf ss)) = programNode 0 (renumber 1 (chainOf ss)) := by
    simp [renumber, programNode, createData, nodeCount]
  refine ⟨_, st, h1, hr.symm, ?_, h2⟩
  simp only [programNode, createData, eraseIds, eraseIds_renumber_chain ss hss]

/-- C6, at the program `int x; if (x == 1) { x = x + 2; }`. -/
theorem parse_source_roundtrip_witness :
    (∃ q st, parseProgram (initialState (source (programNode 9 (chainOf
        [varDeclNode 9 ['x'],
         ifNode 9 (binaryNode 9 '=' (identifierNode 9 ['x']) (numberNode 9 1))
           (assignNode 9 ['x']
             (binaryNode 9 '+' (identifierNode 9 ['x']) (numberNode 9 2)))])))) = .ok (q, st) ∧
      q = renumber 0 (programNode 9 (chainOf
        [varDeclNode 9 ['x'],
         ifNode 9 (binaryNode 9 '=' (identifierNode 9 ['x']) (numberNode 9 1))
           (assignNode 9 ['x']
             (binaryNode 9 '+' (identifierNode 9 ['x']) (numberNode 9 2)))])) ∧
      eraseIds q = eraseIds (programNode 9 (chainOf
        [varDeclNode 9 ['x'],
         ifNode 9 (binaryNode 9 '=' (identifierNode 9 ['x']) (numberNode 9 1))
           (assignNode 9 ['x']
             (binaryNode 9 '+' (identifierNode 9 ['x']) (numberNode 9 2)))])) ∧
      st.varTable = declNames (programNode 9 (chainOf
        [varDeclNode 9 ['x'],
         ifNode 9 (binaryNode 9 '=' (identifierNode 9 ['x']) (numberNode 9 1))
           (assignNode 9 ['x']
             (binaryNode 9 '+' (identifierNode 9 ['x']) (numberNode 9 2)))]))) ∧
    (∀ src : List Char, GProgram NoSkip (tokenTypes src) →
      (tokenTypes src).count TokenType.TOKEN_INT ≤ MAX_VARS →
      ∃ ast st, parseProgram (initialState src) = .ok (ast, st)) :=
  parse_source_roundtrip 9
    [varDeclNode 9 ['x'],
     ifNode 9 (binaryNode 9 '=' (identifierNode 9 ['x']) (numberNode 9 1))
       (assignNode 9 ['x'] (binaryNode 9 '+' (identifierNode 9 ['x']) (numberNode 9 2)))]
    (fun s hs => by
      simp only [List.mem_cons, List.mem_singleton, List.not_mem_nil, or_false] at hs
      rcases hs with rfl | rfl
      · exact WfStmt.varDecl _ _ (by decide)
      · exact WfStmt.ifStmt _ _
          (WfExpr.term (WfTerm.identifier _ _ (by decide)))
          (WfExpr.term (WfTerm.number _ 1 (by norm_num)))
          (WfStmt.assign _ _ (by decide)
            (WfExpr.binary _ _ (Or.inl rfl) (WfExpr.term (WfTerm.identifier _ _ (by decide)))
              (WfTerm.number _ 2 (by norm_num)))))
    (by decide)

/-! ## Identifiers that are declared nowhere -/

theorem generateCode_parsed (addr : Nat → Nat) (tbl : List (List Char)) {st st' : State}
    {ast : ASTNode} (h : parseProgram st = .ok (ast, st')) :
    ∃ out, generateCode addr tbl ast = .ok out := by
  obtain ⟨ss, rfl, hss⟩ := parseProgram_shape h
  obtain ⟨blocks, -, h2, -⟩ := generateCode_chainOf addr tbl ss hss
  exact ⟨[Line.header1, Line.header2] ++ blocks.flatten ++ [Line.hlt],
    by simp [programNode, createData, generateCode, h2]⟩

theorem compile_parsed (addr : Nat → Nat) {src : List Char} {ast : ASTNode} {st : State}
    (h : parseProgram (initialState src) = .ok (ast, st)) :
    ∃ out, compile addr src = .ok out ∧ generateCode addr st.varTable ast = .ok out := by
  obtain ⟨out, ho⟩ := generateCode_parsed addr st.varTable h
  refine ⟨out, ?_, ho⟩
  unfold compile
  rw [h]
  exact ho

/-- C11 (as stated, refuted): `y = 1;` and `int x; x = y;`, in which `y` is
declared nowhere, compile without any error, to a store to and a load from
offset -1. -/
theorem undeclared_compiles :
    compile id "y = 1;".toList =
      .ok [Line.header1, Line.header2, Line.assignment ['y'], Line.ldi 1,
        Line.st (-1) ['y'], Line.hlt] ∧
    compile id "int x; x = y;".toList =
      .ok [Line.header1, Line.header2, Line.declare ['x'], Line.assignment ['x'],
        Line.ld (-1) ['y'], Line.st 0 ['x'], Line.hlt] ∧
    (Line.st (-1) ['y']).text = "    ST R0, [-1]      ; Store to variable y\n".toList ∧
    (Line.ld (-1) ['y']).text = "    LD R0, [-1]      ; Load variable y\n".toList := by
  refine ⟨by decide, by decide, by decide, by decide⟩

/-- C11 (amended): for every program that `parseProgram` accepts, compilation
succeeds, whatever identifiers the program uses: there is no
unresolved-identifier error.  In the output every LD and every ST that names
an identifier declared nowhere in the program carries the offset -1, the
not-found result of `getVarOffset`, and every LD and ST that names a declared
identifier carries an offset from 0 to 25. -/
theorem undeclared_offset (addr : Nat → Nat) (src : List Char) (ast : ASTNode) (st : State)
    (h : parseProgram (initialState src) = .ok (ast, st)) :
    (∃ out, compile addr src = .ok out ∧
      ∀ off v, Line.ld off v ∈ out ∨ Line.st off v ∈ out →
        (v ∉ declNames ast → off = -1) ∧
        (v ∈ declNames ast → 0 ≤ off ∧ off < (MAX_VARS : Int))) ∧
    (∀ (tbl : List (List Char)) (k : Nat) (v : List Char), v ∉ tbl →
      generateExpression tbl (identifierNode k v) = .ok [Line.ld (-1) v]) ∧
    (∀ (tbl : List (List Char)) (k : Nat) (v : List Char) (e : ASTNode) (o : List Line),
      v ∉ tbl → generateExpression tbl e = .ok o →
      generateCode addr tbl (assignNode k v e) =
        .ok ([Line.assignment v] ++ o ++ [Line.st (-1) v])) := by
  obtain ⟨h1, h2⟩ := parseProgram_varTable h
  obtain ⟨out, ho, hg⟩ := compile_parsed addr h
  have hres := generateCode_lines addr st.varTable ast out hg
  have key : ∀ off v, off = getVarOffset st.varTable v →
      (v ∉ declNames ast → off = -1) ∧
      (v ∈ declNames ast → 0 ≤ off ∧ off < (MAX_VARS : Int)) := by
    intro off v hoff
    rw [← h1]
    rcases getVarOffset_spec st.varTable v with ⟨h3, h4⟩ | ⟨i, h3, h4⟩
    · exact ⟨fun _ => by rw [hoff, h4], fun hv => absurd hv h3⟩
    · refine ⟨fun hv => absurd (isFirst_mem h3) hv, fun _ => ?_⟩
      have hi := isFirst_lt h3
      rw [State.varCount] at h2
      rw [hoff, h4]
      constructor
      · exact Int.natCast_nonneg i
      · exact_mod_cast Nat.lt_of_lt_of_le hi h2
  refine ⟨⟨out, ho, ?_⟩, ?_, ?_⟩
  · rintro off v (hm | hm)
    · exact key off v (hres _ hm)
    · exact key off v (hres _ hm)
  · intro tbl k v hv
    rcases getVarOffset_spec tbl v with ⟨-, h4⟩ | ⟨i, h3, -⟩
    · simp [identifierNode, createData, generateExpression, h4]
    · exact absurd (isFirst_mem h3) hv
  · intro tbl k v e o hv he
    rcases getVarOffset_spec tbl v with ⟨-, h4⟩ | ⟨i, h3, -⟩
    · simp [assignNode, createData, generateCode, he, h4]
    · exact absurd (isFirst_mem h3) hv

/-- C11 (amended), at `y = 1;`. -/
theorem undeclared_offset_witness :
    (∃ out, compile id "y = 1;".toList = .ok out ∧
      ∀ off v, Line.ld off v ∈ out ∨ Line.st off v ∈ out →
        (v ∉ declNames (programNode 0 (assignNode 1 ['y'] (numberNode 2 1))) → off = -1) ∧
        (v ∈ declNames (programNode 0 (assignNode 1 ['y'] (numberNode 2 1))) →
          0 ≤ off ∧ off < (MAX_VARS : Int))) ∧
    (∀ (tbl : List (List Char)) (k : Nat) (v : List Char), v ∉ tbl →
      generateExpression tbl (identifierNode k v) = .ok [Line.ld (-1) v]) ∧
    (∀ (tbl : List (List Char)) (k : Nat) (v : List Char) (e : ASTNode) (o : List Line),
      v ∉ tbl → generateExpression tbl e = .ok o →
      generateCode id tbl (assignNode k v e) =
        .ok ([Line.assignment v] ++ o ++ [Line.st (-1) v])) :=
  undeclared_offset id "y = 1;".toList (programNode 0 (assignNode 1 ['y'] (numberNode 2 1)))
    (getNextToken (getNextToken (getNextToken (getNextToken (getNextToken
      (initialState "y = 1;".toList).alloc).alloc).alloc))) (by decide)

/-! ## The 27th declaration -/

theorem parseVarDecl_full (st : State)
    (h1 : (getNextToken st).currentToken.type = TokenType.TOKEN_IDENTIFIER)
    (h2 : MAX_VARS ≤ st.varCount) :
    parseVarDecl st =
      .error (.undefined "strcpy to varTable[varCount] with varCount >= MAX_VARS") := by
  have h3 : MAX_VARS ≤ (getNextToken st).varCount := h2
  unfold parseVarDecl
  simp only [h1, ne_eq, not_true_eq_false, ↓reduceIte, h3]

theorem parseStatement_overflow {skip : TokenType → Prop} (hskip : ∀ t, skip t → NotStart t)
    {ts : List TokenType} (hs : GStmt skip ts) :
    ∀ (fuel : Nat) (st : State) (rest : List TokenType), remaining st = ts ++ rest →
      Fuelled fuel st → st.varTable.length ≤ MAX_VARS →
      MAX_VARS < st.varTable.length + ts.count TokenType.TOKEN_INT →
      parseStatement fuel st =
        .error (.undefined "strcpy to varTable[varCount] with varCount >= MAX_VARS") := by
  induction hs with
  | varDecl =>
    intro fuel st rest h _ hle hcap
    simp only [List.cons_append, List.nil_append] at h
    obtain ⟨a1, -, a3⟩ := remaining_cons h
    obtain ⟨b1, -, -⟩ := remaining_cons a3
    have : List.count TokenType.TOKEN_INT [TokenType.TOKEN_INT, TokenType.TOKEN_IDENTIFIER,
      TokenType.TOKEN_SEMICOLON] = 1 := by decide
    rw [parseStatement_int _ _ a1]
    exact parseVarDecl_full st b1 (by rw [State.varCount]; omega)
  | @assign e he =>
    intro fuel st rest h _ hle hcap
    have hcount := (gexpr_counts he).2.1
    simp [List.count_cons, List.count_append, hcount] at hcap
    omega
  | @ifStmt a b s ha hb _ ih =>
    intro fuel st rest h hf hle hcap
    simp only [List.cons_append, List.nil_append, List.append_assoc] at h
    obtain ⟨a1, an, a3⟩ := remaining_cons h
    have hlen : st.input.length < fuel := hf an
    cases fuel with
    | zero => omega
    | succ f =>
      obtain ⟨b1, -, b3⟩ := remaining_cons a3
      rw [← remaining_next_alloc] at b3
      obtain ⟨x, st2, p1, p2, p3⟩ := parseExpression_complete ha b3 (by decide) (by decide)
      obtain ⟨c1, -, c3⟩ := remaining_cons p2
      obtain ⟨y, st3, q1, q2, q3⟩ := parseExpression_complete hb c3 (by decide) (by decide)
      obtain ⟨d1, -, d3⟩ := remaining_cons q2
      rw [← remaining_next_alloc] at d3
      obtain ⟨e1, -, e3⟩ := remaining_cons d3
      have l1 := getNextToken_length_le st
      have l2 := getNextToken_length_le (getNextToken st).alloc
      have l3 := parseExpression_length p1
      have l4 := getNextToken_length_le st2
      have l5 := parseExpression_length q1
      have l6 := getNextToken_length_le st3.alloc
      simp only [alloc_input] at l2 l6
      have hvt : (getNextToken (getNextToken st3.alloc)).varTable = st.varTable := by
        simp only [getNextToken_varTable, alloc_varTable, q3, p3]
      have hca := (gexpr_counts ha).2.1
      have hcb := (gexpr_counts hb).2.1
      have hcount : List.count TokenType.TOKEN_INT (TokenType.TOKEN_IF ::
          TokenType.TOKEN_LPAREN :: (a ++ TokenType.TOKEN_EQUAL ::
            (b ++ TokenType.TOKEN_RPAREN :: TokenType.TOKEN_LBRACE ::
              (s ++ [TokenType.TOKEN_RBRACE])))) = List.count TokenType.TOKEN_INT s := by
        simp [List.count_cons, List.count_append, hca, hcb]
      rw [hcount] at hcap
      have hbody := ih f (getNextToken (getNextToken st3.alloc)) _ e3
        (getNextToken_fuelled f _ (by omega)) (by rw [hvt]; exact hle) (by rw [hvt]; exact hcap)
      rw [parseStatement_if_succ _ _ a1]
      exact parseIf_body_error _ st st2 st3 x y _ b1 p1 c1 q1 d1 e1 hbody
  | skipped t ht =>
    intro fuel st rest h _ hle hcap
    obtain ⟨n1, -, -⟩ := hskip t ht
    simp [List.count_cons, n1] at hcap
    omega

theorem parseProgramLoop_overflow {skip : TokenType → Prop}
    (hskip : ∀ t, skip t → NotStart t) {ts : List TokenType} (hp : GProgram skip ts) :
    ∀ (fuel : Nat) (st : State), remaining st = ts → Fuelled fuel st →
      st.varTable.length ≤ MAX_VARS →
      MAX_VARS < st.varTable.length + ts.count TokenType.TOKEN_INT →
      parseProgramLoop fuel st =
        .error (.undefined "strcpy to varTable[varCount] with varCount >= MAX_VARS") := by
  induction hp with
  | nil =>
    intro fuel st _ _ hle hcap
    simp at hcap
    omega
  | @cons s p hs _ ih =>
    intro fuel st h hf hle hcap
    rw [List.count_append] at hcap
    have hne : st.currentToken.type ≠ TokenType.TOKEN_EOF := by
      intro he
      rw [remaining_eof st he] at h
      exact gstmt_ne_nil hs (List.append_eq_nil.1 h.symm).1
    have hlen := hf hne
    cases fuel with
    | zero => omega
    | succ f =>
      by_cases hroom : st.varTable.length + s.count TokenType.TOKEN_INT ≤ MAX_VARS
      · obtain ⟨n, st1, p1, p2, p3⟩ :=
          parseStatement_complete hskip hs (f + 1) st p h hf hroom
        obtain ⟨s0, hs0, hs1⟩ := parseStatement_length _ p1
        have hf1 : Fuelled f st1 := by
          rw [hs0]
          exact getNextToken_fuelled f s0 (by omega)
        exact parseProgramLoop_later_error f st st1 n _ hne p1
          (ih f st1 p2 hf1 (by omega) (by omega))
      · exact parseProgramLoop_error f st _ hne
          (parseStatement_overflow hskip hs (f + 1) st p h hf hle (by omega))

/-- A source text whose token sequence is derivable from the grammar, also
with skipped tokens, and has more than 26 `int` tokens: the parse reaches a
declaration with the table full. -/
theorem parseProgram_overflow {skip : TokenType → Prop} (hskip : ∀ t, skip t → NotStart t)
    (src : List Char) (hp : GProgram skip (tokenTypes src))
    (hcount : MAX_VARS < (tokenTypes src).count TokenType.TOKEN_INT) :
    parseProgram (initialState src) =
      .error (.undefined "strcpy to varTable[varCount] with varCount >= MAX_VARS") :=
  parseProgram_error _ _ (parseProgramLoop_overflow hskip hp
    ((getNextToken (initialState src).alloc).input.length + 1)
    (getNextToken (initialState src).alloc) (tokenTypes_eq src).symm
    (fun _ => Nat.lt_succ_self _) (by simp [initialState])
    (by simpa [initialState] using hcount))

theorem gprogram_decls (skip : TokenType → Prop) (n : Nat) :
    GProgram skip (List.replicate n [TokenType.TOKEN_INT, TokenType.TOKEN_IDENTIFIER,
      TokenType.TOKEN_SEMICOLON]).flatten := by
  induction n with
  | zero => exact GProgram.nil
  | succ n ih =>
    rw [List.replicate_succ, List.flatten_cons]
    exact GProgram.cons GStmt.varDecl ih

theorem parseProgramLoop_table {skip : TokenType → Prop}
    (hskip : ∀ t, skip t → NotStart t) {ts : List TokenType} (hp : GProgram skip ts) :
    ∀ (fuel : Nat) (st : State), remaining st = ts → Fuelled fuel st →
      st.varTable.length + ts.count TokenType.TOKEN_INT ≤ MAX_VARS →
      ∃ chain st', parseProgramLoop fuel st = .ok (chain, st') ∧
        st'.varTable.length = st.varTable.length + ts.count TokenType.TOKEN_INT := by
  induction hp with
  | nil =>
    intro fuel st h _ _
    exact ⟨.null, st, parseProgramLoop_eof _ _ (remaining_nil h), by simp⟩
  | @cons s p hs _ ih =>
    intro fuel st h hf hcap
    rw [List.count_append] at hcap ⊢
    have hne : st.currentToken.type ≠ TokenType.TOKEN_EOF := by
      intro he
      rw [remaining_eof st he] at h
      exact gstmt_ne_nil hs (List.append_eq_nil.1 h.symm).1
    have hlen := hf hne
    obtain ⟨n, st1, p1, p2, p3⟩ := parseStatement_complete hskip hs fuel st p h hf (by omega)
    cases fuel with
    | zero => omega
    | succ f =>
      obtain ⟨s0, hs0, hs1⟩ := parseStatement_length _ p1
      have hf1 : Fuelled f st1 := by
        rw [hs0]
        exact getNextToken_fuelled f s0 (by omega)
      obtain ⟨chain, st2, q1, q2⟩ := ih f st1 p2 hf1 (by omega)
      exact ⟨link n chain, st2, by rw [parseProgramLoop_succ _ _ hne, p1]; simp only [q1],
        by omega⟩

/-- A source text whose token sequence is derivable from the grammar and has
at most 26 `int` tokens: every `int` token fills one row of the table. -/
theorem parseProgram_table {skip : TokenType → Prop} (hskip : ∀ t, skip t → NotStart t)
    (src : List Char) (hp : GProgram skip (tokenTypes src))
    (hcount : (tokenTypes src).count TokenType.TOKEN_INT ≤ MAX_VARS) :
    ∃ ast st, parseProgram (initialState src) = .ok (ast, st) ∧
      st.varCount = (tokenTypes src).count TokenType.TOKEN_INT := by
  obtain ⟨chain, st, h, hl⟩ := parseProgramLoop_table hskip hp
    ((getNextToken (initialState src).alloc).input.length + 1)
    (getNextToken (initialState src).alloc) (tokenTypes_eq src).symm
    (fun _ => Nat.lt_succ_self _) (by simpa [initialState] using hcount)
  refine ⟨programNode (initialState src).nalloc chain, st, ?_, ?_⟩
  · unfold parseProgram
    simp only [h]
  · simpa [State.varCount, initialState] using hl

set_option maxRecDepth 100000 in
/-- C12 (the code at the failing input): the 26 declarations
`int a; ... int z;` are parsed and fill the table (`varCount` is 26); with a
27th declaration `int aa;` after them `parseVarDecl` executes
`strcpy(varTable[varCount++], ...)` with `varCount` equal to 26, a write past
the last row of `varTable`: no table-overflow error is reported, the behaviour
is undefined.  The same holds for every source text whose token sequence is
derivable from the grammar and has more than 26 `int` tokens, and in every
state in which the table is full and `int` is followed by an identifier. -/
theorem varTable_overflow_unchecked :
    (∃ ast st, parseProgram (initialState
        ("int a; int b; int c; int d; int e; int f; int g; int h; int i; int j; int k; int l; " ++
         "int m; int n; int o; int p; int q; int r; int s; int t; int u; int v; int w; int x; " ++
         "int y; int z;").toList)
          = .ok (ast, st) ∧ st.varCount = MAX_VARS) ∧
    parseProgram (initialState
        ("int a; int b; int c; int d; int e; int f; int g; int h; int i; int j; int k; int l; " ++
         "int m; int n; int o; int p; int q; int r; int s; int t; int u; int v; int w; int x; " ++
         "int y; int z; int aa;").toList)
      = .error (.undefined "strcpy to varTable[varCount] with varCount >= MAX_VARS") ∧
    (∀ addr : Nat → Nat, compile addr
        ("int a; int b; int c; int d; int e; int f; int g; int h; int i; int j; int k; int l; " ++
         "int m; int n; int o; int p; int q; int r; int s; int t; int u; int v; int w; int x; " ++
         "int y; int z; int aa;").toList
      = .error (.undefined "strcpy to varTable[varCount] with varCount >= MAX_VARS")) ∧
    (∀ (addr : Nat → Nat) (src : List Char), GProgram NoSkip (tokenTypes src) →
      MAX_VARS < (tokenTypes src).count TokenType.TOKEN_INT →
      compile addr src =
        .error (.undefined "strcpy to varTable[varCount] with varCount >= MAX_VARS")) ∧
    (∀ (fuel : Nat) (st : State), st.currentToken.type = TokenType.TOKEN_INT →
      (getNextToken st).currentToken.type = TokenType.TOKEN_IDENTIFIER →
      MAX_VARS ≤ st.varCount →
      parseStatement fuel st =
        .error (.undefined "strcpy to varTable[varCount] with varCount >= MAX_VARS")) := by
  have t26 : tokenTypes
      ("int a; int b; int c; int d; int e; int f; int g; int h; int i; int j; int k; int l; " ++
       "int m; int n; int o; int p; int q; int r; int s; int t; int u; int v; int w; int x; " ++
       "int y; int z;").toList =
      (List.replicate 26 [TokenType.TOKEN_INT, TokenType.TOKEN_IDENTIFIER,
        TokenType.TOKEN_SEMICOLON]).flatten := by decide
  have t27 : tokenTypes
      ("int a; int b; int c; int d; int e; int f; int g; int h; int i; int j; int k; int l; " ++
       "int m; int n; int o; int p; int q; int r; int s; int t; int u; int v; int w; int x; " ++
       "int y; int z; int aa;").toList =
      (List.replicate 27 [TokenType.TOKEN_INT, TokenType.TOKEN_IDENTIFIER,
        TokenType.TOKEN_SEMICOLON]).flatten := by decide
  have hno : ∀ t, NoSkip t → NotStart t := fun _ ht => False.elim ht
  have h27 := parseProgram_overflow hno _ (t27 ▸ gprogram_decls NoSkip 27)
    (by rw [t27]; decide)
  refine ⟨?_, h27, fun addr => compile_error addr _ _ h27, fun addr src hg hc =>
    compile_error addr src _ (parseProgram_overflow hno src hg hc), fun fuel st h1 h2 h3 => ?_⟩
  · obtain ⟨ast, st, h1, h2⟩ := parseProgram_table hno _ (t26 ▸ gprogram_decls NoSkip 26)
      (by rw [t26]; decide)
    refine ⟨ast, st, h1, ?_⟩
    rw [h2, t26]
    decide
  · rw [parseStatement_int _ _ h1]
    exact parseVarDecl_full st h2 h3

/-! ## Label names -/

theorem eraseAddr_exprLine {l : Line} (h : l.isExprLine = true) : l.eraseAddr = l := by
  cases l <;> first | rfl | cases h

theorem generateExpression_eraseAddr {tbl : List (List Char)} {e : ASTNode} {o : List Line}
    (h : generateExpression tbl e = .ok o) : o.map Line.eraseAddr = o := by
  have := generateExpression_lines tbl e o h
  conv_rhs => rw [← List.map_id o]
  exact List.map_congr_left (fun l hl => eraseAddr_exprLine (this l hl).1)

theorem generateCode_eraseAddr (addr : Nat → Nat) (tbl : List (List Char)) (n : ASTNode) :
    Except.map (List.map Line.eraseAddr) (generateCode addr tbl n) =
      generateCode (fun _ => 0) tbl n := by
  induction n with
  | null => rfl
  | node d left right c b n _ _ _ ihb ihn =>
    obtain ⟨id, type, name, value, op⟩ := d
    cases type
    case NODE_PROGRAM =>
      simp only [generateCode]
      rw [← ihn]
      cases generateCode addr tbl n <;> simp [Except.map, Line.eraseAddr]
    case NODE_VAR_DECL =>
      simp only [generateCode]
      rw [← ihn]
      cases generateCode addr tbl n <;> simp [Except.map, Line.eraseAddr]
    case NODE_ASSIGN =>
      simp only [generateCode]
      rw [← ihn]
      cases he : generateExpression tbl right with
      | error e => rfl
      | ok o =>
        have ho := generateExpression_eraseAddr he
        cases generateCode addr tbl n <;> simp [Except.map, Line.eraseAddr, ho]
    case NODE_IF =>
      cases c with
      | null => rfl
      | node cd cl cr cc cb cn =>
        simp only [generateCode]
        rw [← ihn, ← ihb]
        cases hl : generateExpression tbl cl with
        | error e => rfl
        | ok l =>
          cases hr : generateExpression tbl cr with
          | error e => rfl
          | ok r =>
            have h1 := generateExpression_eraseAddr hl
            have h2 := generateExpression_eraseAddr hr
            cases generateCode addr tbl b with
            | error e => rfl
            | ok body =>
              cases generateCode addr tbl n <;> simp [Except.map, Line.eraseAddr, h1, h2]
    case NODE_BINARY_OP => simpa only [generateCode] using ihn
    case NODE_NUMBER => simpa only [generateCode] using ihn
    case NODE_IDENTIFIER => simpa only [generateCode] using ihn

theorem generateCode_addr (addr1 addr2 : Nat → Nat) (tbl : List (List Char)) (n : ASTNode)
    (h : ∀ k ∈ ifIds n, addr1 k = addr2 k) :
    generateCode addr1 tbl n = generateCode addr2 tbl n := by
  induction n with
  | null => rfl
  | node d left right c b n _ _ _ ihb ihn =>
    obtain ⟨id, type, name, value, op⟩ := d
    cases type
    case NODE_PROGRAM =>
      simp only [generateCode]
      rw [ihn (by simpa only [ifIds] using h)]
    case NODE_VAR_DECL =>
      simp only [generateCode]
      rw [ihn (by simpa only [ifIds] using h)]
    case NODE_ASSIGN =>
      simp only [generateCode]
      rw [ihn (by simpa only [ifIds] using h)]
    case NODE_IF =>
      simp only [ifIds, List.mem_cons, List.mem_append] at h
      cases c with
      | null => rfl
      | node cd cl cr cc cb cn =>
        simp only [generateCode]
        rw [ihn (fun k hk => h k (Or.inr (Or.inr hk))),
          ihb (fun k hk => h k (Or.inr (Or.inl hk))), h id (Or.inl rfl)]
    case NODE_BINARY_OP =>
      simp only [generateCode]
      exact ihn (by simpa only [ifIds] using h)
    case NODE_NUMBER =>
      simp only [generateCode]
      exact ihn (by simpa only [ifIds] using h)
    case NODE_IDENTIFIER =>
      simp only [generateCode]
      exact ihn (by simpa only [ifIds] using h)

theorem compile_eraseAddr (addr : Nat → Nat) (src : List Char) :
    Except.map (List.map Line.eraseAddr) (compile addr src) = compile (fun _ => 0) src := by
  unfold compile
  cases parseProgram (initialState src) with
  | error e => rfl
  | ok r => exact generateCode_eraseAddr addr r.2.varTable r.1

set_option maxRecDepth 100000 in
/-- C13 (as stated, refuted): two compilations of `if (1 == 2) { x = 1; }`
in which `malloc` places the nodes at different addresses (160 bytes apart
from 0x5000 on in one run, from 0x7000 on in the other) write different bytes:
the label names differ. -/
theorem labels_not_deterministic :
    ∃ o1 o2, compile (fun k => 0x5000 + 160 * k) "if (1 == 2) \x7b x = 1; \x7d".toList = .ok o1 ∧
      compile (fun k => 0x7000 + 160 * k) "if (1 == 2) \x7b x = 1; \x7d".toList = .ok o2 ∧
      Line.label 0x50a0 ∈ o1 ∧ Line.label 0x70a0 ∈ o2 ∧
      (Line.label 0x50a0).text = "skip_0x50a0:\n".toList ∧
      (Line.label 0x70a0).text = "skip_0x70a0:\n".toList ∧
      render o1 ≠ render o2 := by
  refine ⟨_, _, rfl, rfl, by decide, by decide, by decide, by decide, by decide⟩

/-- C13 (amended): for every input text the output is a function of the text
and of the addresses at which `malloc` placed the If nodes, which `%p` prints
in the label names.  Two compilations of the same text end in the same way
(both with the same error, or both with output) and agree in every line once
the addresses in the JNE and label lines are put aside; they produce identical
output when the If nodes of the tree are at the same addresses, in particular
when the program has no `if` statement. -/
theorem labels_depend_on_addresses (addr1 addr2 : Nat → Nat) (src : List Char) :
    Except.map (List.map Line.eraseAddr) (compile addr1 src) =
      Except.map (List.map Line.eraseAddr) (compile addr2 src) ∧
    (∀ e, compile addr1 src = .error e → compile addr2 src = .error e) ∧
    (∀ o1, compile addr1 src = .ok o1 → ∃ o2, compile addr2 src = .ok o2 ∧
      o1.length = o2.length ∧ o1.map Line.eraseAddr = o2.map Line.eraseAddr) ∧
    (∀ ast st, parseProgram (initialState src) = .ok (ast, st) →
      (∀ k ∈ ifIds ast, addr1 k = addr2 k) →
      compile addr1 src = compile addr2 src ∧
      Except.map render (compile addr1 src) = Except.map render (compile addr2 src)) := by
  have h0 : Except.map (List.map Line.eraseAddr) (compile addr1 src) =
      Except.map (List.map Line.eraseAddr) (compile addr2 src) := by
    rw [compile_eraseAddr, compile_eraseAddr]
  refine ⟨h0, fun e he => ?_, fun o1 ho => ?_, fun ast st hp hk => ?_⟩
  · rw [he] at h0
    cases h2 : compile addr2 src with
    | error e2 =>
      rw [h2] at h0
      simpa [Except.map] using h0.symm
    | ok o2 =>
      rw [h2] at h0
      simp [Except.map] at h0
  · rw [ho] at h0
    cases h2 : compile addr2 src with
    | error e2 =>
      rw [h2] at h0
      simp [Except.map] at h0
    | ok o2 =>
      rw [h2] at h0
      simp only [Except.map, Except.ok.injEq] at h0
      exact ⟨o2, rfl, by simpa using congrArg List.length h0, h0⟩
  · have : compile addr1 src = compile addr2 src := by
      unfold compile
      rw [hp]
      exact generateCode_addr addr1 addr2 st.varTable ast hk
    exact ⟨this, by rw [this]⟩

/-! ## The scanner: blank prefixes, words, numbers -/

theorem skipBlank_blankPrefix {p : List Char} (hp : BlankPrefix p) (s : List Char) :
    skipBlank (p ++ s) = skipBlank s := by
  induction hp with
  | nil => rfl
  | space c rest hc _ ih => rw [List.cons_append, skipBlank_space c _ hc, ih]
  | comment body rest hb _ ih =>
    have : '/' :: '/' :: (body ++ '\n' :: rest) ++ s = '/' :: '/' :: (body ++ '\n' :: (rest ++ s)) := by
      simp
    rw [this, skipBlank_comment, skipLine_body body _ hb, ih]

theorem scan_blankPrefix (old : Token) {p : List Char} (hp : BlankPrefix p) (s : List Char) :
    scan old (p ++ s) = scan old s := by
  simp only [scan, skipBlank_blankPrefix hp s]

theorem skipBlank_slash (rest : List Char) (h : ∀ c ∈ rest.head?, c ≠ '/') :
    skipBlank ('/' :: rest) = (some '/', rest) := by
  rw [skipBlank_cons]
  cases rest with
  | nil => simp [show isspace '/' = false by decide]
  | cons c cs =>
    have : c ≠ '/' := h c (by simp)
    simp [show isspace '/' = false by decide, this]

theorem scan_slash (old : Token) (rest : List Char) (h : ∀ c ∈ rest.head?, c ≠ '/') :
    scan old ('/' :: rest) =
      ({ type := TokenType.TOKEN_UNKNOWN, text := ['/'], value := old.value }, rest) := by
  simp only [scan, skipBlank_slash rest h, show isalpha '/' = false by decide,
    show isdigit '/' = false by decide]
  simp [show symbolType '/' = TokenType.TOKEN_UNKNOWN by decide,
    show charText '/' = ['/'] by decide]

theorem readRun_full (p : Char → Bool) (run rest : List Char) (len : Nat)
    (hrun : ∀ c ∈ run, p c = true) (hlen : len + run.length = MAX_TOKEN_LEN - 1) :
    readRun p len (run ++ rest) = (run, rest) := by
  induction run generalizing len with
  | nil =>
    have hl : ¬ len < MAX_TOKEN_LEN - 1 := by simp only [List.length_nil] at hlen; omega
    cases rest with
    | nil => rfl
    | cons c cs => simp [readRun, hl]
  | cons c cs ih =>
    have h1 : p c = true := hrun c (List.mem_cons_self _ _)
    have h2 : len < MAX_TOKEN_LEN - 1 := by simp only [List.length_cons] at hlen; omega
    have h3 := ih (len + 1) (fun x hx => hrun x (List.mem_cons_of_mem _ hx))
      (by simp only [List.length_cons] at hlen; omega)
    simp [readRun, h1, h2, h3]

theorem wordType_long (w : List Char) (h : 3 < w.length) :
    wordType w = TokenType.TOKEN_IDENTIFIER := by
  have h1 : w ≠ ['i', 'n', 't'] := by
    intro e
    rw [e] at h
    simp at h
  have h2 : w ≠ ['i', 'f'] := by
    intro e
    rw [e] at h
    simp at h
  simp [wordType, h1, h2]

theorem scan_long_word (old : Token) (c : Char) (cs rest : List Char)
    (hc : isalpha c = true) (hcs : ∀ x ∈ cs, isalnum x = true)
    (hlen : (c :: cs).length = MAX_TOKEN_LEN - 1) :
    scan old (c :: cs ++ rest) =
      ({ type := TokenType.TOKEN_IDENTIFIER, text := c :: cs, value := old.value }, rest) := by
  have h1 := isalnum_not_space (isalpha_isalnum hc)
  have h2 := isalnum_ne_slash (isalpha_isalnum hc)
  have h3 := readRun_full isalnum cs rest 1 hcs
    (by simp only [List.length_cons] at hlen; omega)
  have h4 : wordType (c :: cs) = TokenType.TOKEN_IDENTIFIER :=
    wordType_long _ (by rw [hlen]; decide)
  simp only [scan, List.cons_append, skipBlank_char c _ h1 h2, hc, ↓reduceIte, h3, h4]

theorem scan_long_number (old : Token) (c : Char) (cs rest : List Char)
    (hc : isdigit c = true) (hcs : ∀ x ∈ cs, isdigit x = true)
    (hlen : (c :: cs).length = MAX_TOKEN_LEN - 1) :
    scan old (c :: cs ++ rest) =
      ({ type := TokenType.TOKEN_NUMBER, text := c :: cs, value := atoi (c :: cs) }, rest) := by
  have h1 := isalnum_not_space (isdigit_isalnum hc)
  have h2 := isalnum_ne_slash (isdigit_isalnum hc)
  have h3 := readRun_full isdigit cs rest 1 hcs
    (by simp only [List.length_cons] at hlen; omega)
  simp [scan, skipBlank_char c _ h1 h2, hc, isdigit_not_alpha hc, h3]

/-- The first character of the text of the token that starts at a letter or
digit. -/
theorem scan_head (old : Token) (c : Char) (rest : List Char) (hc : isalnum c = true) :
    (scan old (c :: rest)).1.text.head? = some c ∧
      ((scan old (c :: rest)).1.type = TokenType.TOKEN_NUMBER ↔ isdigit c = true) := by
  have h1 := isalnum_not_space hc
  have h2 := isalnum_ne_slash hc
  by_cases ha : isalpha c = true
  · have hd : isdigit c = false := by
      cases hdd : isdigit c with
      | false => rfl
      | true => rw [isdigit_not_alpha hdd] at ha; cases ha
    simp only [scan, skipBlank_char c _ h1 h2, ha, ↓reduceIte, List.head?_cons, hd,
      true_and]
    constructor
    · intro h
      unfold wordType at h
      split at h
      · cases h
      · split at h <;> cases h
    · intro h; cases h
  · have hd : isdigit c = true := by
      simp only [isalnum, Bool.or_eq_true] at hc
      rcases hc with hc | hc
      · exact absurd hc ha
      · exact hc
    simp [scan, skipBlank_char c _ h1 h2, ha, hd]
/-! ## The identifier/keyword rule -/

/-- C14: for every lexeme `w` (a letter `c` followed by the letters and
digits `cs`, at most 99 characters in all) that stands in the unread input,
after any whitespace and comments, and is followed there by a character that
is no letter or digit or by the end of the input, `getNextToken` returns a
token whose text is `w` and whose kind is `int` iff `w` is `int`, `if` iff `w`
is `if`, and identifier otherwise, and it leaves the input at the first
character after `w`; the other globals are not touched.  So `intx`, `If` and
`if1` are identifiers. -/
theorem getNextToken_word (st : State) (p : List Char) (c : Char) (cs rest : List Char)
    (hp : BlankPrefix p) (hc : isalpha c = true) (hcs : ∀ x ∈ cs, isalnum x = true)
    (hlen : (c :: cs).length ≤ MAX_TOKEN_LEN - 1) (hrest : EndsRun isalnum rest)
    (hin : st.input = p ++ (c :: cs ++ rest)) :
    (getNextToken st).currentToken.text = c :: cs ∧
    ((getNextToken st).currentToken.type = TokenType.TOKEN_INT ↔ c :: cs = "int".toList) ∧
    ((getNextToken st).currentToken.type = TokenType.TOKEN_IF ↔ c :: cs = "if".toList) ∧
    ((getNextToken st).currentToken.type = TokenType.TOKEN_IDENTIFIER ↔
      (c :: cs ≠ "int".toList ∧ c :: cs ≠ "if".toList)) ∧
    (getNextToken st).input = rest ∧
    (getNextToken st).varTable = st.varTable ∧ (getNextToken st).nalloc = st.nalloc ∧
    wordType "intx".toList = TokenType.TOKEN_IDENTIFIER ∧
    wordType "If".toList = TokenType.TOKEN_IDENTIFIER ∧
    wordType "if1".toList = TokenType.TOKEN_IDENTIFIER := by
  have hs : scan st.currentToken st.input =
      ({ type := wordType (c :: cs), text := c :: cs, value := st.currentToken.value }, rest) := by
    rw [hin, scan_blankPrefix _ hp, scan_word _ c cs rest hc hcs hlen hrest]
  have ht : (getNextToken st).currentToken.type = wordType (c :: cs) := by
    simp only [getNextToken, hs]
  have hint : "int".toList = ['i', 'n', 't'] := rfl
  have hif : "if".toList = ['i', 'f'] := rfl
  refine ⟨by simp only [getNextToken, hs], ?_, ?_, ?_, by simp only [getNextToken, hs], rfl,
    rfl, by decide, by decide, by decide⟩
  · rw [ht, hint]
    unfold wordType
    by_cases h1 : c :: cs = ['i', 'n', 't']
    · simp [h1]
    · by_cases h2 : c :: cs = ['i', 'f']
      · simp [h2]
      · simp [h1, h2]
  · rw [ht, hif]
    unfold wordType
    by_cases h1 : c :: cs = ['i', 'n', 't']
    · simp [h1]
    · by_cases h2 : c :: cs = ['i', 'f']
      · simp [h2]
      · simp [h1, h2]
  · rw [ht, hint, hif]
    unfold wordType
    by_cases h1 : c :: cs = ['i', 'n', 't']
    · simp [h1]
    · by_cases h2 : c :: cs = ['i', 'f']
      · simp [h2]
      · simp [h1, h2]

/-- C14, at the input ` // note` newline `if1 = 2;` with `w` the lexeme `if1`. -/
theorem getNextToken_word_witness :
    (getNextToken (initialState " // note\nif1 = 2;".toList)).currentToken.text = 'i' :: "f1".toList ∧
    ((getNextToken (initialState " // note\nif1 = 2;".toList)).currentToken.type =
      TokenType.TOKEN_INT ↔ 'i' :: "f1".toList = "int".toList) ∧
    ((getNextToken (initialState " // note\nif1 = 2;".toList)).currentToken.type =
      TokenType.TOKEN_IF ↔ 'i' :: "f1".toList = "if".toList) ∧
    ((getNextToken (initialState " // note\nif1 = 2;".toList)).currentToken.type =
      TokenType.TOKEN_IDENTIFIER ↔
      ('i' :: "f1".toList ≠ "int".toList ∧ 'i' :: "f1".toList ≠ "if".toList)) ∧
    (getNextToken (initialState " // note\nif1 = 2;".toList)).input = " = 2;".toList ∧
    (getNextToken (initialState " // note\nif1 = 2;".toList)).varTable =
      (initialState " // note\nif1 = 2;".toList).varTable ∧
    (getNextToken (initialState " // note\nif1 = 2;".toList)).nalloc =
      (initialState " // note\nif1 = 2;".toList).nalloc ∧
    wordType "intx".toList = TokenType.TOKEN_IDENTIFIER ∧
    wordType "If".toList = TokenType.TOKEN_IDENTIFIER ∧
    wordType "if1".toList = TokenType.TOKEN_IDENTIFIER :=
  getNextToken_word (initialState " // note\nif1 = 2;".toList) " // note\n".toList 'i'
    "f1".toList " = 2;".toList
    (BlankPrefix.space ' ' _ (by decide)
      (BlankPrefix.comment " note".toList [] (by decide) BlankPrefix.nil))
    (by decide) (by decide) (by decide) (endsRun_cons _ _ (by decide)) rfl

/-! ## The number rule -/

theorem digitsValue_ofDigits (ds : List Char) :
    digitsValue ds = Nat.ofDigits 10 (ds.reverse.map (fun c => c.toNat - 48)) := by
  induction ds using List.reverseRecOn with
  | nil => rfl
  | append_singleton xs c ih =>
    rw [digitsValue_append, ih]
    simp only [List.reverse_append, List.reverse_cons, List.reverse_nil, List.nil_append,
      List.singleton_append, List.map_cons, Nat.ofDigits_cons]
    omega

theorem atoi_small (ds : List Char) (h : digitsValue ds < 2 ^ 31) :
    atoi ds = (digitsValue ds : Int) := by
  unfold atoi toInt32
  have : min (digitsValue ds : Int) (2 ^ 63 - 1) = digitsValue ds := by
    apply min_eq_left
    omega
  rw [this]
  omega

theorem atoi_range (ds : List Char) : -2 ^ 31 ≤ atoi ds ∧ atoi ds < 2 ^ 31 := by
  unfold atoi toInt32
  omega

theorem fmtInt_nat (v : Nat) : fmtInt (v : Int) = Nat.toDigits 10 v := by
  unfold fmtInt
  simp

/-- C15 (as stated, refuted): the run `2147483648` denotes 2147483648, which
the member `value`, an `int`, cannot hold; the token's value is another number
(with glibc's `atoi`, -2147483648), and that is what the LDI line prints. -/
theorem number_value_not_denoted :
    (scan (initialState []).currentToken "2147483648;".toList).1.type = TokenType.TOKEN_NUMBER ∧
    (scan (initialState []).currentToken "2147483648;".toList).1.text = "2147483648".toList ∧
    digitsValue "2147483648".toList = 2147483648 ∧
    (scan (initialState []).currentToken "2147483648;".toList).1.value ≠ 2147483648 ∧
    (scan (initialState []).currentToken "2147483648;".toList).1.value < 2 ^ 31 ∧
    (scan (initialState []).currentToken "2147483648;".toList).1.value = -2147483648 ∧
    (Line.ldi (scan (initialState []).currentToken "2147483648;".toList).1.value).text =
      "    LDI R0, -2147483648       ; Load immediate -2147483648\n".toList := by
  refine ⟨by decide, by decide, by decide, by decide, by decide, by decide, by decide⟩

/-- C15 (amended): for every maximal run of one or more decimal digits, of at
most 99 characters, that stands in the unread input after any whitespace and
comments, and whose value in base 10 is below 2^31 (so that an `int` holds it),
`getNextToken` returns a number token whose text is the run and whose value is
the non-negative integer the digits denote, leading zeros allowed, and leaves
the input at the first character after the run; `parseTerm` puts that value in
a Number node, and `generateExpression` prints it, in decimal, in the LDI
line. -/
theorem getNextToken_number (st : State) (p : List Char) (c : Char) (cs rest : List Char)
    (hp : BlankPrefix p) (hc : isdigit c = true) (hcs : ∀ x ∈ cs, isdigit x = true)
    (hlen : (c :: cs).length ≤ MAX_TOKEN_LEN - 1) (hrest : EndsRun isdigit rest)
    (hin : st.input = p ++ (c :: cs ++ rest)) (hv : digitsValue (c :: cs) < 2 ^ 31) :
    (getNextToken st).currentToken =
      { type := TokenType.TOKEN_NUMBER, text := c :: cs,
        value := (Nat.ofDigits 10 ((c :: cs).reverse.map (fun x => x.toNat - 48)) : Nat) } ∧
    (getNextToken st).input = rest ∧
    (∃ st', parseTerm (getNextToken st) =
      .ok (numberNode st.nalloc
        (Nat.ofDigits 10 ((c :: cs).reverse.map (fun x => x.toNat - 48)) : Nat), st')) ∧
    (∀ (tbl : List (List Char)) (k : Nat), generateExpression tbl (numberNode k
        (Nat.ofDigits 10 ((c :: cs).reverse.map (fun x => x.toNat - 48)) : Nat)) =
      .ok [Line.ldi (Nat.ofDigits 10 ((c :: cs).reverse.map (fun x => x.toNat - 48)) : Nat)]) ∧
    (Line.ldi (Nat.ofDigits 10 ((c :: cs).reverse.map (fun x => x.toNat - 48)) : Nat)).text =
      "    LDI R0, ".toList ++
        Nat.toDigits 10 (Nat.ofDigits 10 ((c :: cs).reverse.map (fun x => x.toNat - 48))) ++
        "       ; Load immediate ".toList ++
        Nat.toDigits 10 (Nat.ofDigits 10 ((c :: cs).reverse.map (fun x => x.toNat - 48))) ++
        "\n".toList := by
  rw [← digitsValue_ofDigits]
  have hs : scan st.currentToken st.input =
      ({ type := TokenType.TOKEN_NUMBER, text := c :: cs,
         value := (digitsValue (c :: cs) : Nat) }, rest) := by
    rw [hin, scan_blankPrefix _ hp, scan_number _ c cs rest hc hcs hlen hrest, atoi_small _ hv]
  have ht : (getNextToken st).currentToken =
      { type := TokenType.TOKEN_NUMBER, text := c :: cs,
        value := (digitsValue (c :: cs) : Nat) } := by
    simp only [getNextToken, hs]
  refine ⟨ht, by simp only [getNextToken, hs], ⟨getNextToken (getNextToken st).alloc, ?_⟩,
    fun tbl k => ?_, ?_⟩
  · unfold parseTerm
    rw [ht]
    simp
  · simp [numberNode, createData, generateExpression]
  · simp only [Line.text, fmtInt_nat]

/-- C15 (amended), at the input `  007+x` with the run `007`. -/
theorem getNextToken_number_witness :
    (getNextToken (initialState "  007+x".toList)).currentToken =
      { type := TokenType.TOKEN_NUMBER, text := '0' :: "07".toList,
        value := (Nat.ofDigits 10 (('0' :: "07".toList).reverse.map (fun x => x.toNat - 48)) : Nat) } ∧
    (getNextToken (initialState "  007+x".toList)).input = "+x".toList ∧
    (∃ st', parseTerm (getNextToken (initialState "  007+x".toList)) =
      .ok (numberNode (initialState "  007+x".toList).nalloc
        (Nat.ofDigits 10 (('0' :: "07".toList).reverse.map (fun x => x.toNat - 48)) : Nat), st')) ∧
    (∀ (tbl : List (List Char)) (k : Nat), generateExpression tbl (numberNode k
        (Nat.ofDigits 10 (('0' :: "07".toList).reverse.map (fun x => x.toNat - 48)) : Nat)) =
      .ok [Line.ldi (Nat.ofDigits 10 (('0' :: "07".toList).reverse.map (fun x => x.toNat - 48)) : Nat)]) ∧
    (Line.ldi (Nat.ofDigits 10 (('0' :: "07".toList).reverse.map (fun x => x.toNat - 48)) : Nat)).text =
      "    LDI R0, ".toList ++
        Nat.toDigits 10 (Nat.ofDigits 10 (('0' :: "07".toList).reverse.map (fun x => x.toNat - 48))) ++
        "       ; Load immediate ".toList ++
        Nat.toDigits 10 (Nat.ofDigits 10 (('0' :: "07".toList).reverse.map (fun x => x.toNat - 48))) ++
        "\n".toList :=
  getNextToken_number (initialState "  007+x".toList) "  ".toList '0' "07".toList "+x".toList
    (BlankPrefix.space ' ' _ (by decide) (BlankPrefix.space ' ' _ (by decide) BlankPrefix.nil))
    (by decide) (by decide) (by decide) (endsRun_digit (endsRun_cons _ _ (by decide))) rfl
    (by decide)

/-! ## Runs longer than a token -/

set_option maxRecDepth 100000 in
/-- C16 (as stated, refuted): on a run of 100 letters `a` followed by `;` the
first token is the identifier made of 99 letters, and the 100th letter is not
dropped: it stays unread, and the next token is the identifier `a`, not `;`. -/
theorem long_run_not_dropped :
    (getNextToken (initialState (List.replicate 100 'a' ++ [';']))).currentToken.type =
      TokenType.TOKEN_IDENTIFIER ∧
    (getNextToken (initialState (List.replicate 100 'a' ++ [';']))).currentToken.text =
      List.replicate 99 'a' ∧
    (getNextToken (initialState (List.replicate 100 'a' ++ [';']))).input = ['a', ';'] ∧
    (getNextToken (getNextToken (initialState (List.replicate 100 'a' ++ [';'])))).currentToken.type =
      TokenType.TOKEN_IDENTIFIER ∧
    (getNextToken (getNextToken (initialState (List.replicate 100 'a' ++ [';'])))).currentToken.text =
      ['a'] ∧
    (getNextToken (getNextToken (initialState (List.replicate 100 'a' ++ [';'])))).currentToken.type ≠
      TokenType.TOKEN_SEMICOLON := by
  have hs : scan { type := TokenType.TOKEN_INT, text := [], value := 0 }
      (List.replicate 100 'a' ++ [';']) =
      ({ type := TokenType.TOKEN_IDENTIFIER, text := List.replicate 99 'a', value := 0 },
        ['a', ';']) :=
    scan_long_word _ 'a' (List.replicate 98 'a') ['a', ';'] (by decide)
      (fun x hx => by rw [List.eq_of_mem_replicate hx]; decide) (by decide)
  have h1 : getNextToken (initialState (List.replicate 100 'a' ++ [';'])) =
      { input := ['a', ';'],
        currentToken := { type := TokenType.TOKEN_IDENTIFIER, text := List.replicate 99 'a',
                          value := 0 },
        varTable := [], nalloc := 0 } := by
    simp only [getNextToken, initialState, hs]
  rw [h1]
  refine ⟨rfl, rfl, rfl, by decide, by decide, by decide⟩

/-- C16 (amended): for every run of more than 99 alphanumeric characters that
starts with a letter (or of more than 99 digits), standing in the unread input
after any whitespace and comments, `getNextToken` returns one identifier token
(number token) whose text is the first 99 characters of the run, and the
characters of the run beyond the 99th are not consumed: the input is left at
the 100th character of the run, and the next token returned starts with that
character. -/
theorem getNextToken_long_run (st : State) (p : List Char) (c : Char) (cs : List Char)
    (x : Char) (rest : List Char) (hp : BlankPrefix p)
    (hrun : (isalpha c = true ∧ ∀ y ∈ cs ++ [x], isalnum y = true) ∨
      (∀ y ∈ c :: cs ++ [x], isdigit y = true))
    (hlen : (c :: cs).length = MAX_TOKEN_LEN - 1)
    (hin : st.input = p ++ (c :: cs ++ x :: rest)) :
    (getNextToken st).currentToken.text = c :: cs ∧
    (getNextToken st).currentToken.type =
      (if isalpha c then TokenType.TOKEN_IDENTIFIER else TokenType.TOKEN_NUMBER) ∧
    (getNextToken st).input = x :: rest ∧
    (getNextToken (getNextToken st)).currentToken.text.head? = some x := by
  rcases hrun with ⟨hc, hall⟩ | hall
  · have hs : scan st.currentToken st.input =
        ({ type := TokenType.TOKEN_IDENTIFIER, text := c :: cs,
           value := st.currentToken.value }, x :: rest) := by
      rw [hin, scan_blankPrefix _ hp]
      exact scan_long_word _ c cs (x :: rest) hc
        (fun y hy => hall y (List.mem_append_left _ hy)) hlen
    have hx : isalnum x = true := hall x (by simp)
    have hi : (getNextToken st).input = x :: rest := by simp only [getNextToken, hs]
    refine ⟨by simp only [getNextToken, hs], by simp only [getNextToken, hs, hc, ↓reduceIte],
      hi, ?_⟩
    rw [getNextToken, hi]
    exact (scan_head (getNextToken st).currentToken x rest hx).1
  · have hc : isdigit c = true := hall c (by simp)
    have hs : scan st.currentToken st.input =
        ({ type := TokenType.TOKEN_NUMBER, text := c :: cs, value := atoi (c :: cs) },
          x :: rest) := by
      rw [hin, scan_blankPrefix _ hp]
      exact scan_long_number _ c cs (x :: rest) hc
        (fun y hy => hall y (by simp [hy])) hlen
    have hx : isalnum x = true := isdigit_isalnum (hall x (by simp))
    have hi : (getNextToken st).input = x :: rest := by simp only [getNextToken, hs]
    refine ⟨by simp only [getNextToken, hs],
      by simp [getNextToken, hs, isdigit_not_alpha hc], hi, ?_⟩
    rw [getNextToken, hi]
    exact (scan_head (getNextToken st).currentToken x rest hx).1

/-- C16 (amended), at 100 letters `a` followed by `;`. -/
theorem getNextToken_long_run_witness :
    (getNextToken (initialState (List.replicate 100 'a' ++ [';']))).currentToken.text =
      'a' :: List.replicate 98 'a' ∧
    (getNextToken (initialState (List.replicate 100 'a' ++ [';']))).currentToken.type =
      (if isalpha 'a' then TokenType.TOKEN_IDENTIFIER else TokenType.TOKEN_NUMBER) ∧
    (getNextToken (initialState (List.replicate 100 'a' ++ [';']))).input = 'a' :: [';'] ∧
    (getNextToken (getNextToken (initialState (List.replicate 100 'a' ++ [';'])))).currentToken.text.head? =
      some 'a' :=
  getNextToken_long_run (initialState (List.replicate 100 'a' ++ [';'])) [] 'a'
    (List.replicate 98 'a') 'a' [';'] BlankPrefix.nil
    (Or.inl ⟨by decide, fun y hy => by
      rcases List.mem_append.1 hy with h | h
      · rw [List.eq_of_mem_replicate h]; decide
      · rw [List.mem_singleton.1 h]; decide⟩)
    (by decide) (by decide)

/-! ## Comments and the bare `/` -/

theorem scan_comment (old : Token) (body s : List Char) (hbody : ∀ c ∈ body, c ≠ '\n') :
    scan old ('/' :: '/' :: (body ++ '\n' :: s)) = scan old s := by
  have := scan_blankPrefix old (BlankPrefix.comment body [] hbody BlankPrefix.nil) s
  simpa using this

theorem scan_last_comment (old : Token) (body : List Char) (hbody : ∀ c ∈ body, c ≠ '\n') :
    scan old ('/' :: '/' :: body) =
      ({ type := TokenType.TOKEN_EOF, text := [], value := old.value }, []) := by
  simp only [scan, skipBlank_comment, skipLine_last body hbody]

/-- C17: a `/` that is immediately followed by a second `/` starts a
comment, and everything up to and including the next newline, or up to the end
of the input when no newline follows, is skipped; for every input `s` and
every prefix `p` made of whitespace and such comments, `getNextToken` on `p`
followed by `s` returns the same token and leaves the same input as on `s`
alone.  A `/` that is not followed by `/`, also one that is the last character
of the input, yields an unrecognized-character token with the text `/`, and
the character after it stays unread. -/
theorem getNextToken_comments (st : State) (p s body rest : List Char)
    (hp : BlankPrefix p) (hbody : ∀ c ∈ body, c ≠ '\n') (hrest : ∀ c ∈ rest.head?, c ≠ '/') :
    getNextToken { st with input := p ++ s } = getNextToken { st with input := s } ∧
    getNextToken { st with input := '/' :: '/' :: (body ++ '\n' :: s) } =
      getNextToken { st with input := s } ∧
    getNextToken { st with input := '/' :: '/' :: body } =
      { st with input := [],
                currentToken := { type := TokenType.TOKEN_EOF, text := [],
                                  value := st.currentToken.value } } ∧
    getNextToken { st with input := p ++ '/' :: '/' :: body } =
      { st with input := [],
                currentToken := { type := TokenType.TOKEN_EOF, text := [],
                                  value := st.currentToken.value } } ∧
    getNextToken { st with input := '/' :: rest } =
      { st with input := rest,
                currentToken := { type := TokenType.TOKEN_UNKNOWN, text := ['/'],
                                  value := st.currentToken.value } } ∧
    getNextToken { st with input := ['/'] } =
      { st with input := [],
                currentToken := { type := TokenType.TOKEN_UNKNOWN, text := ['/'],
                                  value := st.currentToken.value } } ∧
    getNextToken { st with input := p ++ '/' :: rest } =
      { st with input := rest,
                currentToken := { type := TokenType.TOKEN_UNKNOWN, text := ['/'],
                                  value := st.currentToken.value } } := by
  refine ⟨?_, ?_, ?_, ?_, ?_, ?_, ?_⟩
  · simp only [getNextToken, scan_blankPrefix _ hp]
  · simp only [getNextToken, scan_comment _ body s hbody]
  · simp only [getNextToken, scan_last_comment _ body hbody]
  · simp only [getNextToken, scan_blankPrefix _ hp, scan_last_comment _ body hbody]
  · simp only [getNextToken, scan_slash _ rest hrest]
  · simp only [getNextToken, scan_slash _ [] (by simp)]
  · simp only [getNextToken, scan_blankPrefix _ hp, scan_slash _ rest hrest]

/-- C17, with the prefix ` // a` newline tab, the input `x = 1;`, the comment
body ` b` and `2` after the bare `/`. -/
theorem getNextToken_comments_witness :
    getNextToken { initialState [] with input := " // a\n\t".toList ++ "x = 1;".toList } =
      getNextToken { initialState [] with input := "x = 1;".toList } ∧
    getNextToken { initialState [] with
        input := '/' :: '/' :: (" b".toList ++ '\n' :: "x = 1;".toList) } =
      getNextToken { initialState [] with input := "x = 1;".toList } ∧
    getNextToken { initialState [] with input := '/' :: '/' :: " b".toList } =
      { initialState [] with
          input := [],
          currentToken := { type := TokenType.TOKEN_EOF, text := [],
                            value := (initialState []).currentToken.value } } ∧
    getNextToken { initialState [] with input := " // a\n\t".toList ++ '/' :: '/' :: " b".toList } =
      { initialState [] with
          input := [],
          currentToken := { type := TokenType.TOKEN_EOF, text := [],
                            value := (initialState []).currentToken.value } } ∧
    getNextToken { initialState [] with input := '/' :: "2".toList } =
      { initialState [] with
          input := "2".toList,
          currentToken := { type := TokenType.TOKEN_UNKNOWN, text := ['/'],
                            value := (initialState []).currentToken.value } } ∧
    getNextToken { initialState [] with input := ['/'] } =
      { initialState [] with
          input := [],
          currentToken := { type := TokenType.TOKEN_UNKNOWN, text := ['/'],
                            value := (initialState []).currentToken.value } } ∧
    getNextToken { initialState [] with input := " // a\n\t".toList ++ '/' :: "2".toList } =
      { initialState [] with
          input := "2".toList,
          currentToken := { type := TokenType.TOKEN_UNKNOWN, text := ['/'],
                            value := (initialState []).currentToken.value } } :=
  getNextToken_comments (initialState []) " // a\n\t".toList "x = 1;".toList " b".toList
    "2".toList
    (BlankPrefix.space ' ' _ (by decide)
      (BlankPrefix.comment " a".toList _ (by decide)
        (BlankPrefix.space '\t' _ (by decide) BlankPrefix.nil)))
    (by decide) (by decide)

/-! ## PUSH and POP -/

theorem balanced_nil : Balanced [] := ⟨fun k => by simp, rfl⟩

theorem balanced_append {a b : List Line} (ha : Balanced a) (hb : Balanced b) :
    Balanced (a ++ b) := by
  refine ⟨fun k => ?_, ?_⟩
  · rw [List.take_append_eq_append_take, List.countP_append, List.countP_append]
    exact Nat.add_le_add (ha.1 k) (hb.1 (k - a.length))
  · rw [List.countP_append, List.countP_append, ha.2, hb.2]

theorem balanced_neutral {l : Line} (h1 : l.isPush = false) (h2 : l.isPop = false) :
    Balanced [l] := by
  refine ⟨fun k => ?_, by simp [List.countP_cons, h1, h2]⟩
  cases k with
  | zero => simp
  | succ k => simp [List.countP_cons, h1, h2]

theorem balanced_wrap {b : List Line} (hb : Balanced b) {u m o : Line}
    (hu : u.isPush = true) (hu2 : u.isPop = false)
    (hm : m.isPush = false) (hm2 : m.isPop = false)
    (ho : o.isPop = true) (ho2 : o.isPush = false) :
    Balanced (u :: (b ++ [m, o])) := by
  refine ⟨fun k => ?_, ?_⟩
  · cases k with
    | zero => simp
    | succ j =>
      have h1 := hb.1 j
      have h2 : List.countP Line.isPop (List.take (j - b.length) [m, o]) ≤ 1 := by
        rcases Nat.lt_or_ge (j - b.length) 2 with h | h
        · interval_cases (j - b.length) <;> simp [List.countP_cons, hm2]
        · rw [List.take_of_length_le (by simpa using h)]
          simp [List.countP_cons, hm2, ho]
      rw [List.take_succ_cons, List.countP_cons, List.countP_cons,
        List.take_append_eq_append_take, List.countP_append, List.countP_append]
      simp only [hu, hu2, Bool.false_eq_true, ↓reduceIte, Nat.add_zero]
      omega
  · rw [List.countP_cons, List.countP_cons, List.countP_append, List.countP_append]
    simp only [List.countP_cons, List.countP_nil, hu, hu2, hm, hm2, ho, ho2, hb.2,
      Bool.false_eq_true, ↓reduceIte, Nat.add_zero, Nat.zero_add]

theorem generateExpression_balanced (tbl : List (List Char)) (e : ASTNode) (o : List Line)
    (h : generateExpression tbl e = .ok o) : Balanced o := by
  induction e generalizing o with
  | null => simp [generateExpression] at h
  | node d left right c b n ihl ihr _ _ _ =>
    unfold generateExpression at h
    split at h
    · cases h
      exact balanced_neutral rfl rfl
    · split at h
      · cases h
        exact balanced_neutral rfl rfl
      · split at h
        · split at h
          · cases h
          · rename_i l hl
            split at h
            · cases h
            · rename_i r hr
              cases h
              have hop : Balanced (if d.op = '+' then [Line.add]
                  else if d.op = '-' then [Line.sub] else []) := by
                split
                · exact balanced_neutral rfl rfl
                · split
                  · exact balanced_neutral rfl rfl
                  · exact balanced_nil
              have hw := balanced_wrap (ihr r hr) (u := Line.pushOperand) (m := Line.movR1)
                (o := Line.popOperand) rfl rfl rfl rfl rfl rfl
              have := balanced_append (balanced_append (ihl l hl) hw) hop
              simpa only [List.append_assoc, List.singleton_append, List.cons_append,
                List.nil_append] using this
        · cases h
          exact balanced_nil

theorem generateCode_balanced (addr : Nat → Nat) (tbl : List (List Char)) (n : ASTNode)
    (out : List Line) (h : generateCode addr tbl n = .ok out) : Balanced out := by
  induction n generalizing out with
  | null =>
    simp only [generateCode, Except.ok.injEq] at h
    subst h
    exact balanced_nil
  | node d left right c b n _ _ _ ihb ihn =>
    obtain ⟨id, type, name, value, op⟩ := d
    cases type
    case NODE_PROGRAM =>
      simp only [generateCode] at h
      split at h
      · cases h
      · rename_i rest hr
        cases h
        exact balanced_append (balanced_append
          (balanced_append (balanced_neutral (l := Line.header1) rfl rfl)
            (balanced_neutral (l := Line.header2) rfl rfl)) (ihn rest hr))
          (balanced_neutral rfl rfl)
    case NODE_VAR_DECL =>
      simp only [generateCode] at h
      split at h
      · cases h
      · rename_i rest hr
        cases h
        exact balanced_append (balanced_neutral rfl rfl) (ihn rest hr)
    case NODE_ASSIGN =>
      simp only [generateCode] at h
      split at h
      · cases h
      · rename_i e he
        split at h
        · cases h
        · rename_i rest hr
          cases h
          exact balanced_append (balanced_append (balanced_append (balanced_neutral rfl rfl)
            (generateExpression_balanced tbl right e he)) (balanced_neutral rfl rfl))
            (ihn rest hr)
    case NODE_IF =>
      cases c with
      | null => simp [generateCode] at h
      | node cd cl cr cc cb cn =>
        simp only [generateCode] at h
        split at h
        · cases h
        · rename_i l hl
          split at h
          · cases h
          · rename_i r hr
            split at h
            · cases h
            · rename_i body hbody
              split at h
              · cases h
              · rename_i rest hrest
                cases h
                have hw := balanced_wrap (generateExpression_balanced tbl cr r hr)
                  (u := Line.pushSide) (m := Line.movR1) (o := Line.popSide)
                  rfl rfl rfl rfl rfl rfl
                have hcond := balanced_append (generateExpression_balanced tbl cl l hl) hw
                have := balanced_append (balanced_append (balanced_append (balanced_append
                  (balanced_append (balanced_append
                    (balanced_neutral (l := Line.ifStatement) rfl rfl) hcond)
                    (balanced_neutral (l := Line.cmp) rfl rfl))
                    (balanced_neutral (l := Line.jne (addr id)) rfl rfl)) (ihb body hbody))
                    (balanced_neutral (l := Line.label (addr id)) rfl rfl)) (ihn rest hrest)
                simpa only [List.append_assoc, List.singleton_append, List.cons_append,
                  List.nil_append] using this
    case NODE_BINARY_OP => exact ihn out (by simpa only [generateCode] using h)
    case NODE_NUMBER => exact ihn out (by simpa only [generateCode] using h)
    case NODE_IDENTIFIER => exact ihn out (by simpa only [generateCode] using h)

theorem isPush_text (l : Line) : "    PUSH ".toList.isPrefixOf l.text = l.isPush := by
  cases l <;> rfl

theorem isPop_text (l : Line) : "    POP ".toList.isPrefixOf l.text = l.isPop := by
  cases l <;> rfl

/-- C18: the code emitted for every expression tree, for every statement
chain (so for every single statement) and for every whole program the parser
produces is balanced in PUSH/POP: in every prefix of the output the number of
POP lines is at most the number of PUSH lines, and over the whole output, as
over the block of one expression, of one assignment and of one if-condition,
the two numbers are equal.  The PUSH and POP lines are the lines whose text
starts with that mnemonic. -/
theorem push_pop_balanced (addr : Nat → Nat) (src : List Char) (ast : ASTNode) (st : State)
    (h : parseProgram (initialState src) = .ok (ast, st)) :
    (∃ out, compile addr src = .ok out ∧ Balanced out) ∧
    (∀ (tbl : List (List Char)) (e : ASTNode) (o : List Line),
      generateExpression tbl e = .ok o → Balanced o) ∧
    (∀ (tbl : List (List Char)) (n : ASTNode) (o : List Line),
      generateCode addr tbl n = .ok o → Balanced o) ∧
    (∀ (tbl : List (List Char)) (k : Nat) (name : List Char) (e : ASTNode) (o : List Line),
      generateExpression tbl e = .ok o →
      generateCode addr tbl (assignNode k name e) =
        .ok ([Line.assignment name] ++ o ++ [Line.st (getVarOffset tbl name) name]) ∧
      Balanced ([Line.assignment name] ++ o ++ [Line.st (getVarOffset tbl name) name])) ∧
    (∀ (tbl : List (List Char)) (a b : ASTNode) (oa ob : List Line),
      generateExpression tbl a = .ok oa → generateExpression tbl b = .ok ob →
      Balanced (oa ++ [Line.pushSide] ++ ob ++ [Line.movR1, Line.popSide])) ∧
    (∀ l : Line, l.isPush = "    PUSH ".toList.isPrefixOf l.text) ∧
    (∀ l : Line, l.isPop = "    POP ".toList.isPrefixOf l.text) := by
  obtain ⟨out, ho, hg⟩ := compile_parsed addr h
  refine ⟨⟨out, ho, generateCode_balanced addr _ _ _ hg⟩, generateExpression_balanced,
    generateCode_balanced addr, fun tbl k name e o he => ?_, fun tbl a b oa ob ha hb => ?_,
    fun l => (isPush_text l).symm, fun l => (isPop_text l).symm⟩
  · have hc : generateCode addr tbl (assignNode k name e) =
        .ok ([Line.assignment name] ++ o ++ [Line.st (getVarOffset tbl name) name]) := by
      simp [assignNode, createData, generateCode, he]
    exact ⟨hc, generateCode_balanced addr tbl _ _ hc⟩
  · have hw := balanced_wrap (generateExpression_balanced tbl b ob hb)
      (u := Line.pushSide) (m := Line.movR1) (o := Line.popSide) rfl rfl rfl rfl rfl rfl
    have := balanced_append (generateExpression_balanced tbl a oa ha) hw
    simpa only [List.append_assoc, List.singleton_append, List.cons_append,
      List.nil_append] using this

/-- C18, at `if (a + 1 == b) { x = a - b - 1; }`. -/
theorem push_pop_balanced_witness :
    ∃ ast st, parseProgram (initialState "if (a + 1 == b) \x7b x = a - b - 1; \x7d".toList) =
        .ok (ast, st) ∧
      (∃ out, compile id "if (a + 1 == b) \x7b x = a - b - 1; \x7d".toList = .ok out ∧
        Balanced out) ∧
      (∀ (tbl : List (List Char)) (e : ASTNode) (o : List Line),
        generateExpression tbl e = .ok o → Balanced o) ∧
      (∀ (tbl : List (List Char)) (n : ASTNode) (o : List Line),
        generateCode id tbl n = .ok o → Balanced o) ∧
      (∀ (tbl : List (List Char)) (k : Nat) (name : List Char) (e : ASTNode) (o : List Line),
        generateExpression tbl e = .ok o →
        generateCode id tbl (assignNode k name e) =
          .ok ([Line.assignment name] ++ o ++ [Line.st (getVarOffset tbl name) name]) ∧
        Balanced ([Line.assignment name] ++ o ++ [Line.st (getVarOffset tbl name) name])) ∧
      (∀ (tbl : List (List Char)) (a b : ASTNode) (oa ob : List Line),
        generateExpression tbl a = .ok oa → generateExpression tbl b = .ok ob →
        Balanced (oa ++ [Line.pushSide] ++ ob ++ [Line.movR1, Line.popSide])) ∧
      (∀ l : Line, l.isPush = "    PUSH ".toList.isPrefixOf l.text) ∧
      (∀ l : Line, l.isPop = "    POP ".toList.isPrefixOf l.text) :=
  ⟨_, _, rfl, push_pop_balanced id "if (a + 1 == b) \x7b x = a - b - 1; \x7d".toList _ _ rfl⟩

/-! ## The trees the parser returns are safe to generate from -/

theorem isExpr_exprOk {e : ASTNode} (h : IsExpr e) : exprOk e = true := by
  induction h with
  | term ht => cases ht <;> rfl
  | binary id op hop _ _ ihl ihr =>
    simp only [binaryNode, createData, exprOk, ihl, ihr, Bool.and_true, Bool.or_eq_true,
      decide_eq_true_eq]
    exact hop

theorem link_null_isStmt {s : ASTNode} (h : IsStmt s) : link s .null = s := by
  cases h <;> rfl

theorem isStmt_chainOk {s : ASTNode} (h : IsStmt s) :
    ∀ rest, chainOk rest = true → chainOk (link s rest) = true := by
  induction h with
  | varDecl id name => intro rest hr; simpa [link, varDeclNode, createData, chainOk] using hr
  | assign id name he =>
    intro rest hr
    simp [link, assignNode, createData, chainOk, isExpr_exprOk he, hr]
  | ifEmpty id cid ha hb =>
    intro rest hr
    simp [link, ifNode, binaryNode, createData, chainOk, isExpr_exprOk ha, isExpr_exprOk hb, hr]
  | @ifBody id cid a b body ha hb hbody ih =>
    intro rest hr
    have h1 := ih .null rfl
    rw [link_null_isStmt hbody] at h1
    simp [link, ifNode, binaryNode, createData, chainOk, isExpr_exprOk ha, isExpr_exprOk hb,
      hr, h1]

theorem chainOf_chainOk (ss : List ASTNode) (hss : ∀ s ∈ ss, IsStmt s) :
    chainOk (chainOf ss) = true := by
  induction ss with
  | nil => rfl
  | cons s ss ih =>
    exact isStmt_chainOk (hss s (List.mem_cons_self _ _)) _
      (ih (fun x hx => hss x (List.mem_cons_of_mem _ hx)))

theorem parseProgram_programOk {st st' : State} {ast : ASTNode}
    (h : parseProgram st = .ok (ast, st')) : programOk ast = true := by
  obtain ⟨ss, rfl, hss⟩ := parseProgram_shape h
  simp [programOk, programNode, createData, chainOf_chainOk ss hss]

theorem generateExpression_exprOk (tbl : List (List Char)) (e : ASTNode)
    (h : exprOk e = true) :
    ∃ o, generateExpression tbl e = .ok o ∧ o.countP Line.isArith = binaryCount e := by
  induction e with
  | null => cases h
  | node d l r c b n ihl ihr _ _ _ =>
    obtain ⟨id, type, name, value, op⟩ := d
    cases type
    case NODE_NUMBER => exact ⟨[Line.ldi value], by simp [generateExpression], rfl⟩
    case NODE_IDENTIFIER =>
      exact ⟨[Line.ld (getVarOffset tbl name) name], by simp [generateExpression], rfl⟩
    case NODE_BINARY_OP =>
      simp only [exprOk, Bool.and_eq_true, Bool.or_eq_true, decide_eq_true_eq] at h
      obtain ⟨⟨hop, hl⟩, hr⟩ := h
      obtain ⟨ol, h1, h2⟩ := ihl hl
      obtain ⟨or, h3, h4⟩ := ihr hr
      refine ⟨ol ++ [Line.pushOperand] ++ or ++ [Line.movR1, Line.popOperand] ++
        (if op = '+' then [Line.add] else if op = '-' then [Line.sub] else []),
        by simp [generateExpression, h1, h3], ?_⟩
      have hone : List.countP Line.isArith
          (if op = '+' then [Line.add] else if op = '-' then [Line.sub] else []) = 1 := by
        rcases hop with rfl | rfl
        · rfl
        · rfl
      simp only [List.countP_append, h2, h4, hone, binaryCount]
      simp [List.countP_cons, Line.isArith]
    case NODE_PROGRAM => cases h
    case NODE_VAR_DECL => cases h
    case NODE_ASSIGN => cases h
    case NODE_IF => cases h

theorem generateCode_chainOk (addr : Nat → Nat) (tbl : List (List Char)) (n : ASTNode)
    (h : chainOk n = true) : ∃ out, generateCode addr tbl n = .ok out := by
  induction n with
  | null => exact ⟨[], rfl⟩
  | node d l r c b n _ _ _ ihb ihn =>
    obtain ⟨id, type, name, value, op⟩ := d
    cases type
    case NODE_VAR_DECL =>
      obtain ⟨rest, hr⟩ := ihn (by simpa [chainOk] using h)
      exact ⟨[Line.declare name] ++ rest, by simp only [generateCode, hr]⟩
    case NODE_ASSIGN =>
      simp only [chainOk, Bool.and_eq_true] at h
      obtain ⟨e, he, -⟩ := generateExpression_exprOk tbl r h.1
      obtain ⟨rest, hr⟩ := ihn h.2
      exact ⟨[Line.assignment name] ++ e ++ [Line.st (getVarOffset tbl name) name] ++ rest,
        by simp only [generateCode, he, hr]⟩
    case NODE_IF =>
      cases c with
      | null => simp [chainOk] at h
      | node cd cl cr cc cb cn =>
        simp only [chainOk, Bool.and_eq_true, decide_eq_true_eq] at h
        obtain ⟨⟨⟨⟨⟨-, -⟩, hl⟩, hr⟩, hb⟩, hn⟩ := h
        obtain ⟨ol, h1, -⟩ := generateExpression_exprOk tbl cl hl
        obtain ⟨or, h2, -⟩ := generateExpression_exprOk tbl cr hr
        obtain ⟨body, h3⟩ := ihb hb
        obtain ⟨rest, h4⟩ := ihn hn
        exact ⟨[Line.ifStatement] ++ ol ++ [Line.pushSide] ++ or ++
          [Line.movR1, Line.popSide, Line.cmp, Line.jne (addr id)] ++ body ++
          [Line.label (addr id)] ++ rest, by simp only [generateCode, h1, h2, h3, h4]⟩
    case NODE_PROGRAM => cases h
    case NODE_BINARY_OP => cases h
    case NODE_NUMBER => cases h
    case NODE_IDENTIFIER => cases h

/-- C19: every AST a successful `parseProgram` returns is a Program node
over a statement chain in which every Assign node has a non-null right
expression, every If node has a non-null condition that is a BinaryOp with op
`=` over two non-null expressions, every other BinaryOp has op `+` or `-` and
two non-null operands, and an `=` node occurs nowhere but as the condition of
an If.  Hence `generateCode` on it dereferences no missing child (it returns
its output, with every table), and `generateExpression` on every such
expression emits exactly one ADD or SUB for every BinaryOp it visits. -/
theorem parser_output_wellformed (addr : Nat → Nat) (st st' : State) (ast : ASTNode)
    (h : parseProgram st = .ok (ast, st')) :
    programOk ast = true ∧
    (∀ tbl : List (List Char), ∃ out, generateCode addr tbl ast = .ok out) ∧
    (∀ (tbl : List (List Char)) (n : ASTNode), chainOk n = true →
      ∃ out, generateCode addr tbl n = .ok out) ∧
    (∀ (tbl : List (List Char)) (e : ASTNode), exprOk e = true →
      ∃ o, generateExpression tbl e = .ok o ∧ o.countP Line.isArith = binaryCount e) ∧
    (∀ l : Line, l.isArith = true ↔ l = Line.add ∨ l = Line.sub) :=
  ⟨parseProgram_programOk h, fun tbl => generateCode_parsed addr tbl h,
    generateCode_chainOk addr, generateExpression_exprOk,
    fun l => by cases l <;> simp [Line.isArith]⟩

/-- C19, at `if (a == 1) { x = a + 2 - b; }`. -/
theorem parser_output_wellformed_witness :
    ∃ ast st', parseProgram (initialState "if (a == 1) \x7b x = a + 2 - b; \x7d".toList) =
        .ok (ast, st') ∧
      programOk ast = true ∧
      (∀ tbl : List (List Char), ∃ out, generateCode id tbl ast = .ok out) ∧
      (∀ (tbl : List (List Char)) (n : ASTNode), chainOk n = true →
        ∃ out, generateCode id tbl n = .ok out) ∧
      (∀ (tbl : List (List Char)) (e : ASTNode), exprOk e = true →
        ∃ o, generateExpression tbl e = .ok o ∧ o.countP Line.isArith = binaryCount e) ∧
      (∀ l : Line, l.isArith = true ↔ l = Line.add ∨ l = Line.sub) :=
  ⟨_, _, rfl, parser_output_wellformed id
    (initialState "if (a == 1) \x7b x = a + 2 - b; \x7d".toList) _ _ rfl⟩

/-! ## The declarations of the source text -/

theorem tokensFrom_fuel (fuel : Nat) : ∀ (fuel' : Nat) (old : Token) (input : List Char),
    input.length < fuel → input.length < fuel' →
    tokensFrom fuel old input = tokensFrom fuel' old input := by
  induction fuel with
  | zero => intro fuel' old input h; omega
  | succ f ih =>
    intro fuel' old input h h'
    cases fuel' with
    | zero => omega
    | succ f' =>
      simp only [tokensFrom]
      split
      · rfl
      · rename_i hne
        have := (scan_progress old input).2 hne
        rw [ih f' _ _ (by omega) (by omega)]

theorem tokensFrom_step (old : Token) (input : List Char) :
    tokensFrom (input.length + 1) old input =
      if (scan old input).1.type = TokenType.TOKEN_EOF then []
      else (scan old input).1 ::
        tokensFrom ((scan old input).2.length + 1) (scan old input).1 (scan old input).2 := by
  show (if (scan old input).1.type = TokenType.TOKEN_EOF then []
      else (scan old input).1 ::
        tokensFrom input.length (scan old input).1 (scan old input).2) = _
  split
  · rfl
  · rename_i hne
    have := (scan_progress old input).2 hne
    rw [tokensFrom_fuel input.length ((scan old input).2.length + 1) _ _
      this (Nat.lt_succ_self _)]

theorem tokensFrom_types (fuel : Nat) : ∀ (old : Token) (input : List Char),
    (tokensFrom fuel old input).map Token.type = tokenTypesFrom fuel old input := by
  induction fuel with
  | zero => intro old input; rfl
  | succ f ih =>
    intro old input
    simp only [tokensFrom, tokenTypesFrom]
    split
    · rfl
    · simp [ih]

/-- The kinds of the tokens of a text are its token sequence. -/
theorem tokens_types (src : List Char) : (tokens src).map Token.type = tokenTypes src :=
  tokensFrom_types _ _ _

theorem remainingTokens_eof (st : State) (h : st.currentToken.type = TokenType.TOKEN_EOF) :
    remainingTokens st = [] := by
  simp [remainingTokens, h]

theorem remainingTokens_next (st : State) (h : st.currentToken.type ≠ TokenType.TOKEN_EOF) :
    remainingTokens st = st.currentToken :: remainingTokens (getNextToken st) := by
  rw [remainingTokens, if_neg h, tokensFrom_step]
  rfl

theorem remainingTokens_sameStream {s t : State} (h : SameStream s t) :
    remainingTokens s = remainingTokens t := by
  simp only [remainingTokens, h.1, h.2]

theorem remainingTokens_next_alloc (st : State) :
    remainingTokens (getNextToken st.alloc) = remainingTokens (getNextToken st) :=
  remainingTokens_sameStream (sameStream_next (sameStream_alloc st))

theorem tokens_eq (src : List Char) :
    tokens src = remainingTokens (getNextToken (initialState src).alloc) := by
  rw [tokens, tokensFrom_step]
  rfl

theorem declaredNames_single (t : Token) : declaredNames [t] = [] := rfl

theorem declaredNames_cons_cons (t u : Token) (r : List Token) :
    declaredNames (t :: u :: r) =
      (if t.type = TokenType.TOKEN_INT ∧ u.type = TokenType.TOKEN_IDENTIFIER then [u.text]
       else []) ++ declaredNames (u :: r) := rfl

theorem declaredNames_cons_noInt (t : Token) (rest : List Token)
    (ht : t.type ≠ TokenType.TOKEN_INT) : declaredNames (t :: rest) = declaredNames rest := by
  cases rest with
  | nil => rfl
  | cons u r => rw [declaredNames_cons_cons]; simp [ht]

theorem declaredNames_noInt_append (pre rest : List Token)
    (h : ∀ t ∈ pre, t.type ≠ TokenType.TOKEN_INT) :
    declaredNames (pre ++ rest) = declaredNames rest := by
  induction pre with
  | nil => rfl
  | cons t p ih =>
    rw [List.cons_append, declaredNames_cons_noInt _ _ (h t (List.mem_cons_self _ _)),
      ih (fun x hx => h x (List.mem_cons_of_mem _ hx))]

theorem declaredNames_noInt (ts : List Token) (h : ∀ t ∈ ts, t.type ≠ TokenType.TOKEN_INT) :
    declaredNames ts = [] := by
  have := declaredNames_noInt_append ts [] h
  simpa [declaredNames] using this

theorem declaredNames_append (ts rest : List Token)
    (h : ∀ t ∈ ts.getLast?, t.type ≠ TokenType.TOKEN_INT) :
    declaredNames (ts ++ rest) = declaredNames ts ++ declaredNames rest := by
  induction ts with
  | nil => rfl
  | cons t p ih =>
    cases p with
    | nil =>
      have ht : t.type ≠ TokenType.TOKEN_INT := h t (by simp)
      rw [List.singleton_append, declaredNames_cons_noInt _ _ ht, declaredNames_single]
      rfl
    | cons u r =>
      have := ih (by simpa [List.getLast?_cons_cons] using h)
      rw [List.cons_append, List.cons_append, declaredNames_cons_cons,
        declaredNames_cons_cons, ← List.cons_append, this, List.append_assoc]

theorem parseTerm_toks {st st' : State} {e : ASTNode} (h : parseTerm st = .ok (e, st')) :
    remainingTokens st = st.currentToken :: remainingTokens st' ∧
      st.currentToken.type ≠ TokenType.TOKEN_INT := by
  obtain ⟨rfl, h1⟩ := parseTerm_ok h
  rcases h1 with ⟨h1, -⟩ | ⟨h1, -⟩
  · exact ⟨by rw [remainingTokens_next st (by rw [h1]; simp), remainingTokens_next_alloc],
      by rw [h1]; simp⟩
  · exact ⟨by rw [remainingTokens_next st (by rw [h1]; simp), remainingTokens_next_alloc],
      by rw [h1]; simp⟩

theorem parseExprLoop_toks (fuel : Nat) {left e : ASTNode} {st st' : State}
    (h : parseExprLoop fuel left st = .ok (e, st')) :
    ∃ ts, remainingTokens st = ts ++ remainingTokens st' ∧
      ∀ t ∈ ts, t.type ≠ TokenType.TOKEN_INT := by
  induction fuel generalizing left st with
  | zero =>
    by_cases hop : st.currentToken.type = TokenType.TOKEN_PLUS ∨
        st.currentToken.type = TokenType.TOKEN_MINUS
    · rw [parseExprLoop_zero _ _ hop] at h; cases h
    · rw [parseExprLoop_stop _ _ _ (fun e => hop (Or.inl e)) (fun e => hop (Or.inr e))] at h
      cases h
      exact ⟨[], rfl, by simp⟩
  | succ fuel ih =>
    by_cases hop : st.currentToken.type = TokenType.TOKEN_PLUS ∨
        st.currentToken.type = TokenType.TOKEN_MINUS
    · rw [parseExprLoop_succ _ _ _ hop] at h
      split at h
      · cases h
      · rename_i right st2 hr
        obtain ⟨hr1, hr2⟩ := parseTerm_toks hr
        have hne : st.currentToken.type ≠ TokenType.TOKEN_EOF := by
          rcases hop with hop | hop <;> rw [hop] <;> simp
        have hni : st.currentToken.type ≠ TokenType.TOKEN_INT := by
          rcases hop with hop | hop <;> rw [hop] <;> simp
        obtain ⟨ts, h1, h2⟩ := ih h
        refine ⟨st.currentToken :: (getNextToken st.alloc).currentToken :: ts, ?_, ?_⟩
        · rw [remainingTokens_next st hne, ← remainingTokens_next_alloc, hr1, h1]
          rfl
        · intro t ht
          simp only [List.mem_cons] at ht
          rcases ht with rfl | rfl | ht
          · exact hni
          · exact hr2
          · exact h2 t ht
    · rw [parseExprLoop_stop _ _ _ (fun e => hop (Or.inl e)) (fun e => hop (Or.inr e))] at h
      cases h
      exact ⟨[], rfl, by simp⟩

theorem parseExpression_toks {st st' : State} {e : ASTNode}
    (h : parseExpression st = .ok (e, st')) :
    ∃ ts, remainingTokens st = ts ++ remainingTokens st' ∧
      ∀ t ∈ ts, t.type ≠ TokenType.TOKEN_INT := by
  obtain ⟨left, st1, h1, h2⟩ := parseExpression_ok h
  obtain ⟨ht1, ht2⟩ := parseTerm_toks h1
  obtain ⟨ts, h3, h4⟩ := parseExprLoop_toks _ h2
  refine ⟨st.currentToken :: ts, by rw [ht1, h3]; rfl, ?_⟩
  intro t ht
  simp only [List.mem_cons] at ht
  rcases ht with rfl | ht
  · exact ht2
  · exact h4 t ht

theorem parseVarDecl_toks {st st' : State} {n : ASTNode}
    (hint : st.currentToken.type = TokenType.TOKEN_INT)
    (h : parseVarDecl st = .ok (n, st')) :
    ∃ ts, remainingTokens st = ts ++ remainingTokens st' ∧
      (∀ t ∈ ts.getLast?, t.type ≠ TokenType.TOKEN_INT) ∧
      st'.varTable = st.varTable ++ declaredNames ts := by
  obtain ⟨h1, -, h3, -, rfl⟩ := parseVarDecl_ok h
  refine ⟨[st.currentToken, (getNextToken st).currentToken] ++
    [(getNextToken ((getNextToken st).alloc.register
      (getNextToken st).currentToken.text)).currentToken], ?_, ?_, ?_⟩
  · rw [remainingTokens_next st (by rw [hint]; simp),
      remainingTokens_next (getNextToken st) (by rw [h1]; simp),
      ← remainingTokens_sameStream (sameStream_next
        (sameStream_register (getNextToken st) (getNextToken st).currentToken.text)),
      remainingTokens_next _ (by rw [h3]; simp)]
    rfl
  · rw [List.getLast?_concat]
    intro t ht
    simp only [Option.mem_def, Option.some.injEq] at ht
    rw [← ht, h3]
    simp
  · simp [declaredNames_cons_cons, declaredNames_single, hint, h1]

theorem parseAssignment_toks {st st' : State} {n : ASTNode}
    (hid : st.currentToken.type = TokenType.TOKEN_IDENTIFIER)
    (h : parseAssignment st = .ok (n, st')) :
    ∃ ts, remainingTokens st = ts ++ remainingTokens st' ∧
      (∀ t ∈ ts.getLast?, t.type ≠ TokenType.TOKEN_INT) ∧
      st'.varTable = st.varTable ++ declaredNames ts := by
  obtain ⟨right, st2, h1, h2, h3, -, rfl⟩ := parseAssignment_ok h
  obtain ⟨te, he1, he2⟩ := parseExpression_toks h2
  have hno : ∀ t ∈ (st.currentToken :: (getNextToken st.alloc).currentToken :: te) ++
      [st2.currentToken], t.type ≠ TokenType.TOKEN_INT := by
    intro t ht
    simp only [List.cons_append, List.mem_cons, List.mem_append, List.mem_singleton,
      List.not_mem_nil, or_false] at ht
    rcases ht with rfl | rfl | ht | rfl
    · rw [hid]; simp
    · rw [h1]; simp
    · exact he2 t ht
    · rw [h3]; simp
  refine ⟨(st.currentToken :: (getNextToken st.alloc).currentToken :: te) ++
    [st2.currentToken], ?_, ?_, ?_⟩
  · rw [remainingTokens_next st (by rw [hid]; simp), ← remainingTokens_next_alloc,
      remainingTokens_next _ (by rw [h1]; simp), he1,
      remainingTokens_next st2 (by rw [h3]; simp)]
    simp
  · rw [List.getLast?_concat]
    intro t ht
    simp only [Option.mem_def, Option.some.injEq] at ht
    rw [← ht, h3]
    simp
  · rw [declaredNames_noInt _ hno, List.append_nil, getNextToken_varTable,
      parseExpression_varTable h2]
    rfl

theorem parseIf_toks {ps : State → Res (ASTNode × State)} {st st' : State} {n : ASTNode}
    (hif : st.currentToken.type = TokenType.TOKEN_IF)
    (hps : ∀ s s' b, s.currentToken.type ≠ TokenType.TOKEN_EOF → ps s = .ok (b, s') →
      ∃ ts, remainingTokens s = ts ++ remainingTokens s' ∧
        (∀ t ∈ ts.getLast?, t.type ≠ TokenType.TOKEN_INT) ∧
        s'.varTable = s.varTable ++ declaredNames ts)
    (hps0 : ∀ s s' b, s.currentToken.type = TokenType.TOKEN_EOF → ps s = .ok (b, s') →
      s' = getNextToken s)
    (h : parseIf ps st = .ok (n, st')) :
    ∃ ts, remainingTokens st = ts ++ remainingTokens st' ∧
      (∀ t ∈ ts.getLast?, t.type ≠ TokenType.TOKEN_INT) ∧
      st'.varTable = st.varTable ++ declaredNames ts := by
  obtain ⟨a, st2, b, st3, body, st5, h1, h2, h3, h4, h5, h6, h7, h8, -, rfl⟩ := parseIf_ok h
  obtain ⟨ta, ha1, ha2⟩ := parseExpression_toks h2
  obtain ⟨tb, hb1, hb2⟩ := parseExpression_toks h4
  have hne : (getNextToken (getNextToken st3.alloc)).currentToken.type
      ≠ TokenType.TOKEN_EOF := by
    intro he
    have h9 := hps0 _ _ _ he h7
    have h10 := getNextToken_of_nil _ (getNextToken_eof _ he)
    rw [← h9, h8] at h10
    cases h10
  obtain ⟨tsb, hs1, hs2, hs3⟩ := hps _ _ _ hne h7
  have hpre : ∀ t ∈ st.currentToken :: (getNextToken st).currentToken ::
      (ta ++ st2.currentToken :: (tb ++ [st3.currentToken,
        (getNextToken st3.alloc).currentToken])), t.type ≠ TokenType.TOKEN_INT := by
    intro t ht
    simp only [List.mem_cons, List.mem_append, List.not_mem_nil, or_false] at ht
    rcases ht with rfl | rfl | ht | rfl | ht | rfl | rfl
    · rw [hif]; simp
    · rw [h1]; simp
    · exact ha2 t ht
    · rw [h3]; simp
    · exact hb2 t ht
    · rw [h5]; simp
    · rw [h6]; simp
  have hrb : st5.currentToken.type ≠ TokenType.TOKEN_INT := by rw [h8]; simp
  refine ⟨(st.currentToken :: (getNextToken st).currentToken ::
      (ta ++ st2.currentToken :: (tb ++ [st3.currentToken,
        (getNextToken st3.alloc).currentToken])) ++ tsb) ++ [st5.currentToken], ?_, ?_, ?_⟩
  · rw [remainingTokens_next st (by rw [hif]; simp),
      remainingTokens_next (getNextToken st) (by rw [h1]; simp),
      ← remainingTokens_next_alloc, ha1,
      remainingTokens_next st2 (by rw [h3]; simp), hb1,
      remainingTokens_next st3 (by rw [h5]; simp), ← remainingTokens_next_alloc,
      remainingTokens_next _ (by rw [h6]; simp), hs1,
      remainingTokens_next st5 (by rw [h8]; simp)]
    simp
  · rw [List.getLast?_concat]
    intro t ht
    simp only [Option.mem_def, Option.some.injEq] at ht
    rw [← ht]
    exact hrb
  · rw [List.append_assoc, declaredNames_noInt_append _ _ hpre,
      declaredNames_append _ _ hs2, declaredNames_single, List.append_nil,
      getNextToken_varTable, hs3]
    simp only [getNextToken_varTable, alloc_varTable, parseExpression_varTable h4,
      parseExpression_varTable h2]

theorem parseStatement_toks (fuel : Nat) {st st' : State} {n : ASTNode}
    (hne : st.currentToken.type ≠ TokenType.TOKEN_EOF)
    (h : parseStatement fuel st = .ok (n, st')) :
    ∃ ts, remainingTokens st = ts ++ remainingTokens st' ∧
      (∀ t ∈ ts.getLast?, t.type ≠ TokenType.TOKEN_INT) ∧
      st'.varTable = st.varTable ++ declaredNames ts := by
  have hskip : ∀ s : State, s.currentToken.type ≠ TokenType.TOKEN_EOF →
      s.currentToken.type ≠ TokenType.TOKEN_INT →
      ∃ ts, remainingTokens s = ts ++ remainingTokens (getNextToken s) ∧
        (∀ t ∈ ts.getLast?, t.type ≠ TokenType.TOKEN_INT) ∧
        (getNextToken s).varTable = s.varTable ++ declaredNames ts := by
    intro s hs1 hs2
    refine ⟨[s.currentToken], remainingTokens_next s hs1, ?_, by simp [declaredNames_single]⟩
    intro t ht
    simp only [List.getLast?_singleton, Option.mem_def, Option.some.injEq] at ht
    rw [← ht]
    exact hs2
  induction fuel generalizing st st' n with
  | zero =>
    rcases parseStatement_ok h with ⟨h0, h1⟩ | ⟨h0, h1⟩ | ⟨-, f, hf, -⟩ | ⟨n1, -, -, -, rfl⟩
    · exact parseVarDecl_toks h0 h1
    · exact parseAssignment_toks h0 h1
    · omega
    · exact hskip st hne n1
  | succ fuel ih =>
    rcases parseStatement_ok h with ⟨h0, h1⟩ | ⟨h0, h1⟩ | ⟨h0, f, hf, h1⟩ | ⟨n1, -, -, -, rfl⟩
    · exact parseVarDecl_toks h0 h1
    · exact parseAssignment_toks h0 h1
    · obtain rfl : f = fuel := by omega
      refine parseIf_toks h0 (fun s s' b hs hb => ih hs hb) (fun s s' b hs hb => ?_) h1
      rcases parseStatement_ok hb with ⟨h2, -⟩ | ⟨h2, -⟩ | ⟨h2, -⟩ | ⟨-, -, -, -, h3⟩
      · rw [hs] at h2; cases h2
      · rw [hs] at h2; cases h2
      · rw [hs] at h2; cases h2
      · exact h3
    · exact hskip st hne n1

theorem parseProgramLoop_toks (fuel : Nat) {st st' : State} {chain : ASTNode}
    (h : parseProgramLoop fuel st = .ok (chain, st')) :
    st'.varTable = st.varTable ++ declaredNames (remainingTokens st) := by
  induction fuel generalizing st st' chain with
  | zero =>
    rcases parseProgramLoop_ok h with ⟨h1, -, rfl⟩ | ⟨-, f, -, -, -, hf, -⟩
    · rw [remainingTokens_eof _ h1]; simp [declaredNames]
    · omega
  | succ fuel ih =>
    rcases parseProgramLoop_ok h with ⟨h1, -, rfl⟩ | ⟨hne, f, stmt, st1, rest, hf, h1, h2, -⟩
    · rw [remainingTokens_eof _ h1]; simp [declaredNames]
    · obtain rfl : f = fuel := by omega
      obtain ⟨ts, h3, h4, h5⟩ := parseStatement_toks _ hne h1
      rw [ih h2, h5, h3, declaredNames_append _ _ h4, List.append_assoc]

/-- The variable table after a successful parse holds the names the source
text declares, in the order of the text. -/
theorem parseProgram_declaredNames {src : List Char} {ast : ASTNode} {st : State}
    (h : parseProgram (initialState src) = .ok (ast, st)) :
    st.varTable = declaredNames (tokens src) := by
  obtain ⟨chain, h1, -⟩ := parseProgram_ok h
  rw [parseProgramLoop_toks _ h1, tokens_eq]
  simp [initialState]

/-- C9: for every successfully compiled program (which has at most 26
declarations), the variable table holds the names the source text declares,
the text of the identifier after each `int`, in the order of the text (those
inside `if` bodies included), row `i` being declaration `i`; they are the
declarations of the tree.  Every LD and every ST in the output carries the
offset `getVarOffset` gives its name in that table, the same at every use; for
a declared name that offset is the 0-based position of its first declaration
in the text, below `varCount`; and two different declared names never get the
same offset. -/
theorem offsets_stable (addr : Nat → Nat) (src : List Char) (out : List Line)
    (h : compile addr src = .ok out) :
    ∃ ast st, parseProgram (initialState src) = .ok (ast, st) ∧
      st.varTable = declaredNames (tokens src) ∧
      st.varTable = declNames ast ∧ st.varCount = (declaredNames (tokens src)).length ∧
      st.varCount ≤ MAX_VARS ∧
      (∀ off v, Line.ld off v ∈ out ∨ Line.st off v ∈ out → off = getVarOffset st.varTable v) ∧
      (∀ v ∈ declaredNames (tokens src), ∃ i : Nat, IsFirst (declaredNames (tokens src)) v i ∧
        getVarOffset st.varTable v = (i : Int) ∧ i < st.varCount ∧
        ∀ off, Line.ld off v ∈ out ∨ Line.st off v ∈ out → off = (i : Int)) ∧
      (∀ v w, v ∈ declaredNames (tokens src) → w ∈ declaredNames (tokens src) →
        getVarOffset st.varTable v = getVarOffset st.varTable w → v = w) := by
  unfold compile at h
  split at h
  · cases h
  · rename_i ast st hp
    obtain ⟨h1, h2⟩ := parseProgram_varTable hp
    have h0 := parseProgram_declaredNames hp
    have hres := generateCode_lines addr st.varTable ast out h
    have hline : ∀ off v, Line.ld off v ∈ out ∨ Line.st off v ∈ out →
        off = getVarOffset st.varTable v := by
      rintro off v (hm | hm)
      · exact hres _ hm
      · exact hres _ hm
    refine ⟨ast, st, hp, h0, h1, by rw [State.varCount, h0], h2, hline, ?_, ?_⟩
    · intro v hv
      rw [← h0] at hv ⊢
      rcases getVarOffset_spec st.varTable v with ⟨h3, -⟩ | ⟨i, h3, h4⟩
      · exact absurd hv h3
      · exact ⟨i, h3, h4, isFirst_lt h3, fun off hm => by rw [hline off v hm, h4]⟩
    · intro v w hv hw heq
      rw [← h0] at hv hw
      rcases getVarOffset_spec st.varTable v with ⟨h3, -⟩ | ⟨i, h3, h4⟩
      · exact absurd hv h3
      · rcases getVarOffset_spec st.varTable w with ⟨h5, -⟩ | ⟨j, h5, h6⟩
        · exact absurd hw h5
        · rw [h4, h6] at heq
          have hij : i = j := by exact_mod_cast heq
          subst hij
          have := h3.1.symm.trans h5.1
          simpa using this

/-- C9, at `int x; int y; if (x == y) { int z; } z = x + y;`: the text
declares `x`, `y`, `z` in this order, and the output loads `x` from offset 0
and `y` from offset 1 and stores `z` to offset 2. -/
theorem offsets_stable_witness :
    ∃ out, compile id "int x; int y; if (x == y) \x7b int z; \x7d z = x + y;".toList = .ok out ∧
    declaredNames (tokens "int x; int y; if (x == y) \x7b int z; \x7d z = x + y;".toList) =
      [['x'], ['y'], ['z']] ∧
    Line.ld 0 ['x'] ∈ out ∧ Line.ld 1 ['y'] ∈ out ∧ Line.st 2 ['z'] ∈ out ∧
    ∃ ast st, parseProgram (initialState "int x; int y; if (x == y) \x7b int z; \x7d z = x + y;".toList) = .ok (ast, st) ∧
      st.varTable = declaredNames (tokens "int x; int y; if (x == y) \x7b int z; \x7d z = x + y;".toList) ∧
      st.varTable = declNames ast ∧
      st.varCount = (declaredNames (tokens "int x; int y; if (x == y) \x7b int z; \x7d z = x + y;".toList)).length ∧
      st.varCount ≤ MAX_VARS ∧
      (∀ off v, Line.ld off v ∈ out ∨ Line.st off v ∈ out → off = getVarOffset st.varTable v) ∧
      (∀ v ∈ declaredNames (tokens "int x; int y; if (x == y) \x7b int z; \x7d z = x + y;".toList),
        ∃ i : Nat, IsFirst (declaredNames (tokens "int x; int y; if (x == y) \x7b int z; \x7d z = x + y;".toList)) v i ∧
        getVarOffset st.varTable v = (i : Int) ∧ i < st.varCount ∧
        ∀ off, Line.ld off v ∈ out ∨ Line.st off v ∈ out → off = (i : Int)) ∧
      (∀ v w, v ∈ declaredNames (tokens "int x; int y; if (x == y) \x7b int z; \x7d z = x + y;".toList) →
        w ∈ declaredNames (tokens "int x; int y; if (x == y) \x7b int z; \x7d z = x + y;".toList) →
        getVarOffset st.varTable v = getVarOffset st.varTable w → v = w) :=
  ⟨_, rfl, by decide, by decide, by decide, by decide, offsets_stable id
    "int x; int y; if (x == y) \x7b int z; \x7d z = x + y;".toList _ rfl⟩

/-! ## The block of an `if` statement -/

theorem generateExpression_renumber (tbl : List (List Char)) (e : ASTNode) :
    ∀ k, generateExpression tbl (renumber k e) = generateExpression tbl e := by
  induction e with
  | null => intro k; rfl
  | node d l r c b n ihl ihr _ _ _ =>
    intro k
    obtain ⟨id, type, name, value, op⟩ := d
    cases type
    case NODE_BINARY_OP => simp only [renumber, generateExpression, ihl, ihr]
    case NODE_IF => cases c <;> simp [renumber, generateExpression]
    all_goals simp [renumber, generateExpression]

/-- What a successful `parseIf` has read and built, and what `generateCode`
emits for the node. -/
theorem parseIf_parts (fuel : Nat) (st st' : State) (n : ASTNode)
    (h : parseIf (parseStatement fuel) st = .ok (n, st'))
    (addr : Nat → Nat) (tbl : List (List Char)) :
    ∃ a st2 b st3 body st5 ta tb ts ca cb cs,
      remaining (getNextToken st) = TokenType.TOKEN_LPAREN :: (ta ++ TokenType.TOKEN_EQUAL ::
        (tb ++ TokenType.TOKEN_RPAREN :: TokenType.TOKEN_LBRACE ::
          (ts ++ TokenType.TOKEN_RBRACE :: remaining st'))) ∧
      GExpr ta ∧ GExpr tb ∧ GStmt NotStart ts ∧
      parseExpression (getNextToken (getNextToken st).alloc) = .ok (a, st2) ∧
      remaining (getNextToken (getNextToken st).alloc) = ta ++ remaining st2 ∧
      st2.currentToken.type = TokenType.TOKEN_EQUAL ∧
      parseExpression (getNextToken st2) = .ok (b, st3) ∧
      remaining (getNextToken st2) = tb ++ remaining st3 ∧
      st3.currentToken.type = TokenType.TOKEN_RPAREN ∧
      (getNextToken st3.alloc).currentToken.type = TokenType.TOKEN_LBRACE ∧
      parseStatement fuel (getNextToken (getNextToken st3.alloc)) = .ok (body, st5) ∧
      remaining (getNextToken (getNextToken st3.alloc)) = ts ++ remaining st5 ∧
      st5.currentToken.type = TokenType.TOKEN_RBRACE ∧
      st' = getNextToken st5 ∧
      n = ifNode st.nalloc (binaryNode st3.nalloc '=' a b) body ∧
      nextOf body = .null ∧
      generateExpression tbl a = .ok ca ∧
      generateExpression tbl b = .ok cb ∧
      generateCode addr tbl body = .ok cs ∧
      ∀ rest cr, generateCode addr tbl rest = .ok cr →
        generateCode addr tbl (link n rest) =
          .ok ([Line.ifStatement] ++ ca ++ [Line.pushSide] ++ cb ++
            [Line.movR1, Line.popSide, Line.cmp, Line.jne (addr st.nalloc)] ++ cs ++
            [Line.label (addr st.nalloc)] ++ cr) := by
  obtain ⟨a, st2, b, st3, body, st5, h1, h2, h3, h4, h5, h6, h7, h8, rfl, rfl⟩ := parseIf_ok h
  obtain ⟨ta, ha1, ha2⟩ := parseExpression_tokens h2
  obtain ⟨tb, hb1, hb2⟩ := parseExpression_tokens h4
  have hne : (getNextToken (getNextToken st3.alloc)).currentToken.type
      ≠ TokenType.TOKEN_EOF := by
    intro he
    have h9 : st5 = getNextToken (getNextToken (getNextToken st3.alloc)) := by
      rcases parseStatement_ok h7 with ⟨h0, -⟩ | ⟨h0, -⟩ | ⟨h0, -⟩ | ⟨-, -, -, -, h0⟩
      · rw [he] at h0; cases h0
      · rw [he] at h0; cases h0
      · rw [he] at h0; cases h0
      · exact h0
    have h10 := getNextToken_of_nil _ (getNextToken_eof _ he)
    rw [← h9, h8] at h10
    cases h10
  obtain ⟨ts, hs1, hs2⟩ := parseStatement_tokens fuel hne h7
  obtain ⟨ca, hca⟩ := generateExpression_isExpr tbl (parseExpression_shape h2)
  obtain ⟨cb, hcb⟩ := generateExpression_isExpr tbl (parseExpression_shape h4)
  have hbody : nextOf body = .null ∧ ∃ cs, generateCode addr tbl body = .ok cs := by
    rcases parseStatement_shape _ h7 with rfl | hb
    · exact ⟨rfl, [], by simp [generateCode]⟩
    · obtain ⟨cs, hcs, -, -⟩ := generateCode_isStmt addr tbl hb
      exact ⟨nextOf_isStmt hb, cs, hcs⟩
  obtain ⟨hn, cs, hcs⟩ := hbody
  refine ⟨a, st2, b, st3, body, st5, ta, tb, ts, ca, cb, cs, ?_, ha1, hb1, hs1, h2, ha2, h3,
    h4, hb2, h5, h6, h7, hs2, h8, rfl, rfl, hn, hca, hcb, hcs, fun rest cr hcr => ?_⟩
  · rw [remaining_next (getNextToken st) (by rw [h1]; simp), h1, ← remaining_next_alloc, ha2,
      remaining_next st2 (by rw [h3]; simp), h3, hb2,
      remaining_next st3 (by rw [h5]; simp), h5, ← remaining_next_alloc,
      remaining_next _ (by rw [h6]; simp), h6, hs2,
      remaining_next st5 (by rw [h8]; simp), h8]
  · simp [ifNode, binaryNode, createData, link, generateCode, hca, hcb, hcs, hcr]

/-- The `if` statement whose text is `if (a == b) { s }`: the node built from
it, the position after it, and the block emitted for it. -/
theorem parseStatement_if_source (fuel : Nat) (st : State) (id cid : Nat)
    {a b s : ASTNode} (ha : WfExpr a) (hb : WfExpr b) (hs : WfStmt s) (text : List Char)
    (hat : At st (source (ifNode id (binaryNode cid '=' a b) s) ++ text))
    (hf : Fuelled (fuel + 1) st)
    (hcap : st.varTable.length + (declNames s).length ≤ MAX_VARS)
    (addr : Nat → Nat) (tbl : List (List Char)) :
    ∃ stx ca cb cs,
      parseStatement (fuel + 1) st =
        .ok (renumber st.nalloc (ifNode id (binaryNode cid '=' a b) s), stx) ∧
      At stx text ∧
      generateExpression tbl a = .ok ca ∧
      generateExpression tbl b = .ok cb ∧
      generateCode addr tbl (renumber (st.nalloc + 1 + nodeCount a + nodeCount b + 1) s) =
        .ok cs ∧
      ∀ rest cr, generateCode addr tbl rest = .ok cr →
        generateCode addr tbl
            (link (renumber st.nalloc (ifNode id (binaryNode cid '=' a b) s)) rest) =
          .ok ([Line.ifStatement] ++ ca ++ [Line.pushSide] ++ cb ++
            [Line.movR1, Line.popSide, Line.cmp, Line.jne (addr st.nalloc)] ++ cs ++
            [Line.label (addr st.nalloc)] ++ cr) := by
  obtain ⟨stx, p1, p2, -, -⟩ := parseStatement_source (WfStmt.ifStmt id cid ha hb hs)
    (fuel + 1) st text hat hf (by simpa [declNames, ifNode, createData] using hcap)
  have hif : st.currentToken.type = TokenType.TOKEN_IF := by
    rw [renumber_ifNode] at p1
    rcases parseStatement_ok p1 with ⟨-, h1⟩ | ⟨-, h1⟩ | ⟨h0, -⟩ | ⟨-, -, -, h1, -⟩
    · obtain ⟨-, -, -, h2, -⟩ := parseVarDecl_ok h1
      simp [ifNode, varDeclNode, createData] at h2
    · obtain ⟨right, st2, -, -, -, h2, -⟩ := parseAssignment_ok h1
      simp [ifNode, assignNode, createData] at h2
    · exact h0
    · simp [ifNode] at h1
  have p3 := p1
  rw [parseStatement_if_succ _ _ hif] at p3
  obtain ⟨a', st2, b', st3, body', st5, ta, tb, ts, ca, cb, cs, -, -, -, -, -, -, -, -, -, -,
    -, -, -, -, -, hn, -, hca, hcb, hcs, hlay⟩ := parseIf_parts fuel st stx _ p3 addr tbl
  rw [renumber_ifNode] at hn
  simp only [ifNode, binaryNode, createData, ASTNode.node.injEq, NodeData.mk.injEq,
    true_and, and_true] at hn
  obtain ⟨⟨-, hna, hnb⟩, hnbody⟩ := hn
  rw [← hna, generateExpression_renumber] at hca
  rw [← hnb, generateExpression_renumber] at hcb
  rw [← hnbody] at hcs
  exact ⟨stx, ca, cb, cs, p1, p2, hca, hcb, hcs, hlay⟩

/-- C8: for every `if` statement parsed from source, `parseIf` has read `(`,
the expression `a` (what `parseExpression` builds from the tokens up to `==`),
`==`, the expression `b` (from the tokens up to `)`), `)`, the opening brace,
one statement `s` (what `parseStatement` builds there), and the closing brace,
and has left what follows the `if` unread; the node it returns has the
condition `a == b` and the body `s`, a single statement without successor.
The emitted block is the code of `a`, PUSH, the code of `b`, MOV, POP, CMP,
`JNE L`, then what `generateCode` emits for the body and nothing else, then
the label `L:` with the same `L`.  The statements that follow the `if` are
parsed after it by the loop of `parseProgram` and linked behind the node, and
their code comes after the label.  In particular for the text
`if (a == b) { s }` of well-formed `a`, `b`, `s`: the block is made of the
code of this `a`, this `b` and this `s`. -/
theorem parseIf_block (fuel : Nat) (st st' : State) (n : ASTNode)
    (h : parseIf (parseStatement fuel) st = .ok (n, st'))
    (addr : Nat → Nat) (tbl : List (List Char)) :
    (∃ a st2 b st3 body st5 ta tb ts ca cb cs,
      remaining (getNextToken st) = TokenType.TOKEN_LPAREN :: (ta ++ TokenType.TOKEN_EQUAL ::
        (tb ++ TokenType.TOKEN_RPAREN :: TokenType.TOKEN_LBRACE ::
          (ts ++ TokenType.TOKEN_RBRACE :: remaining st'))) ∧
      GExpr ta ∧ GExpr tb ∧ GStmt NotStart ts ∧
      parseExpression (getNextToken (getNextToken st).alloc) = .ok (a, st2) ∧
      remaining (getNextToken (getNextToken st).alloc) = ta ++ remaining st2 ∧
      st2.currentToken.type = TokenType.TOKEN_EQUAL ∧
      parseExpression (getNextToken st2) = .ok (b, st3) ∧
      remaining (getNextToken st2) = tb ++ remaining st3 ∧
      st3.currentToken.type = TokenType.TOKEN_RPAREN ∧
      (getNextToken st3.alloc).currentToken.type = TokenType.TOKEN_LBRACE ∧
      parseStatement fuel (getNextToken (getNextToken st3.alloc)) = .ok (body, st5) ∧
      remaining (getNextToken (getNextToken st3.alloc)) = ts ++ remaining st5 ∧
      st5.currentToken.type = TokenType.TOKEN_RBRACE ∧
      st' = getNextToken st5 ∧
      n = ifNode st.nalloc (binaryNode st3.nalloc '=' a b) body ∧
      nextOf body = .null ∧
      generateExpression tbl a = .ok ca ∧
      generateExpression tbl b = .ok cb ∧
      generateCode addr tbl body = .ok cs ∧
      ∀ rest cr, generateCode addr tbl rest = .ok cr →
        generateCode addr tbl (link n rest) =
          .ok ([Line.ifStatement] ++ ca ++ [Line.pushSide] ++ cb ++
            [Line.movR1, Line.popSide, Line.cmp, Line.jne (addr st.nalloc)] ++ cs ++
            [Line.label (addr st.nalloc)] ++ cr)) ∧
    (∀ rest st'', st.currentToken.type = TokenType.TOKEN_IF →
      parseProgramLoop fuel st' = .ok (rest, st'') →
      parseProgramLoop (fuel + 1) st = .ok (link n rest, st'')) ∧
    (∀ (id cid : Nat) (a b s : ASTNode) (text : List Char),
      WfExpr a → WfExpr b → WfStmt s →
      At st (source (ifNode id (binaryNode cid '=' a b) s) ++ text) →
      Fuelled (fuel + 1) st → st.varTable.length + (declNames s).length ≤ MAX_VARS →
      ∃ stx ca cb cs,
        parseStatement (fuel + 1) st =
          .ok (renumber st.nalloc (ifNode id (binaryNode cid '=' a b) s), stx) ∧
        At stx text ∧
        generateExpression tbl a = .ok ca ∧
        generateExpression tbl b = .ok cb ∧
        generateCode addr tbl (renumber (st.nalloc + 1 + nodeCount a + nodeCount b + 1) s) =
          .ok cs ∧
        ∀ rest cr, generateCode addr tbl rest = .ok cr →
          generateCode addr tbl
              (link (renumber st.nalloc (ifNode id (binaryNode cid '=' a b) s)) rest) =
            .ok ([Line.ifStatement] ++ ca ++ [Line.pushSide] ++ cb ++
              [Line.movR1, Line.popSide, Line.cmp, Line.jne (addr st.nalloc)] ++ cs ++
              [Line.label (addr st.nalloc)] ++ cr)) := by
  refine ⟨parseIf_parts fuel st st' n h addr tbl, fun rest st'' hif hrest => ?_,
    fun id cid a b s text ha hb hs hat hf hcap =>
      parseStatement_if_source fuel st id cid ha hb hs text hat hf hcap addr tbl⟩
  rw [parseProgramLoop_succ _ _ (by rw [hif]; simp), parseStatement_if_succ _ _ hif, h]
  simp only [hrest]

/-- C8, at the `if` of `if (a == 1) { a = 2; } a = 3;`: the node has the
condition `a == 1` and the body `a = 2;`, and `a = 3;` is left to be parsed. -/
theorem parseIf_block_witness :
    ∃ n st', parseIf (parseStatement 0) (getNextToken (initialState "if (a == 1) \x7b a = 2; \x7d a = 3;".toList)) = .ok (n, st') ∧
      n = ifNode 0 (binaryNode 3 '=' (identifierNode 1 ['a']) (numberNode 2 1))
        (assignNode 4 ['a'] (numberNode 5 2)) ∧
      remaining st' = [TokenType.TOKEN_IDENTIFIER, TokenType.TOKEN_ASSIGN,
        TokenType.TOKEN_NUMBER, TokenType.TOKEN_SEMICOLON] ∧
      (∃ a st2 b st3 body st5 ta tb ts ca cb cs,
        remaining (getNextToken (getNextToken (initialState "if (a == 1) \x7b a = 2; \x7d a = 3;".toList))) = TokenType.TOKEN_LPAREN :: (ta ++ TokenType.TOKEN_EQUAL ::
          (tb ++ TokenType.TOKEN_RPAREN :: TokenType.TOKEN_LBRACE ::
            (ts ++ TokenType.TOKEN_RBRACE :: remaining st'))) ∧
        GExpr ta ∧ GExpr tb ∧ GStmt NotStart ts ∧
        parseExpression (getNextToken (getNextToken (getNextToken (initialState "if (a == 1) \x7b a = 2; \x7d a = 3;".toList))).alloc) = .ok (a, st2) ∧
        remaining (getNextToken (getNextToken (getNextToken (initialState "if (a == 1) \x7b a = 2; \x7d a = 3;".toList))).alloc) = ta ++ remaining st2 ∧
        st2.currentToken.type = TokenType.TOKEN_EQUAL ∧
        parseExpression (getNextToken st2) = .ok (b, st3) ∧
        remaining (getNextToken st2) = tb ++ remaining st3 ∧
        st3.currentToken.type = TokenType.TOKEN_RPAREN ∧
        (getNextToken st3.alloc).currentToken.type = TokenType.TOKEN_LBRACE ∧
        parseStatement 0 (getNextToken (getNextToken st3.alloc)) = .ok (body, st5) ∧
        remaining (getNextToken (getNextToken st3.alloc)) = ts ++ remaining st5 ∧
        st5.currentToken.type = TokenType.TOKEN_RBRACE ∧
        st' = getNextToken st5 ∧
        n = ifNode (getNextToken (initialState "if (a == 1) \x7b a = 2; \x7d a = 3;".toList)).nalloc (binaryNode st3.nalloc '=' a b) body ∧
        nextOf body = .null ∧
        generateExpression [['a']] a = .ok ca ∧
        generateExpression [['a']] b = .ok cb ∧
        generateCode (fun k => 4096 + 64 * k) [['a']] body = .ok cs ∧
        ∀ rest cr, generateCode (fun k => 4096 + 64 * k) [['a']] rest = .ok cr →
          generateCode (fun k => 4096 + 64 * k) [['a']] (link n rest) =
            .ok ([Line.ifStatement] ++ ca ++ [Line.pushSide] ++ cb ++
              [Line.movR1, Line.popSide, Line.cmp, Line.jne ((fun k => 4096 + 64 * k) (getNextToken (initialState "if (a == 1) \x7b a = 2; \x7d a = 3;".toList)).nalloc)] ++ cs ++
              [Line.label ((fun k => 4096 + 64 * k) (getNextToken (initialState "if (a == 1) \x7b a = 2; \x7d a = 3;".toList)).nalloc)] ++ cr)) ∧
      (∀ rest st'', (getNextToken (initialState "if (a == 1) \x7b a = 2; \x7d a = 3;".toList)).currentToken.type = TokenType.TOKEN_IF →
        parseProgramLoop 0 st' = .ok (rest, st'') →
        parseProgramLoop (0 + 1) (getNextToken (initialState "if (a == 1) \x7b a = 2; \x7d a = 3;".toList)) = .ok (link n rest, st'')) ∧
      (∀ (id cid : Nat) (a b s : ASTNode) (text : List Char),
        WfExpr a → WfExpr b → WfStmt s →
        At (getNextToken (initialState "if (a == 1) \x7b a = 2; \x7d a = 3;".toList)) (source (ifNode id (binaryNode cid '=' a b) s) ++ text) →
        Fuelled (0 + 1) (getNextToken (initialState "if (a == 1) \x7b a = 2; \x7d a = 3;".toList)) → (getNextToken (initialState "if (a == 1) \x7b a = 2; \x7d a = 3;".toList)).varTable.length + (declNames s).length ≤ MAX_VARS →
        ∃ stx ca cb cs,
          parseStatement (0 + 1) (getNextToken (initialState "if (a == 1) \x7b a = 2; \x7d a = 3;".toList)) =
            .ok (renumber (getNextToken (initialState "if (a == 1) \x7b a = 2; \x7d a = 3;".toList)).nalloc (ifNode id (binaryNode cid '=' a b) s), stx) ∧
          At stx text ∧
          generateExpression [['a']] a = .ok ca ∧
          generateExpression [['a']] b = .ok cb ∧
          generateCode (fun k => 4096 + 64 * k) [['a']] (renumber ((getNextToken (initialState "if (a == 1) \x7b a = 2; \x7d a = 3;".toList)).nalloc + 1 + nodeCount a + nodeCount b + 1) s) =
            .ok cs ∧
          ∀ rest cr, generateCode (fun k => 4096 + 64 * k) [['a']] rest = .ok cr →
            generateCode (fun k => 4096 + 64 * k) [['a']]
                (link (renumber (getNextToken (initialState "if (a == 1) \x7b a = 2; \x7d a = 3;".toList)).nalloc (ifNode id (binaryNode cid '=' a b) s)) rest) =
              .ok ([Line.ifStatement] ++ ca ++ [Line.pushSide] ++ cb ++
                [Line.movR1, Line.popSide, Line.cmp, Line.jne ((fun k => 4096 + 64 * k) (getNextToken (initialState "if (a == 1) \x7b a = 2; \x7d a = 3;".toList)).nalloc)] ++ cs ++
                [Line.label ((fun k => 4096 + 64 * k) (getNextToken (initialState "if (a == 1) \x7b a = 2; \x7d a = 3;".toList)).nalloc)] ++ cr)) :=
  ⟨_, _, rfl, by decide, by decide, parseIf_block 0
    (getNextToken (initialState "if (a == 1) \x7b a = 2; \x7d a = 3;".toList)) _ _ rfl _ _⟩

/-! ## Termination -/

/-- C20 (as stated, refuted): on `if (1 == 2) {` the call of `parseStatement`
in `parseIf` (line 304) is made with the end-of-input token current; it
returns (NULL) through lines 183-184 without advancing past any token: the
state after it is the state before it.  The compilation then ends with the
diagnostic of the missing closing brace. -/
theorem parseStatement_at_end_of_input :
    (∀ ps : State → Res (ASTNode × State),
      parseIf ps (getNextToken (initialState "if (1 == 2) \x7b".toList).alloc) =
        match ps { input := [],
                   currentToken := { type := TokenType.TOKEN_EOF, text := [], value := 2 },
                   varTable := [], nalloc := 5 } with
        | .error e => .error e
        | .ok (body, st5) =>
          if st5.currentToken.type ≠ TokenType.TOKEN_RBRACE then
            .error (.exit "Error: Expected '\x7d'\n")
          else
            .ok (ifNode 1 (binaryNode 4 '=' (numberNode 2 1) (numberNode 3 2)) body,
                 getNextToken st5)) ∧
    parseStatement 0
        { input := [],
          currentToken := { type := TokenType.TOKEN_EOF, text := [], value := 2 },
          varTable := [], nalloc := 5 } =
      .ok (.null,
        { input := [],
          currentToken := { type := TokenType.TOKEN_EOF, text := [], value := 2 },
          varTable := [], nalloc := 5 }) ∧
    remaining
        { input := [],
          currentToken := { type := TokenType.TOKEN_EOF, text := [], value := 2 },
          varTable := [], nalloc := 5 } = [] ∧
    compile id "if (1 == 2) \x7b".toList = .error (.exit "Error: Expected '\x7d'\n") := by
  refine ⟨fun ps => rfl, by decide, by decide, by decide⟩

/-- C20 (amended): every call of `getNextToken` consumes at least one
character or returns the end-of-input token (with nothing left unread); every
call of `parseStatement` that returns has called `getNextToken`, and has
advanced past at least one token unless it was called with the end-of-input
token current, in which case it returns NULL and the end-of-input token stays
current; `parseProgram`, whose loops are given one iteration more than the
input has characters, never runs out of them: on every input it ends, with an
AST, with the diagnostic of a syntax error, or, only if the input has more
than 26 `int` tokens, at the write past the variable table; and
`generateCode`, a recursion on the tree, returns its output on every AST the
parser returns. -/
theorem terminates_by_progress (addr : Nat → Nat) (src : List Char) (st : State) (fuel : Nat) :
    ((getNextToken st).input.length < st.input.length ∨
      ((getNextToken st).currentToken.type = TokenType.TOKEN_EOF ∧
        (getNextToken st).input = [])) ∧
    (∀ n st', parseStatement fuel st = .ok (n, st') →
      (∃ s, st' = getNextToken s ∧ s.input.length ≤ st.input.length) ∧
      st'.input.length ≤ st.input.length ∧
      (st.currentToken.type ≠ TokenType.TOKEN_EOF →
        (remaining st').length < (remaining st).length)) ∧
    (st.currentToken.type = TokenType.TOKEN_EOF →
      parseStatement fuel st = .ok (.null, getNextToken st) ∧ remaining st = [] ∧
      (st.input = [] → (getNextToken st).currentToken.type = TokenType.TOKEN_EOF ∧
        (getNextToken st).input = [] ∧ remaining (getNextToken st) = remaining st)) ∧
    parseProgram (initialState src) ≠ .error .fuel ∧
    ((∃ ast st1, parseProgram (initialState src) = .ok (ast, st1)) ∨
      (∃ msg, parseProgram (initialState src) = .error (.exit msg)) ∨
      (∃ why, parseProgram (initialState src) = .error (.undefined why) ∧
        MAX_VARS < (tokenTypes src).count TokenType.TOKEN_INT)) ∧
    (∀ ast st1, parseProgram (initialState src) = .ok (ast, st1) →
      ∃ out, generateCode addr st1.varTable ast = .ok out ∧ compile addr src = .ok out) := by
  refine ⟨?_, fun n st' h => ⟨parseStatement_length fuel h, ?_, fun hne => ?_⟩,
    fun he => ⟨?_, remaining_eof st he, fun hin => ?_⟩,
    parseProgram_ne_fuel _, ?_, fun ast st1 h => ?_⟩
  · by_cases he : (getNextToken st).currentToken.type = TokenType.TOKEN_EOF
    · exact Or.inr ⟨he, getNextToken_eof st he⟩
    · exact Or.inl (getNextToken_length_lt st he)
  · obtain ⟨s, rfl, hs⟩ := parseStatement_length fuel h
    exact Nat.le_trans (getNextToken_length_le s) hs
  · obtain ⟨ts, hts, hrem⟩ := parseStatement_tokens fuel hne h
    rw [hrem, List.length_append]
    have := List.length_pos.2 (gstmt_ne_nil hts)
    omega
  · exact parseStatement_other fuel st (by rw [he]; decide) (by rw [he]; decide)
      (by rw [he]; decide)
  · have h1 := getNextToken_of_nil st hin
    exact ⟨h1, getNextToken_eof st h1, by rw [remaining_eof _ h1, remaining_eof st he]⟩
  · cases hp : parseProgram (initialState src) with
    | ok r => exact Or.inl ⟨r.1, r.2, rfl⟩
    | error e =>
      cases e with
      | exit msg => exact Or.inr (Or.inl ⟨msg, rfl⟩)
      | fuel => exact absurd hp (parseProgram_ne_fuel _)
      | undefined why =>
        refine Or.inr (Or.inr ⟨why, rfl, ?_⟩)
        by_contra hc
        obtain ⟨msg, hm⟩ := parseProgram_exit (Nat.le_of_not_lt hc) hp
        cases hm
  · obtain ⟨out, h1, h2⟩ := compile_parsed addr h
    exact ⟨out, h2, h1⟩

end SimpleLang
